import Mathlib

/-!
Verification development for the `radix-tree-rs` repository: an immutable,
persistent radix tree mutated through copy-on-write transactions.

Rust strings are embedded as byte lists (`List Nat`).  Rust `&str` slicing
(`s[..i]`, `s[i..]`, `String::replace_range`) panics when the cut point is not
a char boundary; we model those operations as `Option`-valued, with `none`
standing for a panic.  All other machine-level aspects (u32 size counters,
slice binary search) are embedded directly from the source.

Two models of the same transaction code appear below:
* a pure value model (`RNode`, `internal_insert`, `internal_delete`, ...)
  describing the values produced by a transaction, used for the functional
  claims; and
* a heap model (`NodeD`, `Store`, `internal_deleteS`, ...) in which nodes are
  store identities and `Arc` sharing and in-place mutation are explicit, used
  for the persistence / cloning claims.

Recursive tree walks take an explicit fuel argument (first parameter) purely
for termination; every theorem instantiates a fuel that is provably
sufficient, so fuel exhaustion never models source behaviour.
-/

/-! ## Byte strings and Rust char boundaries -/

/-- Predicate for a UTF-8 continuation byte (`0x80 ≤ b < 0xC0`), as a Bool. -/
def contB (b : Nat) : Bool := 0x80 ≤ b && b < 0xC0

/-- Rust `str::is_char_boundary`: true at 0 and at the length, and at any
in-range index holding a non-continuation byte.  Out-of-range indices are not
boundaries (slicing there panics, as in Rust). -/
def isCharBoundary (s : List Nat) (i : Nat) : Bool :=
  i == 0 || i == s.length || (decide (i < s.length) && !contB (s.getD i 0))

/-- Rust `&s[..i]`: `none` models the panic on a non-boundary index. -/
def strTake (s : List Nat) (i : Nat) : Option (List Nat) :=
  if isCharBoundary s i then some (s.take i) else none

/-- Rust `&s[i..]` (and `String::replace_range(..i, "")`): `none` models the
panic on a non-boundary index. -/
def strDrop (s : List Nat) (i : Nat) : Option (List Nat) :=
  if isCharBoundary s i then some (s.drop i) else none

/-- Structural well-formedness of UTF-8 byte sequences: each character is a
block whose length is determined by its first byte, followed by the right
number of continuation bytes.  Every Rust `String`/`&str` satisfies this (it
is slightly weaker than full UTF-8 validity, which also excludes overlong
forms and surrogates, so every Rust string is covered). -/
inductive VStr : List Nat → Prop where
  | nil : VStr []
  | one {b : Nat} {r : List Nat} : b < 0x80 → VStr r → VStr (b :: r)
  | two {b c1 : Nat} {r : List Nat} : 0xC0 ≤ b → b < 0xE0 → contB c1 = true →
      VStr r → VStr (b :: c1 :: r)
  | three {b c1 c2 : Nat} {r : List Nat} : 0xE0 ≤ b → b < 0xF0 → contB c1 = true →
      contB c2 = true → VStr r → VStr (b :: c1 :: c2 :: r)
  | four {b c1 c2 c3 : Nat} {r : List Nat} : 0xF0 ≤ b → b < 0x100 → contB c1 = true →
      contB c2 = true → contB c3 = true → VStr r → VStr (b :: c1 :: c2 :: c3 :: r)

theorem contB_iff {b : Nat} : contB b = true ↔ 0x80 ≤ b ∧ b < 0xC0 := by
  simp [contB]

theorem contB_false_iff {b : Nat} : contB b = false ↔ b < 0x80 ∨ 0xC0 ≤ b := by
  rw [← Bool.not_eq_true, contB_iff]; omega

/-- All-ASCII byte lists are valid strings; convenient for concrete witnesses. -/
theorem vstr_of_ascii : ∀ {s : List Nat}, (∀ b ∈ s, b < 0x80) → VStr s
  | [], _ => VStr.nil
  | b :: r, h =>
    VStr.one (h b (by simp)) (vstr_of_ascii (fun x hx => h x (by simp [hx])))

theorem vstr_head_not_cont {b : Nat} {r : List Nat} (h : VStr (b :: r)) :
    contB b = false := by
  cases h with
  | one h1 _ => exact contB_false_iff.mpr (Or.inl h1)
  | two h1 _ _ _ => exact contB_false_iff.mpr (Or.inr h1)
  | three h1 _ _ _ _ => exact contB_false_iff.mpr (Or.inr (by omega))
  | four h1 _ _ _ _ _ => exact contB_false_iff.mpr (Or.inr (by omega))

theorem vstr_nil_or_head {r : List Nat} (h : VStr r) :
    r = [] ∨ contB (r.getD 0 0) = false := by
  cases h with
  | nil => exact Or.inl rfl
  | one h1 _ => exact Or.inr (by simpa using contB_false_iff.mpr (Or.inl h1))
  | two h1 _ _ _ => exact Or.inr (by simpa using contB_false_iff.mpr (Or.inr h1))
  | three h1 _ _ _ _ => exact Or.inr (by simpa using contB_false_iff.mpr (Or.inr (by omega)))
  | four h1 _ _ _ _ _ => exact Or.inr (by simpa using contB_false_iff.mpr (Or.inr (by omega)))

theorem vstr_append {a b : List Nat} (ha : VStr a) (hb : VStr b) : VStr (a ++ b) := by
  induction ha with
  | nil => exact hb
  | one h1 _ ih => exact VStr.one h1 ih
  | two h1 h2 hc _ ih => exact VStr.two h1 h2 hc ih
  | three h1 h2 hc1 hc2 _ ih => exact VStr.three h1 h2 hc1 hc2 ih
  | four h1 h2 hc1 hc2 hc3 _ ih => exact VStr.four h1 h2 hc1 hc2 hc3 ih

theorem isCharBoundary_iff {s : List Nat} {i : Nat} :
    isCharBoundary s i = true ↔
      i = 0 ∨ i = s.length ∨ (i < s.length ∧ contB (s.getD i 0) = false) := by
  simp [isCharBoundary, Bool.or_eq_true, Bool.and_eq_true, or_assoc]

theorem isCharBoundary_zero {s : List Nat} : isCharBoundary s 0 = true := by
  simp [isCharBoundary]

theorem isCharBoundary_length {s : List Nat} : isCharBoundary s s.length = true := by
  simp [isCharBoundary]

/-- Lifting a char boundary over one prepended byte; the side condition on the
head of `r` is needed only when the boundary is at position 0 of `r`. -/
theorem boundary_cons {b : Nat} {r : List Nat} {j : Nat}
    (h : isCharBoundary r j = true)
    (h0 : j = 0 → r = [] ∨ contB (r.getD 0 0) = false) :
    isCharBoundary (b :: r) (j + 1) = true := by
  rcases isCharBoundary_iff.mp h with hj | hj | ⟨hj, hc⟩
  · subst hj
    rcases h0 rfl with hr | hr
    · subst hr
      exact isCharBoundary_iff.mpr (Or.inr (Or.inl (by simp)))
    · apply isCharBoundary_iff.mpr
      cases r with
      | nil => exact Or.inr (Or.inl (by simp))
      | cons x xs =>
        refine Or.inr (Or.inr ⟨by simp, ?_⟩)
        simpa using hr
  · subst hj
    exact isCharBoundary_iff.mpr (Or.inr (Or.inl (by simp)))
  · apply isCharBoundary_iff.mpr
    refine Or.inr (Or.inr ⟨?_, ?_⟩)
    · simpa using Nat.succ_lt_succ hj
    · simpa using hc

/-- Dropping a char boundary under one prepended byte, for positions ≥ 1. -/
theorem boundary_uncons {b : Nat} {r : List Nat} {j : Nat}
    (h : isCharBoundary (b :: r) (j + 1) = true) :
    isCharBoundary r j = true := by
  rcases isCharBoundary_iff.mp h with hj | hj | ⟨hj, hc⟩
  · omega
  · exact isCharBoundary_iff.mpr (Or.inr (Or.inl (by simpa using hj)))
  · rcases Nat.eq_zero_or_pos j with hz | hz
    · exact isCharBoundary_iff.mpr (Or.inl hz)
    · apply isCharBoundary_iff.mpr
      refine Or.inr (Or.inr ⟨by simpa using Nat.lt_of_succ_lt_succ hj, ?_⟩)
      simpa using hc

/-- Slicing a valid string at a char boundary yields two valid strings
(`take` side and `drop` side). -/
theorem vstr_take_drop {s : List Nat} (hs : VStr s) :
    ∀ {i : Nat}, isCharBoundary s i = true → VStr (s.take i) ∧ VStr (s.drop i) := by
  induction hs with
  | nil =>
    intro i hi
    rcases isCharBoundary_iff.mp hi with h | h | ⟨h, _⟩
    · subst h; exact ⟨VStr.nil, VStr.nil⟩
    · simp at h; subst h; exact ⟨VStr.nil, VStr.nil⟩
    · simp at h
  | @one b r h1 hr ih =>
    intro i hi
    match i with
    | 0 => exact ⟨VStr.nil, VStr.one h1 hr⟩
    | j + 1 =>
      obtain ⟨ht, hd⟩ := ih (boundary_uncons hi)
      exact ⟨by simpa using VStr.one h1 ht, by simpa using hd⟩
  | @two b c1 r h1 h2 hc hr ih =>
    intro i hi
    match i with
    | 0 => exact ⟨VStr.nil, VStr.two h1 h2 hc hr⟩
    | 1 =>
      exfalso
      rcases isCharBoundary_iff.mp hi with h | h | ⟨_, h⟩
      · omega
      · simp at h
      · rw [List.getD_cons_succ, List.getD_cons_zero] at h
        rw [hc] at h
        simp at h
    | j + 2 =>
      obtain ⟨ht, hd⟩ := ih (boundary_uncons (boundary_uncons hi))
      exact ⟨by simpa using VStr.two h1 h2 hc ht, by simpa using hd⟩
  | @three b c1 c2 r h1 h2 hc1 hc2 hr ih =>
    intro i hi
    match i with
    | 0 => exact ⟨VStr.nil, VStr.three h1 h2 hc1 hc2 hr⟩
    | 1 =>
      exfalso
      rcases isCharBoundary_iff.mp hi with h | h | ⟨_, h⟩
      · omega
      · simp at h
      · rw [List.getD_cons_succ, List.getD_cons_zero] at h
        rw [hc1] at h
        simp at h
    | 2 =>
      exfalso
      rcases isCharBoundary_iff.mp hi with h | h | ⟨_, h⟩
      · omega
      · simp at h
      · rw [List.getD_cons_succ, List.getD_cons_succ, List.getD_cons_zero] at h
        rw [hc2] at h
        simp at h
    | j + 3 =>
      obtain ⟨ht, hd⟩ := ih (boundary_uncons (boundary_uncons (boundary_uncons hi)))
      exact ⟨by simpa using VStr.three h1 h2 hc1 hc2 ht, by simpa using hd⟩
  | @four b c1 c2 c3 r h1 h2 hc1 hc2 hc3 hr ih =>
    intro i hi
    match i with
    | 0 => exact ⟨VStr.nil, VStr.four h1 h2 hc1 hc2 hc3 hr⟩
    | 1 =>
      exfalso
      rcases isCharBoundary_iff.mp hi with h | h | ⟨_, h⟩
      · omega
      · simp at h
      · rw [List.getD_cons_succ, List.getD_cons_zero] at h
        rw [hc1] at h
        simp at h
    | 2 =>
      exfalso
      rcases isCharBoundary_iff.mp hi with h | h | ⟨_, h⟩
      · omega
      · simp at h
      · rw [List.getD_cons_succ, List.getD_cons_succ, List.getD_cons_zero] at h
        rw [hc2] at h
        simp at h
    | 3 =>
      exfalso
      rcases isCharBoundary_iff.mp hi with h | h | ⟨_, h⟩
      · omega
      · simp at h
      · rw [List.getD_cons_succ, List.getD_cons_succ, List.getD_cons_succ,
          List.getD_cons_zero] at h
        rw [hc3] at h
        simp at h
    | j + 4 =>
      obtain ⟨ht, hd⟩ :=
        ih (boundary_uncons (boundary_uncons (boundary_uncons (boundary_uncons hi))))
      exact ⟨by simpa using VStr.four h1 h2 hc1 hc2 hc3 ht, by simpa using hd⟩

/-- In a valid string, any position whose initial segment is itself valid is a
char boundary (UTF-8 is self-synchronizing). -/
theorem boundary_of_take_vstr {s : List Nat} (hs : VStr s) :
    ∀ {i : Nat}, i ≤ s.length → VStr (s.take i) → isCharBoundary s i = true := by
  induction hs with
  | nil =>
    intro i hi _
    have : i = 0 := by simpa using hi
    subst this
    exact isCharBoundary_zero
  | @one b r h1 hr ih =>
    intro i hi ht
    match i with
    | 0 => exact isCharBoundary_zero
    | j + 1 =>
      rw [List.take_succ_cons] at ht
      have hv : VStr (r.take j) := by
        generalize hq : r.take j = q at ht
        cases ht with
        | one _ h => exact h
        | two h2 _ _ _ => omega
        | three h2 _ _ _ _ => omega
        | four h2 _ _ _ _ _ => omega
      have := ih (by simpa using Nat.le_of_succ_le_succ (by simpa using hi)) hv
      exact boundary_cons this (fun _ => vstr_nil_or_head hr)
  | @two b c1 r h1 h2 hc hr ih =>
    intro i hi ht
    match i with
    | 0 => exact isCharBoundary_zero
    | 1 =>
      exfalso
      rw [List.take_succ_cons, List.take_zero] at ht
      cases ht with
      | one h => omega
    | j + 2 =>
      rw [List.take_succ_cons, List.take_succ_cons] at ht
      have hv : VStr (r.take j) := by
        generalize hq : r.take j = q at ht
        cases ht with
        | one h => omega
        | two _ _ _ h => exact h
        | three h3 _ _ _ _ => omega
        | four h3 _ _ _ _ _ => omega
      have hj : j ≤ r.length := by simp at hi; omega
      have hb := ih hj hv
      have hb1 : isCharBoundary (c1 :: r) (j + 1) = true :=
        boundary_cons hb (fun _ => vstr_nil_or_head hr)
      exact boundary_cons hb1 (fun h => by omega)
  | @three b c1 c2 r h1 h2 hc1 hc2 hr ih =>
    intro i hi ht
    match i with
    | 0 => exact isCharBoundary_zero
    | 1 =>
      exfalso
      rw [List.take_succ_cons, List.take_zero] at ht
      cases ht with
      | one h => omega
    | 2 =>
      exfalso
      rw [List.take_succ_cons, List.take_succ_cons, List.take_zero] at ht
      cases ht with
      | one h => omega
      | two _ h _ _ => omega
    | j + 3 =>
      rw [List.take_succ_cons, List.take_succ_cons, List.take_succ_cons] at ht
      have hv : VStr (r.take j) := by
        generalize hq : r.take j = q at ht
        cases ht with
        | one h => omega
        | two _ h _ _ => omega
        | three _ _ _ _ h => exact h
        | four h4 _ _ _ _ _ => omega
      have hj : j ≤ r.length := by simp at hi; omega
      have hb := ih hj hv
      have hb1 : isCharBoundary (c2 :: r) (j + 1) = true :=
        boundary_cons hb (fun _ => vstr_nil_or_head hr)
      have hb2 : isCharBoundary (c1 :: c2 :: r) (j + 2) = true :=
        boundary_cons hb1 (fun h => by omega)
      exact boundary_cons hb2 (fun h => by omega)
  | @four b c1 c2 c3 r h1 h2 hc1 hc2 hc3 hr ih =>
    intro i hi ht
    match i with
    | 0 => exact isCharBoundary_zero
    | 1 =>
      exfalso
      rw [List.take_succ_cons, List.take_zero] at ht
      cases ht with
      | one h => omega
    | 2 =>
      exfalso
      rw [List.take_succ_cons, List.take_succ_cons, List.take_zero] at ht
      cases ht with
      | one h => omega
      | two _ h _ _ => omega
    | 3 =>
      exfalso
      rw [List.take_succ_cons, List.take_succ_cons, List.take_succ_cons,
        List.take_zero] at ht
      cases ht with
      | one h => omega
      | two _ h _ _ => omega
      | three _ h _ _ _ => omega
    | j + 4 =>
      rw [List.take_succ_cons, List.take_succ_cons, List.take_succ_cons,
        List.take_succ_cons] at ht
      have hv : VStr (r.take j) := by
        generalize hq : r.take j = q at ht
        cases ht with
        | one h => omega
        | two _ h _ _ => omega
        | three _ h _ _ _ => omega
        | four _ _ _ _ _ h => exact h
      have hj : j ≤ r.length := by simp at hi; omega
      have hb := ih hj hv
      have hb1 : isCharBoundary (c3 :: r) (j + 1) = true :=
        boundary_cons hb (fun _ => vstr_nil_or_head hr)
      have hb2 : isCharBoundary (c2 :: c3 :: r) (j + 2) = true :=
        boundary_cons hb1 (fun h => by omega)
      have hb3 : isCharBoundary (c1 :: c2 :: c3 :: r) (j + 3) = true :=
        boundary_cons hb2 (fun h => by omega)
      exact boundary_cons hb3 (fun h => by omega)

/-- Self-synchronization: a valid byte-prefix of a valid string always ends at
a char boundary.  This is why `internal_delete` can never hit a slicing panic
on real Rust strings, unlike the split path of `internal_insert`. -/
theorem boundary_of_vstr_isPrefix {p s : List Nat} (hp : VStr p) (hs : VStr s)
    (hps : p <+: s) : isCharBoundary s p.length = true := by
  have hlen : p.length ≤ s.length := hps.length_le
  have htake : p = s.take p.length := List.prefix_iff_eq_take.mp hps
  exact boundary_of_take_vstr hs hlen (htake ▸ hp)

/-! ## utils.rs: longest_prefix -/

/-- Embeds `utils::longest_prefix`: length of the longest common byte-prefix
of two strings (the source compares bytes up to the shorter length and stops
at the first mismatch). -/
def longestPrefixLen : List Nat → List Nat → Nat
  | x :: xs, y :: ys => if x = y then longestPrefixLen xs ys + 1 else 0
  | _, _ => 0

@[simp] theorem longestPrefixLen_nil_left (b : List Nat) : longestPrefixLen [] b = 0 := by
  cases b <;> rfl

@[simp] theorem longestPrefixLen_nil_right (a : List Nat) : longestPrefixLen a [] = 0 := by
  cases a <;> rfl

theorem longestPrefixLen_cons (x y : Nat) (xs ys : List Nat) :
    longestPrefixLen (x :: xs) (y :: ys) =
      if x = y then longestPrefixLen xs ys + 1 else 0 := rfl

theorem longestPrefixLen_le_left : ∀ (a b : List Nat), longestPrefixLen a b ≤ a.length
  | [], _ => by simp
  | _ :: _, [] => by simp
  | x :: xs, y :: ys => by
    rw [longestPrefixLen_cons]
    split
    · simpa using longestPrefixLen_le_left xs ys
    · simp

theorem longestPrefixLen_le_right : ∀ (a b : List Nat), longestPrefixLen a b ≤ b.length
  | [], _ => by simp
  | _ :: _, [] => by simp
  | x :: xs, y :: ys => by
    rw [longestPrefixLen_cons]
    split
    · simpa using longestPrefixLen_le_right xs ys
    · simp

theorem longestPrefixLen_of_isPrefix : ∀ {b a : List Nat}, b <+: a →
    longestPrefixLen a b = b.length
  | [], a, _ => by simp
  | y :: ys, a, h => by
    obtain ⟨t, ht⟩ := h
    subst ht
    have ih : longestPrefixLen (ys ++ t) ys = ys.length :=
      longestPrefixLen_of_isPrefix ⟨t, rfl⟩
    simp [longestPrefixLen_cons, ih]

theorem isPrefix_of_longestPrefixLen : ∀ {a b : List Nat},
    longestPrefixLen a b = b.length → b <+: a
  | _, [], _ => List.nil_prefix
  | [], y :: ys, h => by simp at h
  | x :: xs, y :: ys, h => by
    rw [longestPrefixLen_cons] at h
    split at h
    · rename_i hxy
      subst hxy
      have := @isPrefix_of_longestPrefixLen xs ys (by simpa using h)
      exact (List.prefix_cons_inj x).mpr this
    · simp at h

theorem take_longestPrefixLen_left : ∀ (a b : List Nat),
    a.take (longestPrefixLen a b) = b.take (longestPrefixLen a b)
  | [], _ => by simp
  | _ :: _, [] => by simp
  | x :: xs, y :: ys => by
    rw [longestPrefixLen_cons]
    split
    · rename_i hxy
      subst hxy
      simp only [List.take_succ_cons]
      rw [take_longestPrefixLen_left xs ys]
    · simp

theorem getD_longestPrefixLen_ne : ∀ {a b : List Nat},
    longestPrefixLen a b < a.length → longestPrefixLen a b < b.length →
    a.getD (longestPrefixLen a b) 0 ≠ b.getD (longestPrefixLen a b) 0
  | [], _, ha, _ => by simp at ha
  | _ :: _, [], _, hb => by simp at hb
  | x :: xs, y :: ys, ha, hb => by
    rw [longestPrefixLen_cons] at ha hb ⊢
    split at ha
    · rename_i hxy
      rw [if_pos hxy]
      simp only [List.getD_cons_succ]
      rw [if_pos hxy] at hb
      exact getD_longestPrefixLen_ne (by simpa using ha) (by simpa using hb)
    · rename_i hxy
      rw [if_neg hxy]
      simpa using hxy

/-! ## node.rs: leaves, edges and nodes (pure value model)

`Arc<Node<T>>` sharing is invisible at the value level, so here a node is an
inductive value; the heap model below makes sharing explicit.  Edge lists are
a separate mutual inductive `EL` (isomorphic to `List (Nat × RNode T)` via
`EL.toList`/`EL.ofList`) so that structural recursion and decidable equality
work; all edge algorithms are stated on plain lists. -/

/-- Embeds `LeafNode<T>`: the stored key and its value. -/
structure LeafN (T : Type) where
  key : List Nat
  value : T
deriving DecidableEq, Repr

mutual

/-- Embeds `Node<T>`: a prefix segment, an optional leaf, and a sorted list of
labeled edges. -/
inductive RNode (T : Type) where
  | mk (pfx : List Nat) (leaf : Option (LeafN T)) (edges : EL T)
deriving DecidableEq

/-- Edge list of a node: each edge is a single-byte label plus a child node. -/
inductive EL (T : Type) where
  | nil
  | cons (label : Nat) (child : RNode T) (rest : EL T)
deriving DecidableEq

end

def RNode.pfx {T : Type} : RNode T → List Nat
  | .mk p _ _ => p

def RNode.leaf {T : Type} : RNode T → Option (LeafN T)
  | .mk _ l _ => l

def RNode.edges {T : Type} : RNode T → EL T
  | .mk _ _ e => e

/-- Embeds `Node::is_leaf`. -/
def RNode.is_leaf {T : Type} (n : RNode T) : Bool := n.leaf.isSome

@[simp] theorem RNode.pfx_mk {T : Type} (p : List Nat) (l : Option (LeafN T)) (e : EL T) :
    (RNode.mk p l e).pfx = p := rfl

@[simp] theorem RNode.leaf_mk {T : Type} (p : List Nat) (l : Option (LeafN T)) (e : EL T) :
    (RNode.mk p l e).leaf = l := rfl

@[simp] theorem RNode.edges_mk {T : Type} (p : List Nat) (l : Option (LeafN T)) (e : EL T) :
    (RNode.mk p l e).edges = e := rfl

def EL.toList {T : Type} : EL T → List (Nat × RNode T)
  | .nil => []
  | .cons l c r => (l, c) :: EL.toList r

def EL.ofList {T : Type} : List (Nat × RNode T) → EL T
  | [] => .nil
  | (l, c) :: r => .cons l c (EL.ofList r)

@[simp] theorem EL.toList_ofList {T : Type} : ∀ (L : List (Nat × RNode T)),
    (EL.ofList L).toList = L
  | [] => rfl
  | (l, c) :: r => by simp [EL.ofList, EL.toList, EL.toList_ofList r]

@[simp] theorem EL.ofList_toList {T : Type} : ∀ (e : EL T), EL.ofList e.toList = e
  | .nil => rfl
  | .cons l c r => by simp [EL.ofList, EL.toList, EL.ofList_toList r]

theorem EL.toList_inj {T : Type} {a b : EL T} (h : a.toList = b.toList) : a = b := by
  have := congrArg EL.ofList h
  simpa using this

/-! ## Rust slice binary search

`Edges` keeps its `Vec<Edge>` sorted by label and locates labels with
`slice::binary_search_by`; this is that loop, taken from the Rust standard
library (`left`/`right` bounds, midpoint probe, `Ok(mid)` on equality,
`Err(left)` at exhaustion).  The fuel argument only bounds the loop; the
initial interval width is always a sufficient fuel. -/

def bsearchGo (labels : List Nat) (target : Nat) : Nat → Nat → Nat → Nat ⊕ Nat
  | 0, l, _ => Sum.inr l
  | fuel + 1, l, r =>
    if l < r then
      let mid := l + (r - l) / 2
      let x := labels.getD mid 0
      if x < target then bsearchGo labels target fuel (mid + 1) r
      else if target < x then bsearchGo labels target fuel l mid
      else Sum.inl mid
    else Sum.inr l

def bsearchL (labels : List Nat) (target : Nat) : Nat ⊕ Nat :=
  bsearchGo labels target labels.length 0 labels.length

/-- Rust `Result::unwrap_or_else(|idx| idx)` applied to a binary-search
result: the found index, or the insertion point. -/
def bsIdx : Nat ⊕ Nat → Nat
  | .inl i => i
  | .inr i => i

theorem sorted_getD_lt {L : List Nat} (hs : L.Pairwise (· < ·)) {i j : Nat}
    (hij : i < j) (hj : j < L.length) : L.getD i 0 < L.getD j 0 := by
  have hi : i < L.length := lt_trans hij hj
  rw [L.getD_eq_getElem 0 hi, L.getD_eq_getElem 0 hj]
  exact List.pairwise_iff_getElem.mp hs i j hi hj hij

theorem bsearchGo_spec (labels : List Nat) (t : Nat) (hs : labels.Pairwise (· < ·)) :
    ∀ (fuel l r : Nat), l ≤ r → r ≤ labels.length → r - l ≤ fuel →
    (∀ i, i < l → i < labels.length → labels.getD i 0 < t) →
    (∀ i, r ≤ i → i < labels.length → t < labels.getD i 0) →
    (∀ j, bsearchGo labels t fuel l r = Sum.inl j →
      j < labels.length ∧ labels.getD j 0 = t) ∧
    (∀ j, bsearchGo labels t fuel l r = Sum.inr j →
      l ≤ j ∧ j ≤ r ∧
      (∀ i, i < j → i < labels.length → labels.getD i 0 < t) ∧
      (∀ i, j ≤ i → i < labels.length → t < labels.getD i 0)) := by
  intro fuel
  induction fuel with
  | zero =>
    intro l r hlr hr hf hlo hhi
    constructor
    · intro j hj
      simp [bsearchGo] at hj
    · intro j hj
      simp only [bsearchGo, Sum.inr.injEq] at hj
      subst hj
      exact ⟨le_refl _, by omega, hlo, fun i hi hlen => hhi i (by omega) hlen⟩
  | succ f ih =>
    intro l r hlr hr hf hlo hhi
    rw [bsearchGo]
    by_cases hcond : l < r
    · rw [if_pos hcond]
      simp only []
      have hmidr : l + (r - l) / 2 < r := by omega
      have hmidl : l ≤ l + (r - l) / 2 := by omega
      have hmidlen : l + (r - l) / 2 < labels.length := lt_of_lt_of_le hmidr hr
      by_cases h1 : labels.getD (l + (r - l) / 2) 0 < t
      · rw [if_pos h1]
        have hlo' : ∀ i, i < l + (r - l) / 2 + 1 → i < labels.length →
            labels.getD i 0 < t := by
          intro i hi hlen
          rcases Nat.lt_succ_iff_lt_or_eq.mp hi with h | h
          · exact lt_trans (sorted_getD_lt hs h hmidlen) h1
          · subst h; exact h1
        obtain ⟨Hinl, Hinr⟩ := ih (l + (r - l) / 2 + 1) r (by omega) hr (by omega) hlo' hhi
        refine ⟨Hinl, ?_⟩
        intro j hj
        obtain ⟨ha, hb, hc, hd⟩ := Hinr j hj
        exact ⟨by omega, hb, hc, hd⟩
      · rw [if_neg h1]
        by_cases h2 : t < labels.getD (l + (r - l) / 2) 0
        · rw [if_pos h2]
          have hhi' : ∀ i, l + (r - l) / 2 ≤ i → i < labels.length →
              t < labels.getD i 0 := by
            intro i hi hlen
            rcases Nat.eq_or_lt_of_le hi with h | h
            · rw [← h]; exact h2
            · exact lt_trans h2 (sorted_getD_lt hs h hlen)
          obtain ⟨Hinl, Hinr⟩ :=
            ih l (l + (r - l) / 2) hmidl (le_of_lt hmidlen) (by omega) hlo hhi'
          refine ⟨Hinl, ?_⟩
          intro j hj
          obtain ⟨ha, hb, hc, hd⟩ := Hinr j hj
          exact ⟨ha, by omega, hc, hd⟩
        · rw [if_neg h2]
          constructor
          · intro j hj
            have : l + (r - l) / 2 = j := by
              simpa using hj
            subst this
            exact ⟨hmidlen, by omega⟩
          · intro j hj
            simp at hj
    · rw [if_neg hcond]
      constructor
      · intro j hj
        simp at hj
      · intro j hj
        have : l = j := by simpa using hj
        subst this
        exact ⟨le_refl _, by omega, hlo, fun i hi hlen => hhi i (by omega) hlen⟩

theorem bsearchL_inl {labels : List Nat} {t j : Nat} (hs : labels.Pairwise (· < ·))
    (h : bsearchL labels t = Sum.inl j) : j < labels.length ∧ labels.getD j 0 = t :=
  ((bsearchGo_spec labels t hs labels.length 0 labels.length (Nat.zero_le _) (le_refl _)
    (by omega) (by omega) (by omega)).1 j h)

theorem bsearchL_inr {labels : List Nat} {t j : Nat} (hs : labels.Pairwise (· < ·))
    (h : bsearchL labels t = Sum.inr j) :
    j ≤ labels.length ∧
    (∀ i, i < j → i < labels.length → labels.getD i 0 < t) ∧
    (∀ i, j ≤ i → i < labels.length → t < labels.getD i 0) := by
  obtain ⟨_, h2, h3, h4⟩ :=
    ((bsearchGo_spec labels t hs labels.length 0 labels.length (Nat.zero_le _) (le_refl _)
      (by omega) (by omega) (by omega)).2 j h)
  exact ⟨h2, h3, h4⟩

theorem bsearchL_inr_not_mem {labels : List Nat} {t j : Nat} (hs : labels.Pairwise (· < ·))
    (h : bsearchL labels t = Sum.inr j) : t ∉ labels := by
  obtain ⟨hj, hlo, hhi⟩ := bsearchL_inr hs h
  intro hmem
  obtain ⟨k, hk, hget⟩ := List.getElem_of_mem hmem
  have hgetD : labels.getD k 0 = t := by rw [labels.getD_eq_getElem 0 hk]; exact hget
  rcases Nat.lt_or_ge k j with h' | h'
  · have := hlo k h' hk; omega
  · have := hhi k h' hk; omega

theorem bsearchL_found_of_mem {labels : List Nat} {t : Nat} (hs : labels.Pairwise (· < ·))
    (hmem : t ∈ labels) : ∃ j, bsearchL labels t = Sum.inl j := by
  cases h : bsearchL labels t with
  | inl j => exact ⟨j, rfl⟩
  | inr j => exact absurd hmem (bsearchL_inr_not_mem hs h)

/-! ## node.rs: the `Edges` operations

All operations locate a label through the binary search above, exactly as the
source does (`Edges::add_edge`, `replace_edge`, `replace_edge_at`,
`get_edge`, `delete_edge`, `first`, `last`).  They are stated on plain lists
of `(label, child)` pairs, generic in the child type so the heap model can
reuse them with child = node id. -/

def labelsOf {α : Type} (L : List (Nat × α)) : List Nat := L.map Prod.fst


/-- Embeds `Edges::get_edge`: binary search by label, returning the index and
the child on an exact match. -/
def getEdgeL {α : Type} (L : List (Nat × α)) (label : Nat) : Option (Nat × α) :=
  match L.get? (bsIdx (bsearchL (labelsOf L) label)) with
  | some e =>
    if e.1 = label then some (bsIdx (bsearchL (labelsOf L) label), e.2) else none
  | none => none

/-- Embeds `Edges::add_edge`: insert at the binary-search insertion point,
maintaining sorted order. -/
def addEdgeL {α : Type} (L : List (Nat × α)) (e : Nat × α) : List (Nat × α) :=
  List.insertIdx (bsIdx (bsearchL (labelsOf L) e.1)) e L

/-- Embeds `Edges::replace_edge`: replace the child of the edge with the same
label; `none` models the `panic!("replace missing edge")`. -/
def replaceEdgeL {α : Type} (L : List (Nat × α)) (e : Nat × α) : Option (List (Nat × α)) :=
  match L.get? (bsIdx (bsearchL (labelsOf L) e.1)) with
  | some e0 =>
    if e0.1 = e.1 then some (L.set (bsIdx (bsearchL (labelsOf L) e.1)) e) else none
  | none => none

/-- Embeds `Edges::replace_edge_at`: replace the child at a given index;
`none` models the panic on an index/label mismatch. -/
def replaceEdgeAtL {α : Type} (L : List (Nat × α)) (idx : Nat) (e : Nat × α) :
    Option (List (Nat × α)) :=
  match L.get? idx with
  | some e0 => if e0.1 = e.1 then some (L.set idx e) else none
  | none => none

/-- Embeds `Edges::delete_edge`: remove the edge with the given label, or do
nothing if it is absent. -/
def deleteEdgeL {α : Type} (L : List (Nat × α)) (label : Nat) : List (Nat × α) :=
  match L.get? (bsIdx (bsearchL (labelsOf L) label)) with
  | some e0 => if e0.1 = label then L.eraseIdx (bsIdx (bsearchL (labelsOf L) label)) else L
  | none => L

theorem labelsOf_length {α : Type} (L : List (Nat × α)) : (labelsOf L).length = L.length := by
  simp [labelsOf]

theorem labelsOf_getD {α : Type} {L : List (Nat × α)} {i : Nat} {e : Nat × α}
    (h : L.get? i = some e) : (labelsOf L).getD i 0 = e.1 := by
  obtain ⟨hi, he⟩ := List.get?_eq_some.mp h
  rw [List.getD_eq_getElem _ _ (by simpa [labelsOf_length] using hi)]
  simp only [labelsOf, List.getElem_map]
  simp only [List.get_eq_getElem] at he
  rw [he]

theorem labelsOf_mem {α : Type} {L : List (Nat × α)} {e : Nat × α}
    (h : e ∈ L) : e.1 ∈ labelsOf L := List.mem_map_of_mem Prod.fst h

/-- Convenience accessor: the child reached by a label (index dropped). -/
def findChild {α : Type} (L : List (Nat × α)) (label : Nat) : Option α :=
  (getEdgeL L label).map Prod.snd

theorem getEdgeL_sound {α : Type} {L : List (Nat × α)} {t i : Nat} {c : α}
    (h : getEdgeL L t = some (i, c)) : L.get? i = some (t, c) := by
  unfold getEdgeL at h
  split at h
  next e heq =>
    split at h
    next he =>
      simp only [Option.some.injEq, Prod.mk.injEq] at h
      obtain ⟨h1, h2⟩ := h
      rw [← h1, heq]
      rcases e with ⟨e1, e2⟩
      simp only at he h2
      simp [he, h2]
    next he => exact absurd h (by simp)
  next => exact absurd h (by simp)

theorem nodup_of_sorted {L : List Nat} (hs : L.Pairwise (· < ·)) : L.Nodup :=
  hs.imp Nat.ne_of_lt

theorem get?_label_inj {α : Type} {L : List (Nat × α)}
    (hs : (labelsOf L).Pairwise (· < ·)) {i j : Nat} {e f : Nat × α}
    (hi : L.get? i = some e) (hj : L.get? j = some f) (hef : e.1 = f.1) : i = j := by
  by_contra hne
  obtain ⟨hi', _⟩ := List.get?_eq_some.mp hi
  obtain ⟨hj', _⟩ := List.get?_eq_some.mp hj
  have h1 : (labelsOf L).getD i 0 = e.1 := labelsOf_getD hi
  have h2 : (labelsOf L).getD j 0 = f.1 := labelsOf_getD hj
  rcases Nat.lt_or_ge i j with h | h
  · have := sorted_getD_lt hs h (by simpa [labelsOf_length] using hj')
    omega
  · have h' : j < i := by omega
    have := sorted_getD_lt hs h' (by simpa [labelsOf_length] using hi')
    omega

theorem getEdgeL_complete {α : Type} {L : List (Nat × α)}
    (hs : (labelsOf L).Pairwise (· < ·)) {i : Nat} {e : Nat × α}
    (h : L.get? i = some e) : getEdgeL L e.1 = some (i, e.2) := by
  have hmem : e.1 ∈ labelsOf L := by
    obtain ⟨hi, he⟩ := List.get?_eq_some.mp h
    apply labelsOf_mem
    rw [← he]
    exact List.get_mem L _ _
  obtain ⟨j, hj⟩ := bsearchL_found_of_mem hs hmem
  obtain ⟨hjlen, hjget⟩ := bsearchL_inl hs hj
  have hjlen' : j < L.length := by simpa [labelsOf_length] using hjlen
  have hf : L.get? j = some (L.get ⟨j, hjlen'⟩) := List.get?_eq_some.mpr ⟨hjlen', rfl⟩
  have hfl : (L.get ⟨j, hjlen'⟩).1 = e.1 := by
    have := labelsOf_getD hf
    rw [hjget] at this
    exact this.symm
  have hij : j = i := get?_label_inj hs hf h hfl
  subst hij
  have hfe : L.get ⟨j, hjlen'⟩ = e := by
    rw [hf] at h
    simpa using h
  unfold getEdgeL
  rw [hj]
  simp only [bsIdx]
  have hf' : L[j]? = some e := by rw [← List.get?_eq_getElem?, hf, hfe]
  simp [hf']

theorem getEdgeL_none_of_not_mem {α : Type} {L : List (Nat × α)} {t : Nat}
    (h : t ∉ labelsOf L) : getEdgeL L t = none := by
  unfold getEdgeL
  split
  next e heq =>
    by_cases he : e.1 = t
    · exfalso
      apply h
      rw [← he]
      apply labelsOf_mem
      obtain ⟨hi, hget⟩ := List.get?_eq_some.mp heq
      rw [← hget]
      exact List.get_mem L _ _
    · simp [he]
  next => rfl

theorem findChild_some_iff {α : Type} {L : List (Nat × α)}
    (hs : (labelsOf L).Pairwise (· < ·)) {t : Nat} {c : α} :
    findChild L t = some c ↔ (t, c) ∈ L := by
  constructor
  · intro h
    unfold findChild at h
    cases hg : getEdgeL L t with
    | some p =>
      rw [hg] at h
      obtain ⟨i, c'⟩ := p
      have hc : c' = c := by simpa using h
      subst hc
      have := getEdgeL_sound hg
      obtain ⟨hi, hget⟩ := List.get?_eq_some.mp this
      rw [← hget]
      exact List.get_mem L _ _
    | none =>
      rw [hg] at h
      exact absurd h (by simp)
  · intro h
    obtain ⟨i, hi, hget⟩ := List.mem_iff_getElem.mp h
    have hget? : L.get? i = some (t, c) := by
      rw [List.get?_eq_getElem?]
      simp [List.getElem?_eq_getElem hi, hget]
    have := getEdgeL_complete hs hget?
    unfold findChild
    rw [this]
    rfl

theorem findChild_none_iff {α : Type} {L : List (Nat × α)}
    (hs : (labelsOf L).Pairwise (· < ·)) {t : Nat} :
    findChild L t = none ↔ t ∉ labelsOf L := by
  constructor
  · intro h hmem
    simp only [labelsOf, List.mem_map] at hmem
    obtain ⟨e, he, hel⟩ := hmem
    have hmem2 : (t, e.2) ∈ L := by
      rcases e with ⟨e1, e2⟩
      simp only at hel
      rw [← hel]
      exact he
    have := (findChild_some_iff hs).mpr hmem2
    rw [this] at h
    exact absurd h (by simp)
  · intro h
    unfold findChild
    rw [getEdgeL_none_of_not_mem h]
    rfl

theorem insertIdx_eq_take_drop {α : Type} (x : α) :
    ∀ (n : Nat) (l : List α), n ≤ l.length →
      List.insertIdx n x l = l.take n ++ x :: l.drop n
  | 0, l, _ => by simp
  | n + 1, [], h => by simp at h
  | n + 1, a :: l, h => by
    rw [List.insertIdx_succ_cons]
    simp only [List.take_succ_cons, List.drop_succ_cons, List.cons_append]
    rw [insertIdx_eq_take_drop x n l (by simpa using h)]

theorem pairwise_insertIdx {L : List Nat} (hs : L.Pairwise (· < ·)) {t j : Nat}
    (hj : j ≤ L.length)
    (hlo : ∀ i, i < j → i < L.length → L.getD i 0 < t)
    (hhi : ∀ i, j ≤ i → i < L.length → t < L.getD i 0) :
    (List.insertIdx j t L).Pairwise (· < ·) := by
  rw [insertIdx_eq_take_drop t j L hj]
  apply List.pairwise_append.mpr
  refine ⟨hs.sublist (List.take_sublist j L), ?_, ?_⟩
  · apply List.pairwise_cons.mpr
    refine ⟨?_, hs.sublist (List.drop_sublist j L)⟩
    intro b hb
    rw [List.mem_drop_iff_getElem] at hb
    obtain ⟨k, hk, hkb⟩ := hb
    have hlen : j + k < L.length := by omega
    have hgb : L.getD (j + k) 0 = b := by
      rw [List.getD_eq_getElem _ _ hlen]
      exact hkb
    rw [← hgb]
    exact hhi (j + k) (by omega) hlen
  · intro a ha b hb
    rw [List.mem_take_iff_getElem] at ha
    obtain ⟨k, hk, hka⟩ := ha
    have hklen : k < L.length := by omega
    have hka' : L.getD k 0 = a := by
      rw [List.getD_eq_getElem _ _ hklen]
      exact hka
    have hkj : k < j := by omega
    rcases List.mem_cons.mp hb with hb | hb
    · subst hb
      rw [← hka']
      exact hlo k hkj hklen
    · rw [List.mem_drop_iff_getElem] at hb
      obtain ⟨m, hm, hmb⟩ := hb
      have hmlen : j + m < L.length := by omega
      have hmb' : L.getD (j + m) 0 = b := by
        rw [List.getD_eq_getElem _ _ hmlen]
        exact hmb
      rw [← hka', ← hmb']
      exact sorted_getD_lt hs (by omega) hmlen

/-- Under sortedness, the binary search step of every edge operation lands on
the unique edge carrying the searched label. -/
theorem bsFind {α : Type} {L : List (Nat × α)} (hs : (labelsOf L).Pairwise (· < ·))
    {t : Nat} {c : α} (hmem : (t, c) ∈ L) :
    L.get? (bsIdx (bsearchL (labelsOf L) t)) = some (t, c) := by
  obtain ⟨i, hi, hget⟩ := List.mem_iff_getElem.mp hmem
  have hget? : L.get? i = some (t, c) := by
    rw [List.get?_eq_getElem?]
    simp [List.getElem?_eq_getElem hi, hget]
  have hc := getEdgeL_complete hs hget?
  unfold getEdgeL at hc
  split at hc
  next e heq =>
    split at hc
    next he =>
      simp only [Option.some.injEq, Prod.mk.injEq] at hc
      obtain ⟨h1, h2⟩ := hc
      show L.get? (bsIdx (bsearchL (labelsOf L) t)) = some (t, c)
      rw [h1]
      exact hget?
    next => exact absurd hc (by simp)
  next => exact absurd hc (by simp)

/-- When the label is absent, the binary search yields its sorted insertion
point; packaged for `add_edge`. -/
theorem bsInsertionPoint {α : Type} {L : List (Nat × α)}
    (hs : (labelsOf L).Pairwise (· < ·)) {t : Nat} (hnot : t ∉ labelsOf L) :
    ∃ j, bsearchL (labelsOf L) t = Sum.inr j ∧ j ≤ L.length ∧
      (∀ i, i < j → i < L.length → (labelsOf L).getD i 0 < t) ∧
      (∀ i, j ≤ i → i < L.length → t < (labelsOf L).getD i 0) := by
  cases hb : bsearchL (labelsOf L) t with
  | inl j =>
    obtain ⟨hlen, hget⟩ := bsearchL_inl hs hb
    exfalso
    apply hnot
    rw [← hget, List.getD_eq_getElem _ _ hlen]
    exact List.getElem_mem _
  | inr j =>
    obtain ⟨hj, hlo, hhi⟩ := bsearchL_inr hs hb
    exact ⟨j, rfl, by simpa [labelsOf_length] using hj,
      fun i h1 h2 => hlo i h1 (by simpa [labelsOf_length] using h2),
      fun i h1 h2 => hhi i h1 (by simpa [labelsOf_length] using h2)⟩

theorem labelsOf_insertIdx {α : Type} (L : List (Nat × α)) (e : Nat × α) {j : Nat}
    (hj : j ≤ L.length) :
    labelsOf (List.insertIdx j e L) = List.insertIdx j e.1 (labelsOf L) := by
  rw [insertIdx_eq_take_drop e j L hj,
    insertIdx_eq_take_drop e.1 j (labelsOf L) (by simpa [labelsOf_length] using hj)]
  simp [labelsOf]

theorem sorted_addEdgeL {α : Type} {L : List (Nat × α)}
    (hs : (labelsOf L).Pairwise (· < ·)) {e : Nat × α} (hnot : e.1 ∉ labelsOf L) :
    (labelsOf (addEdgeL L e)).Pairwise (· < ·) := by
  obtain ⟨j, hb, hj, hlo, hhi⟩ := bsInsertionPoint hs hnot
  unfold addEdgeL
  rw [hb]
  simp only [bsIdx]
  rw [labelsOf_insertIdx L e hj]
  exact pairwise_insertIdx hs (by simpa [labelsOf_length] using hj)
    (fun i h1 h2 => hlo i h1 (by simpa [labelsOf_length] using h2))
    (fun i h1 h2 => hhi i h1 (by simpa [labelsOf_length] using h2))

theorem mem_addEdgeL {α : Type} {L : List (Nat × α)}
    (hs : (labelsOf L).Pairwise (· < ·)) {e : Nat × α} (hnot : e.1 ∉ labelsOf L)
    {x : Nat × α} : x ∈ addEdgeL L e ↔ x = e ∨ x ∈ L := by
  obtain ⟨j, hb, hj, _, _⟩ := bsInsertionPoint hs hnot
  unfold addEdgeL
  rw [hb]
  simp only [bsIdx]
  exact List.mem_insertIdx hj

theorem mem_labelsOf_addEdgeL {α : Type} {L : List (Nat × α)}
    (hs : (labelsOf L).Pairwise (· < ·)) {e : Nat × α} (hnot : e.1 ∉ labelsOf L)
    {y : Nat} : y ∈ labelsOf (addEdgeL L e) ↔ y = e.1 ∨ y ∈ labelsOf L := by
  constructor
  · intro h
    simp only [labelsOf, List.mem_map] at h
    obtain ⟨p, hp, hpy⟩ := h
    rcases (mem_addEdgeL hs hnot).mp hp with h | h
    · exact Or.inl (by rw [← hpy, h])
    · exact Or.inr (hpy ▸ labelsOf_mem h)
  · intro h
    rcases h with h | h
    · subst h
      exact labelsOf_mem ((mem_addEdgeL hs hnot).mpr (Or.inl rfl))
    · simp only [labelsOf, List.mem_map] at h
      obtain ⟨p, hp, hpy⟩ := h
      exact hpy ▸ labelsOf_mem ((mem_addEdgeL hs hnot).mpr (Or.inr hp))

theorem findChild_addEdgeL {α : Type} {L : List (Nat × α)}
    (hs : (labelsOf L).Pairwise (· < ·)) {e : Nat × α} (hnot : e.1 ∉ labelsOf L)
    (x : Nat) :
    findChild (addEdgeL L e) x = if x = e.1 then some e.2 else findChild L x := by
  have hs' := sorted_addEdgeL hs hnot
  by_cases hx : x = e.1
  · subst hx
    rw [if_pos rfl]
    exact (findChild_some_iff hs').mpr ((mem_addEdgeL hs hnot).mpr (Or.inl rfl))
  · rw [if_neg hx]
    cases hf : findChild L x with
    | some c =>
      have := (findChild_some_iff hs).mp hf
      exact (findChild_some_iff hs').mpr ((mem_addEdgeL hs hnot).mpr (Or.inr this))
    | none =>
      have := (findChild_none_iff hs).mp hf
      apply (findChild_none_iff hs').mpr
      intro hmem
      rcases (mem_labelsOf_addEdgeL hs hnot).mp hmem with h | h
      · exact hx h
      · exact this h

theorem mem_labelsOf_iff {α : Type} {L : List (Nat × α)} {y : Nat} :
    y ∈ labelsOf L ↔ ∃ d, (y, d) ∈ L := by
  simp only [labelsOf, List.mem_map]
  constructor
  · rintro ⟨⟨p1, p2⟩, hp, hpy⟩
    simp only at hpy
    subst hpy
    exact ⟨p2, hp⟩
  · rintro ⟨d, hd⟩
    exact ⟨(y, d), hd, rfl⟩

theorem labelsOf_set {α : Type} {L : List (Nat × α)} {idx t : Nat} {c c' : α}
    (hget : L.get? idx = some (t, c)) :
    labelsOf (L.set idx (t, c')) = labelsOf L := by
  obtain ⟨hlt, _⟩ := List.get?_eq_some.mp hget
  apply List.ext_getElem?
  intro n
  simp only [labelsOf, List.getElem?_map]
  by_cases hn : n = idx
  · subst hn
    rw [List.getElem?_set_self hlt]
    have : L[n]? = some (t, c) := by rw [← List.get?_eq_getElem?]; exact hget
    rw [this]
    rfl
  · rw [List.getElem?_set_ne (by omega)]

theorem mem_set_iff {α : Type} {L : List (Nat × α)}
    (hs : (labelsOf L).Pairwise (· < ·)) {idx t : Nat} {c c' : α}
    (hget : L.get? idx = some (t, c)) {x : Nat × α} :
    x ∈ L.set idx (t, c') ↔ (x = (t, c') ∨ (x ∈ L ∧ x.1 ≠ t)) := by
  obtain ⟨hlt, _⟩ := List.get?_eq_some.mp hget
  constructor
  · intro h
    obtain ⟨n, hn, hx⟩ := List.mem_iff_getElem.mp h
    rw [List.length_set] at hn
    by_cases hni : n = idx
    · subst hni
      left
      rw [← hx, List.getElem_set_self hn]
    · right
      rw [List.getElem_set_ne (by omega)] at hx
      have hxL : x ∈ L := by rw [← hx]; exact List.getElem_mem _
      refine ⟨hxL, ?_⟩
      intro hxt
      have hgn : L.get? n = some x := by
        rw [List.get?_eq_getElem?]
        simp [List.getElem?_eq_getElem hn, hx]
      exact hni (get?_label_inj hs hgn hget (by rw [hxt]))
  · intro h
    rcases h with h | ⟨hmem, hne⟩
    · subst h
      apply List.mem_iff_getElem.mpr
      exact ⟨idx, by rw [List.length_set]; exact hlt, List.getElem_set_self (by rw [List.length_set]; exact hlt)⟩
    · obtain ⟨n, hn, hx⟩ := List.mem_iff_getElem.mp hmem
      have hni : n ≠ idx := by
        intro h
        subst h
        apply hne
        have : L.get? n = some x := by
          rw [List.get?_eq_getElem?]
          simp [List.getElem?_eq_getElem hn, hx]
        rw [this] at hget
        simp only [Option.some.injEq] at hget
        rw [hget]
      apply List.mem_iff_getElem.mpr
      refine ⟨n, by rw [List.length_set]; exact hn, ?_⟩
      rw [List.getElem_set_ne (by omega)]
      exact hx

theorem findChild_set {α : Type} {L : List (Nat × α)}
    (hs : (labelsOf L).Pairwise (· < ·)) {idx t : Nat} {c c' : α}
    (hget : L.get? idx = some (t, c)) (x : Nat) :
    findChild (L.set idx (t, c')) x = if x = t then some c' else findChild L x := by
  have hs' : (labelsOf (L.set idx (t, c'))).Pairwise (· < ·) := by
    rw [labelsOf_set hget]; exact hs
  by_cases hx : x = t
  · subst hx
    rw [if_pos rfl]
    exact (findChild_some_iff hs').mpr ((mem_set_iff hs hget).mpr (Or.inl rfl))
  · rw [if_neg hx]
    cases hf : findChild L x with
    | some d =>
      have := (findChild_some_iff hs).mp hf
      exact (findChild_some_iff hs').mpr ((mem_set_iff hs hget).mpr (Or.inr ⟨this, hx⟩))
    | none =>
      have := (findChild_none_iff hs).mp hf
      apply (findChild_none_iff hs').mpr
      rw [labelsOf_set hget]
      exact this

theorem replaceEdgeAtL_spec {α : Type} {L : List (Nat × α)} {idx t : Nat} {c : α}
    (hget : L.get? idx = some (t, c)) (c' : α) :
    replaceEdgeAtL L idx (t, c') = some (L.set idx (t, c')) := by
  unfold replaceEdgeAtL
  rw [hget]
  simp

theorem replaceEdgeL_spec {α : Type} {L : List (Nat × α)}
    (hs : (labelsOf L).Pairwise (· < ·)) {t : Nat} {c : α} (hmem : (t, c) ∈ L) (c' : α) :
    replaceEdgeL L (t, c') = some (L.set (bsIdx (bsearchL (labelsOf L) t)) (t, c')) := by
  have hfind := bsFind hs hmem
  unfold replaceEdgeL
  rw [hfind]
  simp

theorem deleteEdgeL_found {α : Type} {L : List (Nat × α)}
    (hs : (labelsOf L).Pairwise (· < ·)) {t : Nat} {c : α} (hmem : (t, c) ∈ L) :
    L.get? (bsIdx (bsearchL (labelsOf L) t)) = some (t, c) ∧
      deleteEdgeL L t = L.eraseIdx (bsIdx (bsearchL (labelsOf L) t)) := by
  have hfind := bsFind hs hmem
  refine ⟨hfind, ?_⟩
  unfold deleteEdgeL
  rw [hfind]
  simp

theorem deleteEdgeL_not_found {α : Type} {L : List (Nat × α)} {t : Nat}
    (ht : t ∉ labelsOf L) : deleteEdgeL L t = L := by
  unfold deleteEdgeL
  split
  next e heq =>
    by_cases he : e.1 = t
    · exfalso
      apply ht
      rw [← he]
      apply labelsOf_mem
      obtain ⟨hi, hget⟩ := List.get?_eq_some.mp heq
      rw [← hget]
      exact List.get_mem L _ _
    · rw [if_neg he]
  next => rfl

theorem deleteEdgeL_sublist {α : Type} (L : List (Nat × α)) (t : Nat) :
    List.Sublist (deleteEdgeL L t) L := by
  unfold deleteEdgeL
  split
  next e heq =>
    split
    · exact List.eraseIdx_sublist L _
    · exact List.Sublist.refl L
  next => exact List.Sublist.refl L

theorem sorted_deleteEdgeL {α : Type} {L : List (Nat × α)}
    (hs : (labelsOf L).Pairwise (· < ·)) (t : Nat) :
    (labelsOf (deleteEdgeL L t)).Pairwise (· < ·) :=
  hs.sublist ((deleteEdgeL_sublist L t).map Prod.fst)

theorem mem_eraseIdx_iff {α : Type} {L : List (Nat × α)}
    (hs : (labelsOf L).Pairwise (· < ·)) {idx t : Nat} {c : α}
    (hget : L.get? idx = some (t, c)) {x : Nat × α} :
    x ∈ L.eraseIdx idx ↔ (x ∈ L ∧ x.1 ≠ t) := by
  obtain ⟨hlt, _⟩ := List.get?_eq_some.mp hget
  rw [List.eraseIdx_eq_take_drop_succ]
  constructor
  · intro h
    rcases List.mem_append.mp h with h | h
    · rw [List.mem_take_iff_getElem] at h
      obtain ⟨n, hn, hx⟩ := h
      have hnlen : n < L.length := by omega
      have hnidx : n < idx := by omega
      have hmemL : x ∈ L := by rw [← hx]; exact List.getElem_mem _
      refine ⟨hmemL, ?_⟩
      intro hxt
      have hgn : L.get? n = some x := by
        rw [List.get?_eq_getElem?]
        simp [List.getElem?_eq_getElem hnlen, hx]
      have := get?_label_inj hs hgn hget (by rw [hxt])
      omega
    · rw [List.mem_drop_iff_getElem] at h
      obtain ⟨n, hn, hx⟩ := h
      have hnlen : idx + 1 + n < L.length := by omega
      have hmemL : x ∈ L := by rw [← hx]; exact List.getElem_mem _
      refine ⟨hmemL, ?_⟩
      intro hxt
      have hgn : L.get? (idx + 1 + n) = some x := by
        rw [List.get?_eq_getElem?]
        simp [List.getElem?_eq_getElem hnlen, hx]
      have := get?_label_inj hs hgn hget (by rw [hxt])
      omega
  · rintro ⟨hmem, hne⟩
    obtain ⟨n, hn, hx⟩ := List.mem_iff_getElem.mp hmem
    have hnidx : n ≠ idx := by
      intro h
      subst h
      apply hne
      have : L.get? n = some x := by
        rw [List.get?_eq_getElem?]
        simp [List.getElem?_eq_getElem hn, hx]
      rw [this] at hget
      simp only [Option.some.injEq] at hget
      rw [hget]
    apply List.mem_append.mpr
    rcases Nat.lt_or_ge n idx with h | h
    · left
      rw [List.mem_take_iff_getElem]
      exact ⟨n, by omega, hx⟩
    · right
      rw [List.mem_drop_iff_getElem]
      have hn' : idx + 1 ≤ n := by omega
      refine ⟨n - (idx + 1), by omega, ?_⟩
      have hidx2 : idx + 1 + (n - (idx + 1)) = n := by omega
      have hlt2 : idx + 1 + (n - (idx + 1)) < L.length := by omega
      have hsome : L[idx + 1 + (n - (idx + 1))]? = some x := by
        rw [hidx2]
        simp [List.getElem?_eq_getElem hn, hx]
      simpa [List.getElem?_eq_getElem hlt2] using hsome

theorem mem_deleteEdgeL {α : Type} {L : List (Nat × α)}
    (hs : (labelsOf L).Pairwise (· < ·)) {t : Nat} {x : Nat × α} :
    x ∈ deleteEdgeL L t ↔ (x ∈ L ∧ x.1 ≠ t) := by
  by_cases hmem : t ∈ labelsOf L
  · obtain ⟨c, hc⟩ := mem_labelsOf_iff.mp hmem
    obtain ⟨hget, hdel⟩ := deleteEdgeL_found hs hc
    rw [hdel]
    exact mem_eraseIdx_iff hs hget
  · rw [deleteEdgeL_not_found hmem]
    constructor
    · intro h
      refine ⟨h, ?_⟩
      intro hxt
      apply hmem
      rw [← hxt]
      exact labelsOf_mem h
    · exact fun h => h.1

theorem findChild_deleteEdgeL {α : Type} {L : List (Nat × α)}
    (hs : (labelsOf L).Pairwise (· < ·)) (t x : Nat) :
    findChild (deleteEdgeL L t) x = if x = t then none else findChild L x := by
  have hs' := sorted_deleteEdgeL hs t
  by_cases hx : x = t
  · subst hx
    rw [if_pos rfl]
    apply (findChild_none_iff hs').mpr
    intro h
    obtain ⟨d, hd⟩ := mem_labelsOf_iff.mp h
    exact absurd rfl ((mem_deleteEdgeL hs).mp hd).2
  · rw [if_neg hx]
    cases hf : findChild L x with
    | some d =>
      have := (findChild_some_iff hs).mp hf
      exact (findChild_some_iff hs').mpr ((mem_deleteEdgeL hs).mpr ⟨this, hx⟩)
    | none =>
      have hnone := (findChild_none_iff hs).mp hf
      apply (findChild_none_iff hs').mpr
      intro h
      obtain ⟨d, hd⟩ := mem_labelsOf_iff.mp h
      exact hnone (labelsOf_mem ((mem_deleteEdgeL hs).mp hd).1)

theorem length_deleteEdgeL_found {α : Type} {L : List (Nat × α)}
    (hs : (labelsOf L).Pairwise (· < ·)) {t : Nat} {c : α} (hmem : (t, c) ∈ L) :
    (deleteEdgeL L t).length + 1 = L.length := by
  obtain ⟨hget, hdel⟩ := deleteEdgeL_found hs hmem
  obtain ⟨hlt, _⟩ := List.get?_eq_some.mp hget
  rw [hdel]
  exact List.length_eraseIdx_add_one hlt

/-! ## node.rs: node-level operations

Wrappers giving the `Node` methods of the source.  A "mutating" Rust method
on a cloned node becomes a function returning the updated node value; the
in-place nature of those writes is modeled separately in the heap model. -/

def RNode.add_edge {T : Type} (n : RNode T) (e : Nat × RNode T) : RNode T :=
  RNode.mk n.pfx n.leaf (EL.ofList (addEdgeL n.edges.toList e))

def RNode.replace_edge {T : Type} (n : RNode T) (e : Nat × RNode T) : Option (RNode T) :=
  (replaceEdgeL n.edges.toList e).map (fun L => RNode.mk n.pfx n.leaf (EL.ofList L))

def RNode.replace_edge_at {T : Type} (n : RNode T) (idx : Nat) (e : Nat × RNode T) :
    Option (RNode T) :=
  (replaceEdgeAtL n.edges.toList idx e).map (fun L => RNode.mk n.pfx n.leaf (EL.ofList L))

def RNode.get_edge {T : Type} (n : RNode T) (label : Nat) : Option (Nat × RNode T) :=
  getEdgeL n.edges.toList label

def RNode.delete_edge {T : Type} (n : RNode T) (label : Nat) : RNode T :=
  RNode.mk n.pfx n.leaf (EL.ofList (deleteEdgeL n.edges.toList label))

def RNode.replace_leaf {T : Type} (n : RNode T) (lf : Option (LeafN T)) : RNode T :=
  RNode.mk n.pfx lf n.edges

def RNode.edge_len {T : Type} (n : RNode T) : Nat := n.edges.toList.length

def RNode.first_edge {T : Type} (n : RNode T) : Option (RNode T) :=
  n.edges.toList.head?.map Prod.snd

def RNode.last_edge {T : Type} (n : RNode T) : Option (RNode T) :=
  n.edges.toList.getLast?.map Prod.snd

/-- Embeds `Node::get`: walk from the node, consuming each matched child
prefix from the search bytes.  Pure byte operations, hence total; the fuel
only finitizes the loop. -/
def nodeGet {T : Type} : Nat → RNode T → List Nat → Option T
  | 0, _, _ => none
  | fuel + 1, n, search =>
    match search with
    | [] =>
      match n.leaf with
      | some lf => some lf.value
      | none => none
    | s0 :: _ =>
      match n.get_edge s0 with
      | some (_, child) =>
        if child.pfx.isPrefixOf search then nodeGet fuel child (search.drop child.pfx.length)
        else none
      | none => none

/-- Embeds `Node::minimum`: return the node's own leaf as soon as one is
found, else descend through the first edge. -/
def nodeMin {T : Type} : Nat → RNode T → Option (List Nat × T)
  | 0, _ => none
  | fuel + 1, n =>
    match n.leaf with
    | some lf => some (lf.key, lf.value)
    | none =>
      match n.first_edge with
      | some child => nodeMin fuel child
      | none => none

/-- Embeds `Node::maximum`: descend through the last edge while one exists,
then return the leaf of the childless node reached (if any). -/
def nodeMax {T : Type} : Nat → RNode T → Option (List Nat × T)
  | 0, _ => none
  | fuel + 1, n =>
    match n.last_edge with
    | some child => nodeMax fuel child
    | none =>
      match n.leaf with
      | some lf => some (lf.key, lf.value)
      | none => none

/-! ## transaction.rs: the pure value model of `Txn`

`get_writable_node` returns a node that is free to mutate and holds the same
value as its argument; at the value level it is therefore the identity, and
each in-place write on the clone becomes a functional update.  The heap model
below keeps the clone/memoization structure explicit. -/

/-- Modulus of the `u32`/`AtomicU32` size counter (`fetch_add`/`fetch_sub`
wrap around). -/
def U32MOD : Nat := 4294967296

/-- Embeds `Txn` state as observed through one transaction: the working root
and the pending size. -/
structure TxnP (T : Type) where
  root : RNode T
  size : Nat
deriving DecidableEq

/-- Embeds `Txn::merge_child`: collapse a node with its single child.  The
two `assert!`s (node not a leaf, exactly one edge) are modeled as `none`.
After popping the single edge the node's edge list is empty, so splicing the
child's edges in (`collect_into_edges`) or resetting (`reset_edges`) leaves
exactly the child's edges; the child's leaf moves onto the node and the
prefixes concatenate. -/
def merge_child {T : Type} (node : RNode T) : Option (RNode T) :=
  if node.is_leaf then none
  else if node.edge_len ≠ 1 then none
  else
    match node.edges.toList.getLast? with
    | some (_, child) => some (RNode.mk (node.pfx ++ child.pfx) child.leaf child.edges)
    | none => none

/-- Embeds `Txn::internal_insert`.  Result `none` is a panic: a string slice
at a non-char-boundary (the split path), or `replace_edge` on a missing
label.  Otherwise the result is the pair `(new_node, old_value)` of the
source.  In the split path the source builds the split node by mutation
after linking it; the value built here is the final value of that node. -/
def internal_insert {T : Type} [DecidableEq T] :
    Nat → RNode T → List Nat → List Nat → T → Option (Option (RNode T) × Option T)
  | 0, _, _, _, _ => none
  | fuel + 1, node, key, search, value =>
    match search with
    | [] =>
      some (some (node.replace_leaf (some ⟨key, value⟩)), node.leaf.map (fun lf => lf.value))
    | s0 :: _ =>
      match node.get_edge s0 with
      | none =>
        some (some (node.add_edge (s0, RNode.mk search (some ⟨key, value⟩) (EL.ofList []))),
          none)
      | some (edgeIdx, child) =>
        if longestPrefixLen search child.pfx = child.pfx.length then
          match strDrop search (longestPrefixLen search child.pfx) with
          | none => none
          | some newSearch =>
            match internal_insert fuel child key newSearch value with
            | none => none
            | some (some newChild, old) =>
              match node.replace_edge_at edgeIdx (s0, newChild) with
              | none => none
              | some newNode => some (some newNode, old)
            | some (none, old) => some (none, old)
        else
          match strTake search (longestPrefixLen search child.pfx) with
          | none => none
          | some splitPfx =>
            match strDrop child.pfx (longestPrefixLen search child.pfx) with
            | none => none
            | some childPfx2 =>
              match strDrop search (longestPrefixLen search child.pfx) with
              | none => none
              | some searchRest =>
                match searchRest with
                | [] =>
                  match node.replace_edge (s0,
                    (RNode.mk splitPfx none (EL.ofList [])).add_edge
                      (child.pfx.getD (longestPrefixLen search child.pfx) 0,
                        RNode.mk childPfx2 child.leaf child.edges)
                    |>.replace_leaf (some ⟨key, value⟩)) with
                  | none => none
                  | some newNode => some (some newNode, none)
                | t0 :: _ =>
                  match node.replace_edge (s0,
                    ((RNode.mk splitPfx none (EL.ofList [])).add_edge
                      (child.pfx.getD (longestPrefixLen search child.pfx) 0,
                        RNode.mk childPfx2 child.leaf child.edges)).add_edge
                      (t0, RNode.mk searchRest (some ⟨key, value⟩) (EL.ofList []))) with
                  | none => none
                  | some newNode => some (some newNode, none)

/-- Embeds `Txn::internal_delete`.  The first argument after fuel is the
transaction's current working root, deep-compared against the current node to
decide whether path compression applies (`self.root.read().as_ref() !=
node.as_ref()`).  Result `none` models a panic (unreachable on valid UTF-8
inputs). -/
def internal_delete {T : Type} [DecidableEq T] :
    Nat → RNode T → RNode T → List Nat → Option (Option (RNode T) × Option (LeafN T))
  | 0, _, _, _ => none
  | fuel + 1, root, node, search =>
    match search with
    | [] =>
      if node.is_leaf = false then some (none, none)
      else
        if root ≠ node ∧ (node.replace_leaf none).edge_len = 1 then
          match merge_child (node.replace_leaf none) with
          | none => none
          | some merged => some (some merged, node.leaf)
        else some (some (node.replace_leaf none), node.leaf)
    | s0 :: _ =>
      match node.get_edge s0 with
      | none => some (none, none)
      | some (edgeIdx, child) =>
        if child.pfx.isPrefixOf search = false then some (none, none)
        else
          match strDrop search child.pfx.length with
          | none => none
          | some searchRest =>
            match internal_delete fuel root child searchRest with
            | none => none
            | some (none, _) => some (none, none)
            | some (some newChild, lf) =>
              if newChild.is_leaf = false ∧ newChild.edge_len = 0 then
                if root ≠ node ∧ (node.delete_edge s0).is_leaf = false ∧
                    (node.delete_edge s0).edge_len = 1 then
                  match merge_child (node.delete_edge s0) with
                  | none => none
                  | some merged => some (some merged, lf)
                else some (some (node.delete_edge s0), lf)
              else
                match node.replace_edge_at edgeIdx (s0, newChild) with
                | none => none
                | some newNode => some (some newNode, lf)

/-- Embeds `Txn::insert`: run `internal_insert` from the working root with
`search = key`, update the root if a new node came back, and bump the
(wrapping) size counter when no previous value existed. -/
def txnInsert {T : Type} [DecidableEq T] (fuel : Nat) (s : TxnP T) (key : List Nat)
    (value : T) : Option (TxnP T × Option T) :=
  match internal_insert fuel s.root key key value with
  | none => none
  | some (newNode, old) =>
    some ({ root := match newNode with | some n => n | none => s.root,
            size := if old = none then (s.size + 1) % U32MOD else s.size }, old)

/-- Embeds `Txn::delete`: run `internal_delete` from the working root, update
the root if a new one came back, and decrement the (wrapping) size counter
when a leaf was removed. -/
def txnDelete {T : Type} [DecidableEq T] (fuel : Nat) (s : TxnP T) (key : List Nat) :
    Option (TxnP T × Option T) :=
  match internal_delete fuel s.root s.root key with
  | none => none
  | some (newRoot, lf) =>
    some ({ root := match newRoot with | some n => n | none => s.root,
            size := match lf with
              | some _ => (s.size + (U32MOD - 1)) % U32MOD
              | none => s.size },
      match lf with | some l => some l.value | none => none)

example :
    (txnInsert 4 ⟨RNode.mk [] none (EL.ofList []), 0⟩ [48, 48, 49] (1 : Nat)).map
        (fun r => (nodeGet 4 r.1.root [48, 48, 49], r.1.size, r.2)) =
      some (some 1, 1, none) := by decide

/-! ## Heap model: `Arc` identity, cloning and in-place mutation

Nodes live in a store (`Arc` = node id = index, allocation = append); a
transaction's clone memo (`Txn::writable`, an `LruCache` keyed by
`Arc<Node>`) is the list of cloned ids, most recent first.  `Node`'s
`PartialEq` is deep structural equality, with `Arc`'s pointer-equality fast
path; `eqNodeS` embeds it, with fuel for the recursion depth — any fuel
above the length of the longest simple path (in particular `store length + 1`
on an acyclic store) computes the same answer, and identical ids compare
equal at any fuel, exactly like the pointer fast path. -/

/-- Embeds the data fields of `Node<T>` in the heap model; edges reference
children by store id. -/
structure NodeD (T : Type) where
  pfx : List Nat
  leaf : Option (LeafN T)
  edges : List (Nat × Nat)
deriving DecidableEq, Repr

/-- Embeds the shared node heap: `Arc<Node<T>>` is an index into this list. -/
abbrev Store (T : Type) := List (NodeD T)

/-- Embeds `Txn<T>`: working root id, pending size, and the clone memo
(`None` until first use, as in the source). -/
structure TxnS (T : Type) where
  root : Nat
  size : Nat
  writable : Option (List Nat)
deriving DecidableEq, Repr

/-- Embeds `Node`'s `PartialEq` (deep) with `Arc`'s pointer fast path. -/
def eqNodeS {T : Type} [DecidableEq T] : Nat → Store T → Nat → Nat → Bool
  | 0, _, i, j => i == j
  | fuel + 1, st, i, j =>
    i == j ||
      match st.get? i, st.get? j with
      | some a, some b =>
        a.pfx == b.pfx && a.leaf == b.leaf && a.edges.length == b.edges.length &&
          (List.zip a.edges b.edges).all
            (fun p => p.1.1 == p.2.1 && eqNodeS fuel st p.1.2 p.2.2)
      | _, _ => false

theorem eqNodeS_refl {T : Type} [DecidableEq T] (fuel : Nat) (st : Store T) (i : Nat) :
    eqNodeS fuel st i i = true := by
  cases fuel with
  | zero => simp [eqNodeS]
  | succ f => simp [eqNodeS]

/-- Embeds `DEFAULT_MODIFIED_CACHE_SIZE` (the LRU bound on the clone memo). -/
def MODIFIED_CACHE_SIZE : Nat := 8192

/-- Embeds `Txn::get_writable_node`: create the memo on first use; if some
memoized clone deep-equals the node, return the node unchanged; else shallow
clone it (same prefix, leaf and edge list, edges still referencing the same
children), allocate the clone, and record it in the memo (LRU put, evicting
beyond the bound).  A dangling id (impossible through `Arc`) returns the
node unchanged. -/
def get_writable_node {T : Type} [DecidableEq T] (st : Store T) (tx : TxnS T) (id : Nat) :
    Store T × TxnS T × Nat :=
  match tx.writable with
  | some memo =>
    if memo.any (fun m => eqNodeS (st.length + 1) st m id) then
      (st, tx, id)
    else
      match st.get? id with
      | some d =>
        (st ++ [d],
          { tx with writable := some ((st.length :: memo).take MODIFIED_CACHE_SIZE) },
          st.length)
      | none => (st, tx, id)
  | none =>
    match st.get? id with
    | some d =>
      (st ++ [d], { tx with writable := some ((st.length :: []).take MODIFIED_CACHE_SIZE) },
        st.length)
    | none => (st, { tx with writable := some [] }, id)

/-- Embeds `Txn::merge_child` in the heap model.  Crucially, the source takes
the child's leaf (`Option::take`) and drains its edges (`collect_into`) in
place, so the child node — which may still be shared with older trees — is
mutated to an empty shell. -/
def merge_childS {T : Type} (st : Store T) (id : Nat) : Option (Store T) :=
  match st.get? id with
  | none => none
  | some node =>
    if node.leaf.isSome then none
    else if node.edges.length ≠ 1 then none
    else
      match node.edges.getLast? with
      | none => none
      | some (_, cid) =>
        match st.get? cid with
        | none => none
        | some child =>
          some (((st.set id
            { pfx := node.pfx ++ child.pfx, leaf := child.leaf, edges := child.edges }).set
              cid { child with leaf := none, edges := [] }))

/-- Embeds `Txn::internal_delete` in the heap model, threading the store and
the transaction state; `none` models a panic or a dangling id. -/
def internal_deleteS {T : Type} [DecidableEq T] :
    Nat → Store T → TxnS T → Nat → List Nat →
      Option (Store T × TxnS T × Option Nat × Option (LeafN T))
  | 0, _, _, _, _ => none
  | fuel + 1, st, tx, nodeId, search =>
    match st.get? nodeId with
    | none => none
    | some node =>
      match search with
      | [] =>
        if node.leaf.isNone then some (st, tx, none, none)
        else
          match get_writable_node st tx nodeId with
          | (st1, tx1, wid) =>
            match st1.get? wid with
            | none => none
            | some wnode =>
              if (!eqNodeS ((st1.set wid { wnode with leaf := none }).length + 1)
                    (st1.set wid { wnode with leaf := none }) tx1.root nodeId) &&
                  wnode.edges.length == 1 then
                match merge_childS (st1.set wid { wnode with leaf := none }) wid with
                | none => none
                | some st3 => some (st3, tx1, some wid, wnode.leaf)
              else
                some (st1.set wid { wnode with leaf := none }, tx1, some wid, wnode.leaf)
      | s0 :: _ =>
        match getEdgeL node.edges s0 with
        | none => some (st, tx, none, none)
        | some (edgeIdx, cid) =>
          match st.get? cid with
          | none => none
          | some child =>
            if child.pfx.isPrefixOf search = false then some (st, tx, none, none)
            else
              match strDrop search child.pfx.length with
              | none => none
              | some searchRest =>
                match internal_deleteS fuel st tx cid searchRest with
                | none => none
                | some (st1, tx1, none, _) => some (st1, tx1, none, none)
                | some (st1, tx1, some newChildId, lf) =>
                  match get_writable_node st1 tx1 nodeId with
                  | (st2, tx2, wid) =>
                    match st2.get? newChildId, st2.get? wid with
                    | some newChild, some wnode =>
                      if newChild.leaf.isNone && newChild.edges.length == 0 then
                        match (st2.set wid
                            { wnode with edges := deleteEdgeL wnode.edges s0 }).get? wid with
                        | none => none
                        | some wnode2 =>
                          if (!eqNodeS
                                ((st2.set wid { wnode with edges := deleteEdgeL wnode.edges s0 }).length + 1)
                                (st2.set wid { wnode with edges := deleteEdgeL wnode.edges s0 })
                                tx2.root nodeId) &&
                              wnode2.leaf.isNone && wnode2.edges.length == 1 then
                            match merge_childS
                                (st2.set wid { wnode with edges := deleteEdgeL wnode.edges s0 })
                                wid with
                            | none => none
                            | some st4 => some (st4, tx2, some wid, lf)
                          else
                            some (st2.set wid { wnode with edges := deleteEdgeL wnode.edges s0 },
                              tx2, some wid, lf)
                      else
                        match replaceEdgeAtL wnode.edges edgeIdx (s0, newChildId) with
                        | none => none
                        | some edges2 =>
                          some (st2.set wid { wnode with edges := edges2 }, tx2, some wid, lf)
                    | _, _ => none

/-- Embeds `Node::get` in the heap model (read-only). -/
def getS {T : Type} : Nat → Store T → Nat → List Nat → Option T
  | 0, _, _, _ => none
  | fuel + 1, st, id, search =>
    match st.get? id with
    | none => none
    | some node =>
      match search with
      | [] => node.leaf.map (fun lf => lf.value)
      | s0 :: _ =>
        match getEdgeL node.edges s0 with
        | none => none
        | some (_, cid) =>
          match st.get? cid with
          | none => none
          | some child =>
            if child.pfx.isPrefixOf search then getS fuel st cid (search.drop child.pfx.length)
            else none

/-- Embeds `Txn::delete` in the heap model. -/
def txnDeleteS {T : Type} [DecidableEq T] (fuel : Nat) (st : Store T) (tx : TxnS T)
    (key : List Nat) : Option (Store T × TxnS T × Option T) :=
  match internal_deleteS fuel st tx tx.root key with
  | none => none
  | some (st1, tx1, newRoot, lf) =>
    match lf with
    | some l =>
      some (st1,
        { tx1 with root := match newRoot with | some r => r | none => tx1.root,
                   size := (tx1.size + (U32MOD - 1)) % U32MOD }, some l.value)
    | none =>
      some (st1,
        { tx1 with root := match newRoot with | some r => r | none => tx1.root }, none)

theorem get_writable_node_data {T : Type} [DecidableEq T] {st : Store T} {tx : TxnS T}
    {id : Nat} {d : NodeD T} (hd : st.get? id = some d) :
    (get_writable_node st tx id).1.get? (get_writable_node st tx id).2.2 = some d ∧
      (get_writable_node st tx id).2.1.root = tx.root ∧
      (get_writable_node st tx id).2.1.size = tx.size := by
  unfold get_writable_node
  split
  next memo hmemo =>
    split
    next => exact ⟨hd, rfl, rfl⟩
    next =>
      rw [hd]
      refine ⟨?_, rfl, rfl⟩
      simp only []
      rw [List.get?_eq_getElem?]
      rw [List.getElem?_append_right (by omega)]
      simp
  next hmemo =>
    rw [hd]
    refine ⟨?_, rfl, rfl⟩
    simp only []
    rw [List.get?_eq_getElem?]
    rw [List.getElem?_append_right (by omega)]
    simp

theorem internal_deleteS_noop {T : Type} [DecidableEq T] :
    ∀ (fuel : Nat) (st : Store T) (tx : TxnS T) (nodeId : Nat) (search : List Nat)
      {st' : Store T} {tx' : TxnS T} {r : Option Nat} {lf : Option (LeafN T)},
      internal_deleteS fuel st tx nodeId search = some (st', tx', r, lf) →
      (r = none → st' = st ∧ tx' = tx ∧ lf = none) ∧ (lf = none → r = none) := by
  intro fuel
  induction fuel with
  | zero =>
    intro st tx nodeId search st' tx' r lf h
    simp [internal_deleteS] at h
  | succ f ih =>
    intro st tx nodeId search st' tx' r lf h
    rw [internal_deleteS] at h
    split at h
    next => exact absurd h (by simp)
    next node hnode =>
      split at h
      · -- search = []
        split at h
        next =>
          simp only [Option.some.injEq, Prod.mk.injEq] at h
          obtain ⟨h1, h2, h3, h4⟩ := h
          exact ⟨fun _ => ⟨h1.symm, h2.symm, h4.symm⟩, fun _ => h3.symm⟩
        next hleaf =>
          split at h
          next st1 tx1 wid heq =>
            split at h
            next => exact absurd h (by simp)
            next wnode hw =>
              have hdat := (@get_writable_node_data _ _ _ tx _ _ hnode).1
              rw [heq] at hdat
              simp only at hdat
              rw [hw] at hdat
              have hwn : wnode = node := by simpa using hdat
              subst hwn
              have hlfsome : wnode.leaf ≠ none := by
                simp only [Option.isNone_iff_eq_none] at hleaf
                exact hleaf
              split at h
              · split at h
                next => exact absurd h (by simp)
                next st3 hst3 =>
                  simp only [Option.some.injEq, Prod.mk.injEq] at h
                  obtain ⟨h1, h2, h3, h4⟩ := h
                  refine ⟨fun hr => ?_, fun hlf => ?_⟩
                  · rw [← h3] at hr
                    exact absurd hr (by simp)
                  · rw [← h4] at hlf
                    exact absurd hlf hlfsome
              · simp only [Option.some.injEq, Prod.mk.injEq] at h
                obtain ⟨h1, h2, h3, h4⟩ := h
                refine ⟨fun hr => ?_, fun hlf => ?_⟩
                · rw [← h3] at hr
                  exact absurd hr (by simp)
                · rw [← h4] at hlf
                  exact absurd hlf hlfsome
      · -- search = s0 :: rest
        split at h
        next => 
          simp only [Option.some.injEq, Prod.mk.injEq] at h
          obtain ⟨h1, h2, h3, h4⟩ := h
          exact ⟨fun _ => ⟨h1.symm, h2.symm, h4.symm⟩, fun _ => h3.symm⟩
        next edgeIdx cid hedge =>
          split at h
          next => exact absurd h (by simp)
          next child hchild =>
            split at h
            next =>
              simp only [Option.some.injEq, Prod.mk.injEq] at h
              obtain ⟨h1, h2, h3, h4⟩ := h
              exact ⟨fun _ => ⟨h1.symm, h2.symm, h4.symm⟩, fun _ => h3.symm⟩
            next =>
              split at h
              next => exact absurd h (by simp)
              next searchRest hdrop =>
                split at h
                next => exact absurd h (by simp)
                next st1 tx1 lf0 hrec =>
                  -- recursion returned (st1, tx1, none, lf0)
                  simp only [Option.some.injEq, Prod.mk.injEq] at h
                  obtain ⟨h1, h2, h3, h4⟩ := h
                  obtain ⟨hnoop, _⟩ := ih st tx cid searchRest hrec
                  obtain ⟨ha, hb, _⟩ := hnoop rfl
                  exact ⟨fun _ => ⟨h1.symm.trans ha, h2.symm.trans hb, h4.symm⟩,
                    fun _ => h3.symm⟩
                next st1 tx1 ncid lf0 hrec =>
                  -- recursion returned (st1, tx1, some ncid, lf0)
                  have hlf0 : lf0 ≠ none := by
                    intro hcon
                    have := (ih st tx cid searchRest hrec).2 hcon
                    exact absurd this (by simp)
                  split at h
                  next st2 tx2 wid heq2 =>
                    split at h
                    next newChild wnode hnc hw =>
                      split at h
                      · split at h
                        next => exact absurd h (by simp)
                        next wnode2 hw2 =>
                          split at h
                          · split at h
                            next => exact absurd h (by simp)
                            next st4 hst4 =>
                              simp only [Option.some.injEq, Prod.mk.injEq] at h
                              obtain ⟨h1, h2, h3, h4⟩ := h
                              refine ⟨fun hr => ?_, fun hlf => ?_⟩
                              · rw [← h3] at hr
                                exact absurd hr (by simp)
                              · rw [← h4] at hlf
                                exact absurd hlf hlf0
                          · simp only [Option.some.injEq, Prod.mk.injEq] at h
                            obtain ⟨h1, h2, h3, h4⟩ := h
                            refine ⟨fun hr => ?_, fun hlf => ?_⟩
                            · rw [← h3] at hr
                              exact absurd hr (by simp)
                            · rw [← h4] at hlf
                              exact absurd hlf hlf0
                      · split at h
                        next => exact absurd h (by simp)
                        next edges2 hrep =>
                          simp only [Option.some.injEq, Prod.mk.injEq] at h
                          obtain ⟨h1, h2, h3, h4⟩ := h
                          refine ⟨fun hr => ?_, fun hlf => ?_⟩
                          · rw [← h3] at hr
                            exact absurd hr (by simp)
                          · rw [← h4] at hlf
                            exact absurd hlf hlf0
                    next => exact absurd h (by simp)

/-! ## Concrete stores for the persistence scenario -/

/-- Store of the committed tree holding `"a" ↦ 1` and `"ab" ↦ 2`: root id 0,
the `"a"` node id 1, its `"b"` child id 2 (byte 0x61 = a, 0x62 = b). -/
def c1Store : Store Nat :=
  [ { pfx := [], leaf := none, edges := [(0x61, 1)] },
    { pfx := [0x61], leaf := some ⟨[0x61], 1⟩, edges := [(0x62, 2)] },
    { pfx := [0x62], leaf := some ⟨[0x61, 0x62], 2⟩, edges := [] } ]

/-- Transaction freshly started from that tree (`Tree::start_transaction`). -/
def c1Txn : TxnS Nat := { root := 0, size := 2, writable := none }

/-- Claim C1 (code bug): persistence of snapshots requires that no node
reachable from the original tree `T` is ever mutated by a transaction, so
`T.get(k)` stays unchanged.  The code violates this: `merge_child` takes the
leaf of the node's single child and drains its edges *in place*, and that
child can still be shared with the original tree.  Evaluating the code on the
tree `{"a" ↦ 1, "ab" ↦ 2}`: before the transaction the original root answers
`get "ab" = some 2`; after `txn.delete "a"` succeeds (returning `some 1`,
with a correct transaction-side view), the *original* root's `get "ab"`
has become `none` — the shared `"b"` child was gutted. -/
theorem claim_C1_persistence_code_bug :
    getS 10 c1Store 0 [0x61, 0x62] = some 2 ∧
      (txnDeleteS 10 c1Store c1Txn [0x61]).map
          (fun r => (getS 10 r.1 0 [0x61, 0x62], getS 10 r.1 r.2.1.root [0x61, 0x62], r.2.2)) =
        some (none, some 2, some 1) := by
  constructor
  · decide
  · decide

/-- Claim C2 (code bug): the spec promises totality — every public operation
returns a defined result for any key string, in particular an insert whose
byte-level common prefix with an existing key ends inside a multi-byte
character.  The code violates this: the split path of `internal_insert`
slices `search[..common_prefix_len]` at a byte index that need not be a char
boundary, which panics.  Evaluating the code: inserting `"é"` (bytes
`C3 A9`) into an empty transaction succeeds, but then inserting `"è"`
(bytes `C3 A8`, common byte-prefix of length 1, inside the 2-byte
character) panics (`none` in the model) instead of returning a value. -/
theorem claim_C2_totality_code_bug :
    (txnInsert 3 ⟨RNode.mk [] none (EL.ofList []), 0⟩ [0xC3, 0xA9] 1).map
        (fun r => txnInsert 3 r.1 [0xC3, 0xA8] (2 : Nat)) = some none := by
  decide

/-- Claim C10: a failed delete (key absent, returning `none`) is atomic — it
leaves the store (hence every node reachable from the working root), the
working root pointer, the pending size counter, and the clone memo exactly
as they were: no clone, no edge removal, no merge. -/
theorem claim_C10_failed_delete_atomicity {T : Type} [DecidableEq T]
    (fuel : Nat) (st : Store T) (tx : TxnS T) (key : List Nat)
    {st' : Store T} {tx' : TxnS T}
    (h : txnDeleteS fuel st tx key = some (st', tx', none)) :
    st' = st ∧ tx' = tx ∧ tx'.root = tx.root ∧ tx'.size = tx.size ∧
      (∀ id, st'.get? id = st.get? id) := by
  unfold txnDeleteS at h
  split at h
  next => exact absurd h (by simp)
  next st1 tx1 newRoot lf hrec =>
    split at h
    next l => simp at h
    next =>
      obtain ⟨hnoop, hlfr⟩ := internal_deleteS_noop fuel st tx tx.root key hrec
      have hr : newRoot = none := hlfr rfl
      subst hr
      simp only [Option.some.injEq, Prod.mk.injEq] at h
      obtain ⟨h1, h2, _⟩ := h
      obtain ⟨ha, hb, _⟩ := hnoop rfl
      have hst : st' = st := h1 ▸ ha
      have htx : tx' = tx := by
        rw [← h2, hb]
      subst hst
      subst htx
      exact ⟨rfl, rfl, rfl, rfl, fun _ => rfl⟩

/-- Closed instance of `claim_C10_failed_delete_atomicity` at a concrete
input: deleting the absent key `"c"` from the `{"a", "ab"}` tree. -/
theorem claim_C10_failed_delete_atomicity_witness :
    txnDeleteS 10 c1Store c1Txn [0x63] = some (c1Store, c1Txn, none) ∧
      (c1Store = c1Store ∧ c1Txn = c1Txn ∧ c1Txn.root = c1Txn.root ∧
        c1Txn.size = c1Txn.size ∧ (∀ id, c1Store.get? id = c1Store.get? id)) :=
  ⟨by decide, claim_C10_failed_delete_atomicity 10 c1Store c1Txn [0x63] (by decide)⟩

/-- Claim C8: clone-on-write memoization.  Within one transaction
`get_writable_node` (1) returns a node already present in the clone memo
unchanged (no new allocation, no state change); (2) otherwise returns a
fresh shallow clone — equal prefix, leaf and edge list, edges still
referencing the same children — allocated at a fresh id, recorded at the
front of the memo, leaving every existing node untouched; and (3) is
idempotent on its own result, so successive mutations walking through the
same ancestor converge on the same clone and each distinct original is
cloned at most once (up to LRU eviction of the memo, which the spec itself
sets aside). -/
theorem claim_C8_clone_on_write_memoization {T : Type} [DecidableEq T] :
    (∀ (st : Store T) (tx : TxnS T) (id : Nat) (memo : List Nat),
      tx.writable = some memo →
      memo.any (fun m => eqNodeS (st.length + 1) st m id) = true →
      get_writable_node st tx id = (st, tx, id)) ∧
    (∀ (st : Store T) (tx : TxnS T) (id : Nat) (memo : List Nat) (d : NodeD T),
      tx.writable = some memo →
      memo.any (fun m => eqNodeS (st.length + 1) st m id) = false →
      st.get? id = some d →
      get_writable_node st tx id =
        (st ++ [d],
          { tx with writable := some ((st.length :: memo).take MODIFIED_CACHE_SIZE) },
          st.length) ∧
        (st ++ [d]).get? st.length = some d ∧
        (∀ j, j < st.length → (st ++ [d]).get? j = st.get? j)) ∧
    (∀ (st : Store T) (tx : TxnS T) (id : Nat) (st1 : Store T) (tx1 : TxnS T) (wid : Nat),
      get_writable_node st tx id = (st1, tx1, wid) →
      get_writable_node st1 tx1 wid = (st1, tx1, wid)) := by
  refine ⟨?_, ?_, ?_⟩
  · intro st tx id memo hmemo hany
    simp [get_writable_node, hmemo, hany]
  · intro st tx id memo d hmemo hany hget
    have hget' : st[id]? = some d := by rw [← List.get?_eq_getElem?]; exact hget
    refine ⟨by simp [get_writable_node, hmemo, hany, hget'], ?_, ?_⟩
    · rw [List.get?_eq_getElem?, List.getElem?_append_right (by omega)]
      simp
    · intro j hj
      rw [List.get?_eq_getElem?, List.get?_eq_getElem?, List.getElem?_append_left hj]
  · intro st tx id st1 tx1 wid hg
    have htake : MODIFIED_CACHE_SIZE = 8191 + 1 := rfl
    unfold get_writable_node at hg
    split at hg
    next memo hmemo =>
      split at hg
      next hany =>
        simp only [Prod.mk.injEq] at hg
        obtain ⟨h1, h2, h3⟩ := hg
        subst h1
        subst h2
        subst h3
        simp [get_writable_node, hmemo, hany]
      next hany =>
        split at hg
        next d hget =>
          simp only [Prod.mk.injEq] at hg
          obtain ⟨h1, h2, h3⟩ := hg
          subst h1
          subst h2
          subst h3
          simp only [get_writable_node]
          simp
          refine ⟨st.length, ?_, eqNodeS_refl _ _ _⟩
          rw [htake, List.take_succ_cons]
          simp
        next hget =>
          have hget' : st[id]? = none := by rw [← List.get?_eq_getElem?]; exact hget
          simp only [Prod.mk.injEq] at hg
          obtain ⟨h1, h2, h3⟩ := hg
          subst h1
          subst h2
          subst h3
          simp [get_writable_node, hmemo, hany, hget']
    next hmemo =>
      split at hg
      next d hget =>
        simp only [Prod.mk.injEq] at hg
        obtain ⟨h1, h2, h3⟩ := hg
        subst h1
        subst h2
        subst h3
        simp only [get_writable_node]
        simp
        refine ⟨st.length, ?_, eqNodeS_refl _ _ _⟩
        rw [htake, List.take_succ_cons]
        simp
      next hget =>
        have hget' : st[id]? = none := by rw [← List.get?_eq_getElem?]; exact hget
        simp only [Prod.mk.injEq] at hg
        obtain ⟨h1, h2, h3⟩ := hg
        subst h1
        subst h2
        subst h3
        simp [get_writable_node, hget']

/-- Closed instance of `claim_C8_clone_on_write_memoization` at concrete
inputs: a miss on the root of the `{"a", "ab"}` store clones it at the fresh
id 3 and records it; the clone is then returned unchanged by a second call
(idempotence, via the memo hit on the recorded clone). -/
theorem claim_C8_clone_on_write_memoization_witness :
    (get_writable_node c1Store { c1Txn with writable := some [] } 0 =
        (c1Store ++ [({ pfx := [], leaf := none, edges := [(0x61, 1)] } : NodeD Nat)],
          { c1Txn with writable := some ([3].take MODIFIED_CACHE_SIZE) }, 3) ∧
      (c1Store ++ [({ pfx := [], leaf := none, edges := [(0x61, 1)] } : NodeD Nat)]).get? 3 =
        some ({ pfx := [], leaf := none, edges := [(0x61, 1)] } : NodeD Nat) ∧
      (∀ j, j < 3 →
        (c1Store ++ [({ pfx := [], leaf := none, edges := [(0x61, 1)] } : NodeD Nat)]).get? j =
          c1Store.get? j)) ∧
    get_writable_node (get_writable_node c1Store { c1Txn with writable := some [] } 0).1
        (get_writable_node c1Store { c1Txn with writable := some [] } 0).2.1
        (get_writable_node c1Store { c1Txn with writable := some [] } 0).2.2 =
      ((get_writable_node c1Store { c1Txn with writable := some [] } 0).1,
        (get_writable_node c1Store { c1Txn with writable := some [] } 0).2.1,
        (get_writable_node c1Store { c1Txn with writable := some [] } 0).2.2) := by
  constructor
  · exact claim_C8_clone_on_write_memoization.2.1 c1Store
      { c1Txn with writable := some [] } 0 []
      ({ pfx := [], leaf := none, edges := [(0x61, 1)] } : NodeD Nat) rfl (by decide) (by decide)
  · exact claim_C8_clone_on_write_memoization.2.2 c1Store
      { c1Txn with writable := some [] } 0 _ _ _ rfl

/-! ## Well-formedness invariants of reachable trees

`NodeInv acc n` says the subtree rooted at `n` is well formed when the byte
path consumed to reach past `n`'s own prefix is `acc`: a leaf stores exactly
the full key `acc`, edge labels are strictly sorted, and every child carries
a nonempty valid prefix starting with its label.  `Settled` is the structural
invariant of claim C6 (every node holds a leaf or at least two edges); the
root is exempt, which `SettledRoot` expresses. -/

inductive NodeInv {T : Type} : List Nat → RNode T → Prop where
  | mk {acc pfx : List Nat} {leaf : Option (LeafN T)} {edges : EL T} :
      (∀ lf, leaf = some lf → lf.key = acc) →
      (labelsOf edges.toList).Pairwise (· < ·) →
      (∀ l c, (l, c) ∈ edges.toList → c.pfx ≠ [] ∧ c.pfx.headD 0 = l ∧ VStr c.pfx) →
      (∀ l c, (l, c) ∈ edges.toList → NodeInv (acc ++ c.pfx) c) →
      NodeInv acc (RNode.mk pfx leaf edges)

theorem NodeInv.leafKey {T : Type} {acc : List Nat} {n : RNode T} (h : NodeInv acc n) :
    ∀ lf, n.leaf = some lf → lf.key = acc := by
  cases h with
  | mk h1 h2 h3 h4 => exact h1

theorem NodeInv.sorted {T : Type} {acc : List Nat} {n : RNode T} (h : NodeInv acc n) :
    (labelsOf n.edges.toList).Pairwise (· < ·) := by
  cases h with
  | mk h1 h2 h3 h4 => exact h2

theorem NodeInv.child {T : Type} {acc : List Nat} {n : RNode T} (h : NodeInv acc n) :
    ∀ l c, (l, c) ∈ n.edges.toList →
      c.pfx ≠ [] ∧ c.pfx.headD 0 = l ∧ VStr c.pfx ∧ NodeInv (acc ++ c.pfx) c := by
  cases h with
  | mk h1 h2 h3 h4 =>
    intro l c hmem
    exact ⟨(h3 l c hmem).1, (h3 l c hmem).2.1, (h3 l c hmem).2.2, h4 l c hmem⟩

/-- `NodeInv` does not constrain the node's own prefix (the parent does), so
the prefix may be replaced freely. -/
theorem NodeInv.repfx {T : Type} {acc : List Nat} {n : RNode T} (h : NodeInv acc n)
    (p : List Nat) : NodeInv acc (RNode.mk p n.leaf n.edges) := by
  cases h with
  | mk h1 h2 h3 h4 => exact NodeInv.mk h1 h2 h3 h4

inductive Settled {T : Type} : RNode T → Prop where
  | mk {pfx : List Nat} {leaf : Option (LeafN T)} {edges : EL T} :
      (leaf.isSome = true ∨ 2 ≤ edges.toList.length) →
      (∀ l c, (l, c) ∈ edges.toList → Settled c) →
      Settled (RNode.mk pfx leaf edges)

theorem Settled.own {T : Type} {n : RNode T} (h : Settled n) :
    n.leaf.isSome = true ∨ 2 ≤ n.edges.toList.length := by
  cases h with
  | mk h1 h2 => exact h1

theorem Settled.childSettled {T : Type} {n : RNode T} (h : Settled n) :
    ∀ l c, (l, c) ∈ n.edges.toList → Settled c := by
  cases h with
  | mk h1 h2 => exact h2

theorem Settled.withPfx {T : Type} {n : RNode T} (h : Settled n) (p : List Nat) :
    Settled (RNode.mk p n.leaf n.edges) := by
  cases h with
  | mk h1 h2 => exact Settled.mk h1 h2

/-- The structural invariant at the root: the root itself is exempt, its
descendants are settled. -/
def SettledRoot {T : Type} (n : RNode T) : Prop :=
  ∀ l c, (l, c) ∈ n.edges.toList → Settled c

theorem strTake_eq_some {s : List Nat} {i : Nat} {r : List Nat} :
    strTake s i = some r ↔ isCharBoundary s i = true ∧ r = s.take i := by
  unfold strTake
  split
  next h => simp [h, eq_comm]
  next h => simp [h]

theorem strDrop_eq_some {s : List Nat} {i : Nat} {r : List Nat} :
    strDrop s i = some r ↔ isCharBoundary s i = true ∧ r = s.drop i := by
  unfold strDrop
  split
  next h => simp [h, eq_comm]
  next h => simp [h]

@[simp] theorem RNode.pfx_replace_leaf {T : Type} (n : RNode T) (lf : Option (LeafN T)) :
    (n.replace_leaf lf).pfx = n.pfx := rfl

@[simp] theorem RNode.leaf_replace_leaf {T : Type} (n : RNode T) (lf : Option (LeafN T)) :
    (n.replace_leaf lf).leaf = lf := rfl

@[simp] theorem RNode.edges_replace_leaf {T : Type} (n : RNode T) (lf : Option (LeafN T)) :
    (n.replace_leaf lf).edges = n.edges := rfl

@[simp] theorem RNode.pfx_add_edge {T : Type} (n : RNode T) (e : Nat × RNode T) :
    (n.add_edge e).pfx = n.pfx := rfl

@[simp] theorem RNode.leaf_add_edge {T : Type} (n : RNode T) (e : Nat × RNode T) :
    (n.add_edge e).leaf = n.leaf := rfl

@[simp] theorem RNode.edges_add_edge {T : Type} (n : RNode T) (e : Nat × RNode T) :
    (n.add_edge e).edges.toList = addEdgeL n.edges.toList e := by
  simp [RNode.add_edge]

@[simp] theorem RNode.pfx_delete_edge {T : Type} (n : RNode T) (l : Nat) :
    (n.delete_edge l).pfx = n.pfx := rfl

@[simp] theorem RNode.leaf_delete_edge {T : Type} (n : RNode T) (l : Nat) :
    (n.delete_edge l).leaf = n.leaf := rfl

@[simp] theorem RNode.edges_delete_edge {T : Type} (n : RNode T) (l : Nat) :
    (n.delete_edge l).edges.toList = deleteEdgeL n.edges.toList l := by
  simp [RNode.delete_edge]

theorem RNode.replace_edge_at_some {T : Type} {n : RNode T} {idx : Nat} {e : Nat × RNode T}
    {n' : RNode T} (h : n.replace_edge_at idx e = some n') :
    ∃ L, replaceEdgeAtL n.edges.toList idx e = some L ∧
      n' = RNode.mk n.pfx n.leaf (EL.ofList L) := by
  unfold RNode.replace_edge_at at h
  cases hL : replaceEdgeAtL n.edges.toList idx e with
  | some L =>
    rw [hL] at h
    exact ⟨L, rfl, by simpa using h.symm⟩
  | none => rw [hL] at h; exact absurd h (by simp)

theorem RNode.replace_edge_some {T : Type} {n : RNode T} {e : Nat × RNode T}
    {n' : RNode T} (h : n.replace_edge e = some n') :
    ∃ L, replaceEdgeL n.edges.toList e = some L ∧
      n' = RNode.mk n.pfx n.leaf (EL.ofList L) := by
  unfold RNode.replace_edge at h
  cases hL : replaceEdgeL n.edges.toList e with
  | some L =>
    rw [hL] at h
    exact ⟨L, rfl, by simpa using h.symm⟩
  | none => rw [hL] at h; exact absurd h (by simp)

/-- `Node::get` one-step unfolding through `findChild` (the index returned by
`get_edge` is irrelevant to the walk). -/
theorem nodeGet_succ_cons {T : Type} (fuel : Nat) (n : RNode T) (s0 : Nat) (rest : List Nat) :
    nodeGet (fuel + 1) n (s0 :: rest) =
      match findChild n.edges.toList s0 with
      | some child =>
        if child.pfx.isPrefixOf (s0 :: rest) then
          nodeGet fuel child ((s0 :: rest).drop child.pfx.length)
        else none
      | none => none := by
  rw [nodeGet]
  cases hg : n.get_edge s0 with
  | some e =>
    obtain ⟨i, c⟩ := e
    have hfc : findChild n.edges.toList s0 = some c := by
      unfold RNode.get_edge at hg
      unfold findChild
      rw [hg]
      rfl
    rw [hfc]
  | none =>
    have hfc : findChild n.edges.toList s0 = none := by
      unfold RNode.get_edge at hg
      unfold findChild
      rw [hg]
      rfl
    rw [hfc]

@[simp] theorem nodeGet_succ_nil {T : Type} (fuel : Nat) (n : RNode T) :
    nodeGet (fuel + 1) n [] =
      match n.leaf with
      | some lf => some lf.value
      | none => none := by
  rw [nodeGet]

theorem get_edge_some_findChild {T : Type} {n : RNode T} {s0 i : Nat} {c : RNode T}
    (h : n.get_edge s0 = some (i, c)) : findChild n.edges.toList s0 = some c := by
  unfold RNode.get_edge at h
  unfold findChild
  rw [h]
  rfl

theorem get_edge_none_findChild {T : Type} {n : RNode T} {s0 : Nat}
    (h : n.get_edge s0 = none) : findChild n.edges.toList s0 = none := by
  unfold RNode.get_edge at h
  unfold findChild
  rw [h]
  rfl

theorem get_edge_mem {T : Type} {n : RNode T} {s0 i : Nat} {c : RNode T}
    (h : n.get_edge s0 = some (i, c)) :
    n.edges.toList.get? i = some (s0, c) ∧ (s0, c) ∈ n.edges.toList := by
  have hs := getEdgeL_sound h
  refine ⟨hs, ?_⟩
  obtain ⟨hi, hget⟩ := List.get?_eq_some.mp hs
  rw [← hget]
  exact List.get_mem _ _ _

theorem get_edge_none_not_mem {T : Type} {n : RNode T}
    (hs : (labelsOf n.edges.toList).Pairwise (· < ·)) {s0 : Nat}
    (h : n.get_edge s0 = none) : s0 ∉ labelsOf n.edges.toList := by
  intro hmem
  obtain ⟨d, hd⟩ := mem_labelsOf_iff.mp hmem
  obtain ⟨i, hi, hget⟩ := List.mem_iff_getElem.mp hd
  have hget? : n.edges.toList.get? i = some (s0, d) := by
    rw [List.get?_eq_getElem?]
    simp [List.getElem?_eq_getElem hi, hget]
  have := getEdgeL_complete hs hget?
  unfold RNode.get_edge at h
  rw [h] at this
  exact absurd this (by simp)

theorem length_addEdgeL {α : Type} {L : List (Nat × α)}
    (hs : (labelsOf L).Pairwise (· < ·)) (e : Nat × α) :
    (addEdgeL L e).length = L.length + 1 := by
  unfold addEdgeL
  cases hb : bsearchL (labelsOf L) e.1 with
  | inl j =>
    obtain ⟨hj, _⟩ := bsearchL_inl hs hb
    simp only [bsIdx]
    exact List.length_insertIdx _ _ (by simpa [labelsOf_length] using Nat.le_of_lt hj)
  | inr j =>
    obtain ⟨hj, _, _⟩ := bsearchL_inr hs hb
    simp only [bsIdx]
    exact List.length_insertIdx _ _ (by simpa [labelsOf_length] using hj)

/-- Rebuilding `Settled` of an updated node from monotonicity of its leaf and
edge count plus settledness of its (new) children. -/
theorem settled_from_parts {T : Type} {n n' : RNode T} {b : Bool}
    (hleaf : n'.leaf.isSome = (n.leaf.isSome || b))
    (hlen : n.edges.toList.length ≤ n'.edges.toList.length)
    (hch : ∀ l c, (l, c) ∈ n'.edges.toList → Settled c)
    (hn : Settled n) : Settled n' := by
  obtain ⟨p, lf, e⟩ := n'
  apply Settled.mk ?_ hch
  rcases hn.own with h | h
  · left
    simp only [RNode.leaf_mk] at hleaf ⊢
    rw [hleaf, h]
    simp
  · right
    simp only [RNode.edges_mk] at hlen ⊢
    omega

@[simp] theorem addEdgeL_nil {α : Type} (e : Nat × α) :
    addEdgeL ([] : List (Nat × α)) e = [e] := rfl

theorem headD_take {i x : Nat} {xs : List Nat} (h : 1 ≤ i) :
    ((x :: xs).take i).headD 0 = x := by
  cases i with
  | zero => omega
  | succ j => simp

theorem headD_drop {l : List Nat} {i : Nat} (h : i < l.length) :
    (l.drop i).headD 0 = l.getD i 0 := by
  induction l generalizing i with
  | nil => simp at h
  | cons x xs ih =>
    cases i with
    | zero => simp
    | succ j =>
      simp only [List.drop_succ_cons, List.getD_cons_succ]
      exact ih (by simpa using h)

theorem isPrefixOf_false_of_not {a b : List Nat} (h : ¬ a <+: b) :
    a.isPrefixOf b = false := by
  rw [← Bool.not_eq_true, List.isPrefixOf_iff_prefix]
  exact h

theorem ite_eq_self_nat {A : Type} (a : Nat) (x y : A) :
    (if a = a then x else y) = x := if_pos rfl

/-- Central specification of `internal_insert` on a well-formed subtree:
whenever it returns (does not panic), it produces an updated node with the
same prefix whose subtree is again well formed, reports exactly the value
previously stored at `search` as the old value, stores `value` at `search`,
and preserves leaf presence, edge count, and settledness of children. -/
theorem internal_insert_spec {T : Type} [DecidableEq T] :
    ∀ (fuel : Nat) (node : RNode T) (acc key search : List Nat) (value : T),
      NodeInv acc node → VStr search → acc ++ search = key →
      ∀ {res : Option (RNode T) × Option T},
        internal_insert fuel node key search value = some res →
        ∃ newNode, res.1 = some newNode ∧
          newNode.pfx = node.pfx ∧
          newNode.leaf.isSome = (node.leaf.isSome || decide (search = [])) ∧
          node.edges.toList.length ≤ newNode.edges.toList.length ∧
          NodeInv acc newNode ∧
          (∀ fuel2, search.length < fuel2 → res.2 = nodeGet fuel2 node search) ∧
          (∀ fuel2, search.length < fuel2 → nodeGet fuel2 newNode search = some value) ∧
          ((∀ l c, (l, c) ∈ node.edges.toList → Settled c) →
            (∀ l c, (l, c) ∈ newNode.edges.toList → Settled c)) := by
  intro fuel
  induction fuel with
  | zero =>
    intro node acc key search value hinv hvs hkey res h
    simp [internal_insert] at h
  | succ f ih =>
    intro node acc key search value hinv hvs hkey res h
    obtain ⟨npfx, nleaf, nedges⟩ := node
    have hsorted := hinv.sorted
    simp only [RNode.edges_mk] at hsorted
    rw [internal_insert.eq_def] at h
    simp only [] at h
    split at h
    · -- search = []
      have hacc : acc = key := by simpa using hkey
      simp only [Option.some.injEq] at h
      subst h
      refine ⟨(RNode.mk npfx nleaf nedges).replace_leaf (some ⟨key, value⟩), rfl, by simp,
        by simp, by simp, ?_, ?_, ?_, ?_⟩
      · cases hinv with
        | mk h1 h2 h3 h4 =>
          apply NodeInv.mk ?_ h2 h3 h4
          intro lf hl
          injection hl with hl
          rw [← hl]
          exact hacc.symm
      · intro fuel2 hf2
        match fuel2, hf2 with
        | f2 + 1, _ =>
          rw [nodeGet_succ_nil]
          simp only []
          cases nleaf <;> simp [RNode.replace_leaf]
      · intro fuel2 hf2
        match fuel2, hf2 with
        | f2 + 1, _ => simp [RNode.replace_leaf]
      · intro hset
        simpa [RNode.replace_leaf] using hset
    · -- search = s0 :: rest
      rename_i s0 rest
      split at h
      · -- no edge with label s0
        rename_i hedge
        have hnotmem : s0 ∉ labelsOf nedges.toList := by
          have := @get_edge_none_not_mem _ (RNode.mk npfx nleaf nedges) (by simpa) _ hedge
          simpa using this
        simp only [Option.some.injEq] at h
        subst h
        refine ⟨_, rfl, by simp, by simp, ?_, ?_, ?_, ?_, ?_⟩
        · simp only [RNode.edges_add_edge, RNode.edges_mk]
          rw [length_addEdgeL hsorted]
          omega
        · -- NodeInv of the node with the added leaf edge
          cases hinv with
          | mk h1 h2 h3 h4 =>
            simp only [RNode.add_edge, RNode.pfx_mk, RNode.leaf_mk, RNode.edges_mk]
            apply NodeInv.mk h1
            · simpa using sorted_addEdgeL hsorted hnotmem
            · intro l c hmem
              simp only [EL.toList_ofList] at hmem
              rcases (mem_addEdgeL hsorted hnotmem).mp hmem with hm | hm
              · obtain ⟨hl, hc⟩ := Prod.mk.injEq .. ▸ hm
                subst hl
                subst hc
                exact ⟨by simp, by simp, by simpa using hvs⟩
              · exact h3 l c hm
            · intro l c hmem
              simp only [EL.toList_ofList] at hmem
              rcases (mem_addEdgeL hsorted hnotmem).mp hmem with hm | hm
              · obtain ⟨hl, hc⟩ := Prod.mk.injEq .. ▸ hm
                subst hl
                subst hc
                apply NodeInv.mk
                · intro lf hl
                  injection hl with hl
                  rw [← hl]
                  exact hkey.symm
                · simp [labelsOf]
                · intro l c hmem2
                  simp only [EL.toList_ofList] at hmem2
                  exact absurd hmem2 (List.not_mem_nil _)
                · intro l c hmem2
                  simp only [EL.toList_ofList] at hmem2
                  exact absurd hmem2 (List.not_mem_nil _)
              · exact h4 l c hm
        · intro fuel2 hf2
          match fuel2, hf2 with
          | f2 + 1, _ =>
            rw [nodeGet_succ_cons]
            rw [get_edge_none_findChild hedge]
        · intro fuel2 hf2
          match fuel2, hf2 with
          | f2 + 1, hf2 =>
            rw [nodeGet_succ_cons]
            have hfc : findChild ((RNode.mk npfx nleaf nedges).add_edge
                (s0, RNode.mk (s0 :: rest) (some ⟨key, value⟩)
                  (EL.ofList []))).edges.toList s0 =
                some (RNode.mk (s0 :: rest) (some ⟨key, value⟩) (EL.ofList [])) := by
              simp only [RNode.edges_add_edge, RNode.edges_mk]
              rw [findChild_addEdgeL hsorted hnotmem]
              simp
            simp only [hfc]
            rw [if_pos (by simp [List.isPrefixOf_iff_prefix])]
            simp only [RNode.pfx_mk]
            rw [List.drop_length]
            have hf2' : 1 ≤ f2 := by
              simp only [List.length_cons] at hf2
              omega
            match f2, hf2' with
            | f3 + 1, _ => simp
        · intro hset l c hmem
          simp only [RNode.edges_add_edge, RNode.edges_mk] at hmem
          rcases (mem_addEdgeL hsorted hnotmem).mp hmem with hm | hm
          · obtain ⟨hl, hc⟩ := Prod.mk.injEq .. ▸ hm
            subst hl
            subst hc
            apply Settled.mk
            · left; simp
            · intro l c hmem2
              simp only [EL.toList_ofList] at hmem2
              exact absurd hmem2 (List.not_mem_nil _)
          · exact hset l c hm
      · -- edge with label s0 exists
        rename_i edgeIdx child hedge
        obtain ⟨hget?, hmem⟩ := get_edge_mem hedge
        simp only [RNode.edges_mk] at hget? hmem
        obtain ⟨hcne, hchead, hcvs, hcinv⟩ :=
          hinv.child s0 child (by simpa using hmem)
        have hc1 : 1 ≤ child.pfx.length := List.length_pos.mpr hcne
        split at h
        · -- common prefix covers the whole child prefix: descend
          rename_i hlen
          split at h
          next => exact absurd h (by simp)
          next newSearch hdrop =>
            obtain ⟨hbnd, hnsdef⟩ := strDrop_eq_some.mp hdrop
            have hpp : child.pfx <+: (s0 :: rest) := isPrefix_of_longestPrefixLen hlen
            have happ : child.pfx ++ newSearch = s0 :: rest := by
              rw [hnsdef, hlen]
              exact List.prefix_iff_eq_append.mp hpp
            have hvs' : VStr newSearch := by
              rw [hnsdef]
              exact (vstr_take_drop hvs hbnd).2
            have hkey' : (acc ++ child.pfx) ++ newSearch = key := by
              rw [List.append_assoc, happ]
              exact hkey
            have hnslen : newSearch.length + child.pfx.length = rest.length + 1 := by
              have := congrArg List.length happ
              simp at this
              omega
            split at h
            next => exact absurd h (by simp)
            next newChild old hrec =>
                obtain ⟨nc, hnc, hncpfx, hncleaf, hnclen, hncinv, hncold, hncget, hncset⟩ :=
                  ih child (acc ++ child.pfx) key newSearch value hcinv hvs' hkey' hrec
                have hnc' : nc = newChild := by simpa using hnc.symm
                subst hnc'
                split at h
                next => exact absurd h (by simp)
                next newNode hrep =>
                  obtain ⟨L2, hL2, hnn⟩ := RNode.replace_edge_at_some hrep
                  simp only [RNode.pfx_mk, RNode.leaf_mk, RNode.edges_mk] at hL2 hnn
                  rw [replaceEdgeAtL_spec hget? nc] at hL2
                  have hL2' : L2 = nedges.toList.set edgeIdx (s0, nc) := by
                    simpa using hL2.symm
                  subst hL2'
                  simp only [Option.some.injEq] at h
                  subst h
                  subst hnn
                  refine ⟨_, rfl, by simp, by simp, by simp, ?_, ?_, ?_, ?_⟩
                  · -- NodeInv after replacing the edge child
                    cases hinv with
                    | mk h1 h2 h3 h4 =>
                      apply NodeInv.mk h1
                      · simp only [RNode.edges_mk, EL.toList_ofList]
                        rw [labelsOf_set hget?]
                        simpa using h2
                      · intro l c hmem2
                        simp only [RNode.edges_mk, EL.toList_ofList] at hmem2
                        rcases (mem_set_iff hsorted hget?).mp hmem2 with hm | ⟨hm, hne⟩
                        · obtain ⟨hl, hc⟩ := Prod.mk.injEq .. ▸ hm
                          subst hl
                          subst hc
                          rw [hncpfx]
                          exact ⟨hcne, hchead, hcvs⟩
                        · exact h3 l c hm
                      · intro l c hmem2
                        simp only [RNode.edges_mk, EL.toList_ofList] at hmem2
                        rcases (mem_set_iff hsorted hget?).mp hmem2 with hm | ⟨hm, hne⟩
                        · obtain ⟨hl, hc⟩ := Prod.mk.injEq .. ▸ hm
                          subst hl
                          subst hc
                          rw [hncpfx]
                          exact hncinv
                        · exact h4 l c hm
                  · intro fuel2 hf2
                    match fuel2, hf2 with
                    | f2 + 1, hf2 =>
                      rw [nodeGet_succ_cons]
                      simp only [get_edge_some_findChild hedge]
                      rw [if_pos (List.isPrefixOf_iff_prefix.mpr hpp)]
                      have hdropeq : (s0 :: rest).drop child.pfx.length = newSearch := by
                        rw [hnsdef, hlen]
                      rw [hdropeq]
                      apply hncold
                      simp only [List.length_cons] at hf2
                      omega
                  · intro fuel2 hf2
                    match fuel2, hf2 with
                    | f2 + 1, hf2 =>
                      rw [nodeGet_succ_cons]
                      have hfc : findChild (nedges.toList.set edgeIdx (s0, nc)) s0 =
                          some nc := by
                        rw [findChild_set hsorted hget?]
                        simp
                      simp only [RNode.edges_mk, EL.toList_ofList]
                      simp only [hfc]
                      rw [if_pos (by rw [hncpfx]; exact List.isPrefixOf_iff_prefix.mpr hpp)]
                      have hdropeq : (s0 :: rest).drop nc.pfx.length = newSearch := by
                        rw [hncpfx, hnsdef, hlen]
                      rw [hdropeq]
                      apply hncget
                      simp only [List.length_cons] at hf2
                      omega
                  · intro hset l c hmem2
                    simp only [RNode.edges_mk, EL.toList_ofList] at hmem2 hset
                    rcases (mem_set_iff hsorted hget?).mp hmem2 with hm | ⟨hm, hne⟩
                    · have hsc : Settled child := hset s0 child (by simpa using hmem)
                      obtain ⟨hl, hc⟩ := Prod.mk.injEq .. ▸ hm
                      subst hl
                      subst hc
                      exact settled_from_parts hncleaf hnclen
                        (hncset (fun l2 c2 hm2 => hsc.childSettled l2 c2 hm2)) hsc
                    · exact hset l c hm
            next old hrec =>
              obtain ⟨nc, hnc, _⟩ :=
                ih child (acc ++ child.pfx) key newSearch value hcinv hvs' hkey' hrec
              exact absurd hnc (by simp)
        · -- split: the common prefix is a strict part of the child prefix
          rename_i hlen
          have hlplt : longestPrefixLen (s0 :: rest) child.pfx < child.pfx.length :=
            lt_of_le_of_ne (longestPrefixLen_le_right _ _) hlen
          split at h
          next => exact absurd h (by simp)
          next splitPfx htake =>
            obtain ⟨hbnd1, hspdef⟩ := strTake_eq_some.mp htake
            split at h
            next => exact absurd h (by simp)
            next childPfx2 hdropc =>
              obtain ⟨hbnd2, hcp2def⟩ := strDrop_eq_some.mp hdropc
              split at h
              next => exact absurd h (by simp)
              next searchRest hdrops =>
                obtain ⟨hbnd3, hsrdef⟩ := strDrop_eq_some.mp hdrops
                have hlp1 : 1 ≤ longestPrefixLen (s0 :: rest) child.pfx := by
                  obtain ⟨cp0, cpr, hcp⟩ : ∃ a l, child.pfx = a :: l := by
                    cases hx : child.pfx with
                    | nil => exact absurd hx hcne
                    | cons a l => exact ⟨a, l, rfl⟩
                  rw [hcp] at hchead
                  have hcs : cp0 = s0 := by simpa using hchead
                  subst hcs
                  rw [hcp, longestPrefixLen_cons, if_pos rfl]
                  omega
                have hsplit_app : splitPfx ++ childPfx2 = child.pfx := by
                  rw [hspdef, hcp2def, take_longestPrefixLen_left]
                  exact List.take_append_drop _ _
                have hsplit_search : splitPfx ++ searchRest = s0 :: rest := by
                  rw [hspdef, hsrdef]
                  exact List.take_append_drop _ _
                have hcp2ne : childPfx2 ≠ [] := by
                  rw [hcp2def]
                  intro hcon
                  have := congrArg List.length hcon
                  simp at this
                  omega
                have hcvs2 : VStr childPfx2 := by
                  rw [hcp2def]
                  exact (vstr_take_drop hcvs hbnd2).2
                have hspne : splitPfx ≠ [] := by
                  rw [hspdef]
                  intro hcon
                  have := congrArg List.length hcon
                  simp only [List.length_take, List.length_nil] at this
                  simp only [List.length_cons] at this
                  omega
                have hsphead : splitPfx.headD 0 = s0 := by
                  rw [hspdef]
                  exact headD_take hlp1
                have hspvs : VStr splitPfx := by
                  rw [hspdef]
                  exact (vstr_take_drop hvs hbnd1).1
                have hsplen : splitPfx.length = longestPrefixLen (s0 :: rest) child.pfx := by
                  rw [hspdef]
                  simp only [List.length_take]
                  have := longestPrefixLen_le_left (s0 :: rest) child.pfx
                  omega
                have hcp2head : childPfx2.headD 0 =
                    child.pfx.getD (longestPrefixLen (s0 :: rest) child.pfx) 0 := by
                  rw [hcp2def]
                  exact headD_drop hlplt
                have hnotprefix : ¬ child.pfx <+: (s0 :: rest) := by
                  intro hcon
                  exact (lt_irrefl _ ((longestPrefixLen_of_isPrefix hcon) ▸ hlplt))
                have hmoved_inv : NodeInv (acc ++ splitPfx ++ childPfx2)
                    (RNode.mk childPfx2 child.leaf child.edges) := by
                  have hEq : acc ++ splitPfx ++ childPfx2 = acc ++ child.pfx := by
                    rw [List.append_assoc, hsplit_app]
                  rw [hEq]
                  exact hcinv.repfx childPfx2
                have hget0 : nedges.toList.get?
                    (bsIdx (bsearchL (labelsOf nedges.toList) s0)) = some (s0, child) :=
                  bsFind hsorted hmem
                have holdnone : ∀ fuel2, (s0 :: rest).length < fuel2 →
                    (none : Option T) = nodeGet fuel2 (RNode.mk npfx nleaf nedges)
                      (s0 :: rest) := by
                  intro fuel2 hf2
                  match fuel2, hf2 with
                  | f2 + 1, _ =>
                    rw [nodeGet_succ_cons]
                    simp only [get_edge_some_findChild hedge]
                    rw [if_neg (by rw [List.isPrefixOf_iff_prefix]; exact hnotprefix)]
                split at h
                · -- searchRest = [] : the split node itself carries the new leaf
                  have hsreq : ([] : List Nat) = (s0 :: rest).drop
                      (longestPrefixLen (s0 :: rest) child.pfx) := hsrdef
                  have hlpfull : longestPrefixLen (s0 :: rest) child.pfx =
                      (s0 :: rest).length := by
                    have hle := longestPrefixLen_le_left (s0 :: rest) child.pfx
                    have := congrArg List.length hsreq
                    simp only [List.length_nil, List.length_drop] at this
                    omega
                  have hspfull : splitPfx = s0 :: rest := by
                    rw [hspdef, hlpfull]
                    simp
                  split at h
                  next => exact absurd h (by simp)
                  next newNode hrep =>
                    obtain ⟨L2, hL2, hnn⟩ := RNode.replace_edge_some hrep
                    simp only [RNode.pfx_mk, RNode.leaf_mk, RNode.edges_mk] at hL2 hnn
                    rw [replaceEdgeL_spec hsorted hmem] at hL2
                    have hL2' : L2 = nedges.toList.set
                        (bsIdx (bsearchL (labelsOf nedges.toList) s0))
                        (s0, ((RNode.mk splitPfx none (EL.ofList [])).add_edge
                          (child.pfx.getD (longestPrefixLen (s0 :: rest) child.pfx) 0,
                            RNode.mk childPfx2 child.leaf child.edges)).replace_leaf
                          (some ⟨key, value⟩)) := by
                      simpa using hL2.symm
                    subst hL2'
                    simp only [Option.some.injEq] at h
                    subst h
                    subst hnn
                    refine ⟨_, rfl, by simp, by simp, by simp, ?_, ?_, ?_, ?_⟩
                    · -- NodeInv after wiring in the split node
                      cases hinv with
                      | mk h1 h2 h3 h4 =>
                        apply NodeInv.mk h1
                        · simp only [RNode.edges_mk, EL.toList_ofList]
                          rw [labelsOf_set hget0]
                          simpa using h2
                        · intro l c hmem2
                          simp only [RNode.edges_mk, EL.toList_ofList] at hmem2
                          rcases (mem_set_iff hsorted hget0).mp hmem2 with hm | ⟨hm, hne⟩
                          · obtain ⟨hl, hc⟩ := Prod.mk.injEq .. ▸ hm
                            subst hl
                            subst hc
                            refine ⟨by simpa using hspne, by simpa using hsphead,
                              by simpa using hspvs⟩
                          · exact h3 l c hm
                        · intro l c hmem2
                          simp only [RNode.edges_mk, EL.toList_ofList] at hmem2
                          rcases (mem_set_iff hsorted hget0).mp hmem2 with hm | ⟨hm, hne⟩
                          · obtain ⟨hl, hc⟩ := Prod.mk.injEq .. ▸ hm
                            subst hl
                            subst hc
                            simp only [RNode.replace_leaf, RNode.pfx_add_edge, RNode.pfx_mk,
                              RNode.edges_add_edge, RNode.edges_mk, EL.toList_ofList,
                              addEdgeL_nil]
                            apply NodeInv.mk
                            · intro lf hl
                              injection hl with hl
                              rw [← hl]
                              rw [hspfull]
                              exact hkey.symm
                            · simp [labelsOf]
                            · intro l2 c2 hmem3
                              simp only [EL.toList_ofList] at hmem3
                              rcases List.mem_singleton.mp hmem3 with hm3
                              obtain ⟨hl2, hc2⟩ := Prod.mk.injEq .. ▸ hm3
                              subst hl2
                              subst hc2
                              exact ⟨by simpa using hcp2ne, by simpa using hcp2head,
                                by simpa using hcvs2⟩
                            · intro l2 c2 hmem3
                              simp only [EL.toList_ofList] at hmem3
                              rcases List.mem_singleton.mp hmem3 with hm3
                              obtain ⟨hl2, hc2⟩ := Prod.mk.injEq .. ▸ hm3
                              subst hl2
                              subst hc2
                              exact hmoved_inv
                          · exact h4 l c hm
                    · intro fuel2 hf2
                      exact holdnone fuel2 hf2
                    · intro fuel2 hf2
                      match fuel2, hf2 with
                      | f2 + 1, hf2 =>
                        have hfc2 : findChild ((RNode.mk npfx nleaf (EL.ofList
                            (nedges.toList.set
                              (bsIdx (bsearchL (labelsOf nedges.toList) s0))
                              (s0, ((RNode.mk splitPfx none (EL.ofList [])).add_edge
                                (child.pfx.getD
                                  (longestPrefixLen (s0 :: rest) child.pfx) 0,
                                  RNode.mk childPfx2 child.leaf child.edges)).replace_leaf
                                (some ⟨key, value⟩))))).edges.toList) s0 =
                            some (((RNode.mk splitPfx none (EL.ofList [])).add_edge
                              (child.pfx.getD
                                (longestPrefixLen (s0 :: rest) child.pfx) 0,
                                RNode.mk childPfx2 child.leaf child.edges)).replace_leaf
                              (some ⟨key, value⟩)) := by
                          simp only [RNode.edges_mk, EL.toList_ofList]
                          rw [findChild_set hsorted hget0]
                          exact if_pos rfl
                        rw [nodeGet_succ_cons]
                        simp only [hfc2]
                        have hsp_pre2 : splitPfx <+: (s0 :: rest) := by
                          rw [hspdef]
                          exact List.take_prefix _ _
                        rw [if_pos (by
                          simp only [RNode.replace_leaf, RNode.pfx_add_edge, RNode.pfx_mk]
                          exact List.isPrefixOf_iff_prefix.mpr hsp_pre2)]
                        simp only [RNode.replace_leaf, RNode.pfx_add_edge, RNode.pfx_mk]
                        rw [hspfull, List.drop_length]
                        have hf2' : 1 ≤ f2 := by
                          simp only [List.length_cons] at hf2
                          omega
                        match f2, hf2' with
                        | f3 + 1, _ => simp [RNode.replace_leaf]
                    · intro hset l c hmem2
                      simp only [RNode.edges_mk, EL.toList_ofList] at hmem2 hset
                      rcases (mem_set_iff hsorted hget0).mp hmem2 with hm | ⟨hm, hne⟩
                      · have hsc : Settled child := hset s0 child (by simpa using hmem)
                        obtain ⟨hl, hc⟩ := Prod.mk.injEq .. ▸ hm
                        subst hl
                        subst hc
                        apply Settled.mk
                        · left; simp [RNode.replace_leaf]
                        · intro l2 c2 hmem3
                          simp only [RNode.replace_leaf, RNode.edges_add_edge, RNode.edges_mk,
                            EL.toList_ofList, addEdgeL_nil] at hmem3
                          rcases List.mem_singleton.mp hmem3 with hm3
                          obtain ⟨hl2, hc2⟩ := Prod.mk.injEq .. ▸ hm3
                          subst hl2
                          subst hc2
                          exact hsc.withPfx childPfx2
                      · exact hset l c hm
                · -- searchRest = t0 :: r0 : a fresh leaf child under the split node
                  rename_i t0 r0
                  have hlpltS : longestPrefixLen (s0 :: rest) child.pfx <
                      (s0 :: rest).length := by
                    by_contra hcon
                    push_neg at hcon
                    have : (s0 :: rest).drop (longestPrefixLen (s0 :: rest) child.pfx) = [] :=
                      List.drop_eq_nil_of_le hcon
                    rw [← hsrdef] at this
                    exact absurd this (by simp)
                  have ht0 : t0 = (s0 :: rest).getD
                      (longestPrefixLen (s0 :: rest) child.pfx) 0 := by
                    have := headD_drop hlpltS
                    rw [← hsrdef] at this
                    simpa using this
                  have hne_lab : t0 ≠
                      child.pfx.getD (longestPrefixLen (s0 :: rest) child.pfx) 0 := by
                    rw [ht0]
                    exact getD_longestPrefixLen_ne hlpltS hlplt
                  have hbase_sorted : (labelsOf
                      [(child.pfx.getD (longestPrefixLen (s0 :: rest) child.pfx) 0,
                        RNode.mk childPfx2 child.leaf child.edges)]).Pairwise (· < ·) := by
                    simp [labelsOf]
                  have hbase_not : t0 ∉ labelsOf
                      [(child.pfx.getD (longestPrefixLen (s0 :: rest) child.pfx) 0,
                        RNode.mk childPfx2 child.leaf child.edges)] := by
                    simp only [labelsOf, List.map_cons, List.map_nil, List.mem_singleton]
                    exact hne_lab
                  have hsrvs : VStr (t0 :: r0) := by
                    rw [hsrdef]
                    exact (vstr_take_drop hvs hbnd3).2
                  have hkey2 : acc ++ splitPfx ++ (t0 :: r0) = key := by
                    rw [List.append_assoc, hsplit_search]
                    exact hkey
                  split at h
                  next => exact absurd h (by simp)
                  next newNode hrep =>
                    obtain ⟨L2, hL2, hnn⟩ := RNode.replace_edge_some hrep
                    simp only [RNode.pfx_mk, RNode.leaf_mk, RNode.edges_mk] at hL2 hnn
                    rw [replaceEdgeL_spec hsorted hmem] at hL2
                    have hL2' : L2 = nedges.toList.set
                        (bsIdx (bsearchL (labelsOf nedges.toList) s0))
                        (s0, ((RNode.mk splitPfx none (EL.ofList [])).add_edge
                          (child.pfx.getD (longestPrefixLen (s0 :: rest) child.pfx) 0,
                            RNode.mk childPfx2 child.leaf child.edges)).add_edge
                          (t0, RNode.mk (t0 :: r0) (some ⟨key, value⟩) (EL.ofList []))) := by
                      simpa using hL2.symm
                    subst hL2'
                    simp only [Option.some.injEq] at h
                    subst h
                    subst hnn
                    refine ⟨_, rfl, by simp, by simp, by simp, ?_, ?_, ?_, ?_⟩
                    · -- NodeInv after wiring in the split node with two children
                      cases hinv with
                      | mk h1 h2 h3 h4 =>
                        apply NodeInv.mk h1
                        · simp only [RNode.edges_mk, EL.toList_ofList]
                          rw [labelsOf_set hget0]
                          simpa using h2
                        · intro l c hmem2
                          simp only [RNode.edges_mk, EL.toList_ofList] at hmem2
                          rcases (mem_set_iff hsorted hget0).mp hmem2 with hm | ⟨hm, hne⟩
                          · obtain ⟨hl, hc⟩ := Prod.mk.injEq .. ▸ hm
                            subst hl
                            subst hc
                            refine ⟨by simpa using hspne, by simpa using hsphead,
                              by simpa using hspvs⟩
                          · exact h3 l c hm
                        · intro l c hmem2
                          simp only [RNode.edges_mk, EL.toList_ofList] at hmem2
                          rcases (mem_set_iff hsorted hget0).mp hmem2 with hm | ⟨hm, hne⟩
                          · obtain ⟨hl, hc⟩ := Prod.mk.injEq .. ▸ hm
                            subst hl
                            subst hc
                            simp only [RNode.pfx_add_edge, RNode.pfx_mk,
                              RNode.edges_add_edge, RNode.edges_mk, EL.toList_ofList,
                              addEdgeL_nil]
                            apply NodeInv.mk
                            · intro lf hl
                              exact absurd hl (by simp)
                            · simpa using sorted_addEdgeL hbase_sorted hbase_not
                            · intro l2 c2 hmem3
                              simp only [EL.toList_ofList] at hmem3
                              rcases (mem_addEdgeL hbase_sorted hbase_not).mp hmem3
                                with hm3 | hm3
                              · obtain ⟨hl2, hc2⟩ := Prod.mk.injEq .. ▸ hm3
                                subst hl2
                                subst hc2
                                exact ⟨by simp, by simp, by simpa using hsrvs⟩
                              · rcases List.mem_singleton.mp hm3 with hm4
                                obtain ⟨hl2, hc2⟩ := Prod.mk.injEq .. ▸ hm4
                                subst hl2
                                subst hc2
                                exact ⟨by simpa using hcp2ne, by simpa using hcp2head,
                                  by simpa using hcvs2⟩
                            · intro l2 c2 hmem3
                              simp only [EL.toList_ofList] at hmem3
                              rcases (mem_addEdgeL hbase_sorted hbase_not).mp hmem3
                                with hm3 | hm3
                              · obtain ⟨hl2, hc2⟩ := Prod.mk.injEq .. ▸ hm3
                                subst hl2
                                subst hc2
                                apply NodeInv.mk
                                · intro lf hl
                                  injection hl with hl
                                  rw [← hl]
                                  simp only [RNode.pfx_mk]
                                  exact hkey2.symm
                                · simp [labelsOf]
                                · intro l3 c3 hmem4
                                  simp only [EL.toList_ofList] at hmem4
                                  exact absurd hmem4 (List.not_mem_nil _)
                                · intro l3 c3 hmem4
                                  simp only [EL.toList_ofList] at hmem4
                                  exact absurd hmem4 (List.not_mem_nil _)
                              · rcases List.mem_singleton.mp hm3 with hm4
                                obtain ⟨hl2, hc2⟩ := Prod.mk.injEq .. ▸ hm4
                                subst hl2
                                subst hc2
                                exact hmoved_inv
                          · exact h4 l c hm
                    · intro fuel2 hf2
                      exact holdnone fuel2 hf2
                    · intro fuel2 hf2
                      match fuel2, hf2 with
                      | f2 + 1, hf2 =>
                        have hfc2 : findChild ((RNode.mk npfx nleaf (EL.ofList
                            (nedges.toList.set
                              (bsIdx (bsearchL (labelsOf nedges.toList) s0))
                              (s0, ((RNode.mk splitPfx none (EL.ofList [])).add_edge
                                (child.pfx.getD
                                  (longestPrefixLen (s0 :: rest) child.pfx) 0,
                                  RNode.mk childPfx2 child.leaf child.edges)).add_edge
                                (t0, RNode.mk (t0 :: r0) (some ⟨key, value⟩)
                                  (EL.ofList [])))))).edges.toList) s0 =
                            some (((RNode.mk splitPfx none (EL.ofList [])).add_edge
                              (child.pfx.getD
                                (longestPrefixLen (s0 :: rest) child.pfx) 0,
                                RNode.mk childPfx2 child.leaf child.edges)).add_edge
                              (t0, RNode.mk (t0 :: r0) (some ⟨key, value⟩)
                                (EL.ofList []))) := by
                          simp only [RNode.edges_mk, EL.toList_ofList]
                          rw [findChild_set hsorted hget0]
                          exact if_pos rfl
                        rw [nodeGet_succ_cons]
                        simp only [hfc2]
                        have hsp_pre : splitPfx <+: (s0 :: rest) := by
                          rw [hspdef]
                          exact List.take_prefix _ _
                        rw [if_pos (by
                          simp only [RNode.pfx_add_edge, RNode.pfx_mk]
                          exact List.isPrefixOf_iff_prefix.mpr hsp_pre)]
                        simp only [RNode.pfx_add_edge, RNode.pfx_mk]
                        have hdropeq : (s0 :: rest).drop splitPfx.length = t0 :: r0 := by
                          rw [hsplen, ← hsrdef]
                        rw [hdropeq]
                        have hf2' : (t0 :: r0).length < f2 := by
                          have hlen_sr : (t0 :: r0).length =
                              (s0 :: rest).length - longestPrefixLen (s0 :: rest) child.pfx := by
                            rw [hsrdef]
                            simp
                          simp only [List.length_cons] at hf2 ⊢
                          simp only [List.length_cons] at hlen_sr
                          omega
                        match f2, hf2' with
                        | f3 + 1, hf3 =>
                          have hfc3 : findChild ((((RNode.mk splitPfx none
                              (EL.ofList [])).add_edge
                              (child.pfx.getD
                                (longestPrefixLen (s0 :: rest) child.pfx) 0,
                                RNode.mk childPfx2 child.leaf child.edges)).add_edge
                              (t0, RNode.mk (t0 :: r0) (some ⟨key, value⟩)
                                (EL.ofList []))).edges.toList) t0 =
                              some (RNode.mk (t0 :: r0) (some ⟨key, value⟩)
                                (EL.ofList [])) := by
                            simp only [RNode.edges_add_edge, RNode.edges_mk, EL.toList_ofList,
                              addEdgeL_nil]
                            rw [findChild_addEdgeL hbase_sorted hbase_not]
                            simp
                          rw [nodeGet_succ_cons]
                          simp only [hfc3]
                          rw [if_pos (by simp [List.isPrefixOf_iff_prefix])]
                          simp only [RNode.pfx_mk]
                          rw [List.drop_length]
                          have hf3' : 1 ≤ f3 := by
                            simp only [List.length_cons] at hf3
                            omega
                          match f3, hf3' with
                          | f4 + 1, _ => simp
                    · intro hset l c hmem2
                      simp only [RNode.edges_mk, EL.toList_ofList] at hmem2 hset
                      rcases (mem_set_iff hsorted hget0).mp hmem2 with hm | ⟨hm, hne⟩
                      · have hsc : Settled child := hset s0 child (by simpa using hmem)
                        obtain ⟨hl, hc⟩ := Prod.mk.injEq .. ▸ hm
                        subst hl
                        subst hc
                        apply Settled.mk
                        · right
                          simp only [RNode.edges_add_edge, RNode.edges_mk, EL.toList_ofList,
                            addEdgeL_nil]
                          rw [length_addEdgeL hbase_sorted]
                          simp
                        · intro l2 c2 hmem3
                          simp only [RNode.edges_add_edge, RNode.edges_mk, EL.toList_ofList,
                            addEdgeL_nil] at hmem3
                          rcases (mem_addEdgeL hbase_sorted hbase_not).mp hmem3 with hm3 | hm3
                          · obtain ⟨hl2, hc2⟩ := Prod.mk.injEq .. ▸ hm3
                            subst hl2
                            subst hc2
                            apply Settled.mk
                            · left; simp
                            · intro l3 c3 hmem4
                              simp only [EL.toList_ofList] at hmem4
                              exact absurd hmem4 (List.not_mem_nil _)
                          · rcases List.mem_singleton.mp hm3 with hm4
                            obtain ⟨hl2, hc2⟩ := Prod.mk.injEq .. ▸ hm4
                            subst hl2
                            subst hc2
                            exact hsc.withPfx childPfx2
                      · exact hset l c hm

theorem nodeInv_empty {T : Type} :
    NodeInv ([] : List Nat) (RNode.mk [] none (EL.ofList []) : RNode T) :=
  NodeInv.mk (fun _ h => Option.noConfusion h) List.Pairwise.nil
    (fun _ _ h => absurd h (List.not_mem_nil _))
    (fun _ _ h => absurd h (List.not_mem_nil _))

/-- C3: round trip — for every transaction state whose working root satisfies
the radix invariant and every valid-UTF-8 key `k`, if `Txn::insert(k, v)`
completes (does not panic), then looking `k` up from the transaction's new
working root returns `v`. -/
theorem claim_C3_round_trip {T : Type} [DecidableEq T]
    (fuel fuel2 : Nat) (s : TxnP T) (k : List Nat) (v : T)
    (hinv : NodeInv [] s.root) (hvs : VStr k) (hf2 : k.length < fuel2)
    {s' : TxnP T} {old : Option T}
    (h : txnInsert fuel s k v = some (s', old)) :
    nodeGet fuel2 s'.root k = some v := by
  unfold txnInsert at h
  split at h
  next => exact absurd h (by simp)
  next newNode old0 heq =>
    obtain ⟨nn, hres1, _, _, _, _, _, hget, _⟩ :=
      internal_insert_spec fuel s.root [] k k v hinv hvs (by simp) heq
    have hnn : newNode = some nn := by simpa using hres1
    subst hnn
    simp only [Option.some.injEq, Prod.mk.injEq] at h
    obtain ⟨h1, h2⟩ := h
    rw [← h1]
    exact hget fuel2 hf2

theorem claim_C3_round_trip_witness :
    nodeGet 4 (RNode.mk [] none (EL.ofList
      [(48, RNode.mk [48] (some ⟨[48], (1 : Nat)⟩) (EL.ofList []))])) [48] =
      some 1 :=
  claim_C3_round_trip 4 4 ⟨RNode.mk [] none (EL.ofList []), 0⟩ [48] 1
    nodeInv_empty (vstr_of_ascii (by decide)) (by decide)
    (by decide : txnInsert 4 ⟨RNode.mk [] none (EL.ofList []), 0⟩ [48] 1 =
      some (⟨RNode.mk [] none (EL.ofList
        [(48, RNode.mk [48] (some ⟨[48], (1 : Nat)⟩) (EL.ofList []))]), 1⟩, none))

/-- C4: update semantics of insert — for a transaction state with a
well-formed root and a valid key `k`, a completed `Txn::insert(k, v)` returns
exactly the previously stored value; if `k` was stored the size counter is
unchanged, and if `k` was absent the returned value is `None` and the size
counter grows by exactly one (given no `u32` overflow). -/
theorem claim_C4_insert_update_semantics {T : Type} [DecidableEq T]
    (fuel fuel2 : Nat) (s : TxnP T) (k : List Nat) (v : T)
    (hinv : NodeInv [] s.root) (hvs : VStr k) (hf2 : k.length < fuel2)
    (hsize : s.size + 1 < U32MOD)
    {s' : TxnP T} {old : Option T}
    (h : txnInsert fuel s k v = some (s', old)) :
    old = nodeGet fuel2 s.root k ∧
    ((nodeGet fuel2 s.root k).isSome = true → s'.size = s.size) ∧
    (nodeGet fuel2 s.root k = none → old = none ∧ s'.size = s.size + 1) := by
  unfold txnInsert at h
  split at h
  next => exact absurd h (by simp)
  next newNode old0 heq =>
    obtain ⟨nn, hres1, _, _, _, _, hold, _, _⟩ :=
      internal_insert_spec fuel s.root [] k k v hinv hvs (by simp) heq
    have ho : old0 = nodeGet fuel2 s.root k := hold fuel2 hf2
    simp only [Option.some.injEq, Prod.mk.injEq] at h
    obtain ⟨h1, h2⟩ := h
    refine ⟨by rw [← h2]; exact ho, ?_, ?_⟩
    · intro hsome
      rw [← h1]
      simp only
      rw [if_neg (by
        rw [ho]
        intro hc
        rw [hc] at hsome
        simp at hsome)]
    · intro hnone
      refine ⟨by rw [← h2, ho, hnone], ?_⟩
      rw [← h1]
      simp only
      rw [if_pos (by rw [ho, hnone])]
      exact Nat.mod_eq_of_lt hsize

theorem claim_C4_insert_update_semantics_witness :
    ((none : Option Nat) = nodeGet 4 (RNode.mk [] none (EL.ofList [])) [48] ∧
     ((nodeGet 4 (RNode.mk [] none (EL.ofList []) : RNode Nat) [48]).isSome = true →
       (1 : Nat) = 0) ∧
     (nodeGet 4 (RNode.mk [] none (EL.ofList []) : RNode Nat) [48] = none →
       (none : Option Nat) = none ∧ (1 : Nat) = 0 + 1)) :=
  claim_C4_insert_update_semantics 4 4 ⟨RNode.mk [] none (EL.ofList []), 0⟩ [48] 1
    nodeInv_empty (vstr_of_ascii (by decide)) (by decide) (by decide)
    (by decide : txnInsert 4 ⟨RNode.mk [] none (EL.ofList []), 0⟩ [48] 1 =
      some (⟨RNode.mk [] none (EL.ofList
        [(48, RNode.mk [48] (some ⟨[48], (1 : Nat)⟩) (EL.ofList []))]), 1⟩, none))

theorem headD_append_left {a b : List Nat} (d : Nat) (ha : a ≠ []) :
    (a ++ b).headD d = a.headD d := by
  cases a with
  | nil => exact absurd rfl ha
  | cons x xs => rfl

theorem not_prefix_of_headD_ne {a : List Nat} {b : Nat} {r : List Nat}
    (ha : a ≠ []) (hh : a.headD 0 ≠ b) : ¬ a <+: (b :: r) := by
  cases a with
  | nil => exact absurd rfl ha
  | cons x xs =>
    intro hp
    obtain ⟨t, ht⟩ := hp
    injection ht with h1 _
    exact hh (by simpa using h1)

theorem prefix_append_cancel {a b c : List Nat} : (a ++ b) <+: (a ++ c) ↔ b <+: c := by
  constructor
  · intro hp
    obtain ⟨t, ht⟩ := hp
    rw [List.append_assoc] at ht
    exact ⟨t, List.append_cancel_left ht⟩
  · intro hp
    obtain ⟨t, ht⟩ := hp
    exact ⟨t, by rw [List.append_assoc, ht]⟩

theorem length_one_mem {α : Type} {L : List α} (h : L.length = 1) : ∃ a, L = [a] := by
  cases L with
  | nil => simp at h
  | cons x xs =>
    cases xs with
    | nil => exact ⟨x, rfl⟩
    | cons y ys => simp at h

theorem bool_ne_false {b : Bool} (h : ¬ b = false) : b = true := by
  cases b
  · exact absurd rfl h
  · rfl

/-- `merge_child` on a leafless node with exactly one edge splices the child
in: prefixes concatenate, the child's leaf and edges move up. -/
theorem merge_child_one {T : Type} (pfx : List Nat) (edges : EL T) {l2 : Nat}
    {c2 : RNode T} (h : edges.toList = [(l2, c2)]) :
    merge_child (RNode.mk pfx none edges) =
      some (RNode.mk (pfx ++ c2.pfx) c2.leaf c2.edges) := by
  unfold merge_child
  rw [if_neg (by simp [RNode.is_leaf])]
  rw [if_neg (by simp [RNode.edge_len, h])]
  simp [h]

/-- Central specification of `internal_delete` on a well-formed subtree: on
valid UTF-8 input it never panics; the returned leaf is exactly the entry
stored at `search` (`None` and no new node when absent); when a node comes
back it either keeps its prefix — remaining well formed, with `search` gone
and settledness preserved — or is a merge (prefix extended by a non-prefix
extension), which is again well formed and settled. -/
theorem internal_delete_spec {T : Type} [DecidableEq T] :
    ∀ (fuel : Nat) (root node : RNode T) (acc search : List Nat),
      NodeInv acc node → VStr search → root.pfx = [] →
      search.length < fuel →
      ∃ res : Option (RNode T) × Option (LeafN T),
        internal_delete fuel root node search = some res ∧
        (∀ fuel2, search.length < fuel2 →
          res.2.map (fun l => l.value) = nodeGet fuel2 node search) ∧
        res.1.isSome = res.2.isSome ∧
        ∀ newNode, res.1 = some newNode →
          (newNode.pfx = node.pfx ∧ NodeInv acc newNode ∧
            (∀ fuel2, search.length < fuel2 → nodeGet fuel2 newNode search = none) ∧
            ((∀ l c, (l, c) ∈ node.edges.toList → Settled c) →
              (∀ l c, (l, c) ∈ newNode.edges.toList → Settled c)) ∧
            (node ≠ root → Settled node →
              Settled newNode ∨
                (newNode.leaf.isSome = false ∧ newNode.edges.toList.length = 0))) ∨
          (node ≠ root ∧ ∃ ext, ext ≠ [] ∧ VStr ext ∧
            newNode.pfx = node.pfx ++ ext ∧ ¬ ext <+: search ∧
            NodeInv (acc ++ ext) newNode ∧
            ((∀ l c, (l, c) ∈ node.edges.toList → Settled c) → Settled newNode)) := by
  intro fuel
  induction fuel with
  | zero =>
    intro root node acc search hinv hvs hrpfx hfl
    omega
  | succ f ih =>
    intro root node acc search hinv hvs hrpfx hfl
    obtain ⟨npfx, nleaf, nedges⟩ := node
    have hsorted := hinv.sorted
    simp only [RNode.edges_mk] at hsorted
    cases search with
    | nil =>
      cases hnl : nleaf with
      | none =>
        subst hnl
        refine ⟨(none, none), ?_, ?_, rfl, ?_⟩
        · rw [internal_delete.eq_def]
          simp [RNode.is_leaf]
        · intro fuel2 hf2
          match fuel2, hf2 with
          | f2 + 1, _ =>
            rw [nodeGet_succ_nil]
            simp
        · intro newNode hN
          exact absurd hN (by simp)
      | some l =>
        subst hnl
        by_cases hguard : root ≠ RNode.mk npfx (some l) nedges ∧
            ((RNode.mk npfx (some l) nedges).replace_leaf none).edge_len = 1
        · -- the node's leaf goes; one edge remains; node ≠ root: merge
          obtain ⟨⟨l2, c2⟩, hedges⟩ := length_one_mem
            (show nedges.toList.length = 1 by simpa [RNode.edge_len] using hguard.2)
          obtain ⟨hc2ne, hc2head, hc2vs, hc2inv⟩ :=
            hinv.child l2 c2 (by simp [hedges])
          refine ⟨(some (RNode.mk (npfx ++ c2.pfx) c2.leaf c2.edges), some l),
            ?_, ?_, rfl, ?_⟩
          · rw [internal_delete.eq_def]
            simp only []
            rw [if_neg (by simp [RNode.is_leaf])]
            rw [if_pos hguard]
            rw [show (RNode.mk npfx (some l) nedges).replace_leaf none =
              RNode.mk npfx none nedges from rfl]
            rw [merge_child_one npfx nedges hedges]
            simp
          · intro fuel2 hf2
            match fuel2, hf2 with
            | f2 + 1, _ =>
              rw [nodeGet_succ_nil]
              simp
          · intro newNode hN
            simp only [Option.some.injEq] at hN
            subst hN
            right
            refine ⟨fun h => hguard.1 h.symm, c2.pfx, hc2ne, hc2vs, by simp, ?_, ?_, ?_⟩
            · intro hp
              exact hc2ne (List.prefix_nil.mp hp)
            · exact NodeInv.mk (fun lf2 hl => hc2inv.leafKey lf2 hl) hc2inv.sorted
                (fun l3 c3 hm => ⟨(hc2inv.child l3 c3 hm).1, (hc2inv.child l3 c3 hm).2.1,
                  (hc2inv.child l3 c3 hm).2.2.1⟩)
                (fun l3 c3 hm => (hc2inv.child l3 c3 hm).2.2.2)
            · intro hset
              exact (hset l2 c2 (by simp [hedges])).withPfx _
        · -- just remove the leaf
          refine ⟨(some ((RNode.mk npfx (some l) nedges).replace_leaf none), some l),
            ?_, ?_, rfl, ?_⟩
          · rw [internal_delete.eq_def]
            simp only []
            rw [if_neg (by simp [RNode.is_leaf])]
            rw [if_neg hguard]
            simp
          · intro fuel2 hf2
            match fuel2, hf2 with
            | f2 + 1, _ =>
              rw [nodeGet_succ_nil]
              simp
          · intro newNode hN
            simp only [Option.some.injEq] at hN
            subst hN
            left
            refine ⟨by simp, ?_, ?_, ?_, ?_⟩
            · exact NodeInv.mk (fun lf2 hl => absurd hl (by simp))
                (by simpa using hinv.sorted)
                (fun l3 c3 hm => ⟨(hinv.child l3 c3 hm).1, (hinv.child l3 c3 hm).2.1,
                  (hinv.child l3 c3 hm).2.2.1⟩)
                (fun l3 c3 hm => (hinv.child l3 c3 hm).2.2.2)
            · intro fuel2 hf2
              match fuel2, hf2 with
              | f2 + 1, _ => simp
            · intro hset l3 c3 hm
              exact hset l3 c3 (by simpa using hm)
            · intro hne hsettled
              have hlen1 : nedges.toList.length ≠ 1 := fun hl1 =>
                hguard ⟨fun h => hne h.symm, by simpa [RNode.edge_len] using hl1⟩
              rcases Nat.lt_or_ge nedges.toList.length 2 with hlt | hge
              · right
                refine ⟨by simp, ?_⟩
                simp only [RNode.edges_replace_leaf, RNode.edges_mk]
                omega
              · left
                exact Settled.mk (Or.inr (by simpa using hge))
                  (fun l3 c3 hm => hsettled.childSettled l3 c3 (by simpa using hm))
    | cons s0 rest =>
      cases hedge : (RNode.mk npfx nleaf nedges).get_edge s0 with
      | none =>
        refine ⟨(none, none), ?_, ?_, rfl, ?_⟩
        · rw [internal_delete.eq_def]
          simp only [hedge]
        · intro fuel2 hf2
          match fuel2, hf2 with
          | f2 + 1, _ =>
            have hfc : findChild nedges.toList s0 = none := by
              simpa using get_edge_none_findChild hedge
            rw [nodeGet_succ_cons]
            simp [hfc]
        · intro newNode hN
          exact absurd hN (by simp)
      | some p =>
        obtain ⟨edgeIdx, child⟩ := p
        obtain ⟨hget?, hmem⟩ := get_edge_mem hedge
        simp only [RNode.edges_mk] at hget? hmem
        obtain ⟨hcne, hchead, hcvs, hcinv⟩ := hinv.child s0 child (by simpa using hmem)
        have hfc0 : findChild nedges.toList s0 = some child := by
          simpa using get_edge_some_findChild hedge
        by_cases hpre : child.pfx.isPrefixOf (s0 :: rest) = false
        · refine ⟨(none, none), ?_, ?_, rfl, ?_⟩
          · rw [internal_delete.eq_def]
            simp only [hedge, hpre]
            simp
          · intro fuel2 hf2
            match fuel2, hf2 with
            | f2 + 1, _ =>
              rw [nodeGet_succ_cons]
              simp [hfc0, hpre]
          · intro newNode hN
            exact absurd hN (by simp)
        · have hpre' : child.pfx.isPrefixOf (s0 :: rest) = true := bool_ne_false hpre
          have hps : child.pfx <+: (s0 :: rest) := List.isPrefixOf_iff_prefix.mp hpre'
          have hbnd : isCharBoundary (s0 :: rest) child.pfx.length = true :=
            boundary_of_vstr_isPrefix hcvs hvs hps
          have hdrop : strDrop (s0 :: rest) child.pfx.length =
              some ((s0 :: rest).drop child.pfx.length) :=
            strDrop_eq_some.mpr ⟨hbnd, rfl⟩
          have hsrvs : VStr ((s0 :: rest).drop child.pfx.length) :=
            (vstr_take_drop hvs hbnd).2
          have hc1 : 1 ≤ child.pfx.length := List.length_pos.mpr hcne
          have hplen : child.pfx.length ≤ (s0 :: rest).length := hps.length_le
          have hsrlen : ((s0 :: rest).drop child.pfx.length).length < f := by
            simp only [List.length_drop]
            simp only [List.length_cons] at hfl ⊢
            omega
          have happ : child.pfx ++ (s0 :: rest).drop child.pfx.length = s0 :: rest :=
            List.prefix_iff_eq_append.mp hps
          obtain ⟨⟨r1, r2⟩, heqrec, hA', hD', hE'⟩ :=
            ih root child (acc ++ child.pfx) ((s0 :: rest).drop child.pfx.length)
              hcinv hsrvs hrpfx hsrlen
          cases r1 with
          | none =>
            have hr2 : r2 = none := by
              cases r2 with
              | none => rfl
              | some x => simp at hD'
            subst hr2
            refine ⟨(none, none), ?_, ?_, rfl, ?_⟩
            · rw [internal_delete.eq_def]
              simp only [hedge, hpre', hdrop, heqrec]
              simp
            · intro fuel2 hf2
              match fuel2, hf2 with
              | f2 + 1, hf2 =>
                rw [nodeGet_succ_cons]
                simp only [get_edge_some_findChild hedge]
                rw [if_pos hpre']
                exact hA' f2 (by
                  simp only [List.length_drop]
                  simp only [List.length_cons] at hf2 ⊢
                  omega)
            · intro newNode hN
              exact absurd hN (by simp)
          | some newChild =>
            have hr2some : ∃ lf, r2 = some lf := by
              cases r2 with
              | some lf => exact ⟨lf, rfl⟩
              | none => simp at hD'
            obtain ⟨lf, hlf⟩ := hr2some
            subst hlf
            have hE1 := hE' newChild rfl
            by_cases hempty : newChild.is_leaf = false ∧ newChild.edge_len = 0
            · by_cases hguard : root ≠ RNode.mk npfx nleaf nedges ∧
                  ((RNode.mk npfx nleaf nedges).delete_edge s0).is_leaf = false ∧
                  ((RNode.mk npfx nleaf nedges).delete_edge s0).edge_len = 1
              · -- child subtree emptied; the edge goes and the node merges
                have hnl : nleaf = none := by
                  cases hx : nleaf with
                  | none => rfl
                  | some y =>
                    have h := hguard.2.1
                    rw [hx] at h
                    simp [RNode.is_leaf] at h
                subst hnl
                obtain ⟨⟨l2, c2⟩, hdel1⟩ := length_one_mem
                  (show (deleteEdgeL nedges.toList s0).length = 1 by
                    simpa [RNode.edge_len] using hguard.2.2)
                have hmem2 : (l2, c2) ∈ nedges.toList ∧ l2 ≠ s0 :=
                  (mem_deleteEdgeL hsorted).mp (by simp [hdel1])
                obtain ⟨hc2ne, hc2head, hc2vs, hc2inv⟩ :=
                  hinv.child l2 c2 (by simpa using hmem2.1)
                refine ⟨(some (RNode.mk (npfx ++ c2.pfx) c2.leaf c2.edges), some lf),
                  ?_, ?_, rfl, ?_⟩
                · rw [internal_delete.eq_def]
                  simp only [hedge, hpre', hdrop, heqrec]
                  rw [if_pos hempty, if_pos hguard]
                  rw [show (RNode.mk npfx none nedges).delete_edge s0 =
                    RNode.mk npfx none (EL.ofList (deleteEdgeL nedges.toList s0)) from rfl]
                  rw [merge_child_one npfx (EL.ofList (deleteEdgeL nedges.toList s0)) (by
                    rw [EL.toList_ofList]
                    exact hdel1)]
                  simp
                · intro fuel2 hf2
                  match fuel2, hf2 with
                  | f2 + 1, hf2 =>
                    rw [nodeGet_succ_cons]
                    simp only [get_edge_some_findChild hedge]
                    rw [if_pos hpre']
                    exact hA' f2 (by
                      simp only [List.length_drop]
                      simp only [List.length_cons] at hf2 ⊢
                      omega)
                · intro newNode hN
                  simp only [Option.some.injEq] at hN
                  subst hN
                  right
                  refine ⟨fun h => hguard.1 h.symm, c2.pfx, hc2ne, hc2vs, by simp, ?_, ?_, ?_⟩
                  · exact not_prefix_of_headD_ne hc2ne (by rw [hc2head]; exact hmem2.2)
                  · exact NodeInv.mk (fun lf2 hl => hc2inv.leafKey lf2 hl) hc2inv.sorted
                      (fun l3 c3 hm => ⟨(hc2inv.child l3 c3 hm).1, (hc2inv.child l3 c3 hm).2.1,
                        (hc2inv.child l3 c3 hm).2.2.1⟩)
                      (fun l3 c3 hm => (hc2inv.child l3 c3 hm).2.2.2)
                  · intro hset
                    exact (hset l2 c2 (by simpa using hmem2.1)).withPfx _
              · -- child subtree emptied; just drop the edge
                refine ⟨(some ((RNode.mk npfx nleaf nedges).delete_edge s0), some lf),
                  ?_, ?_, rfl, ?_⟩
                · rw [internal_delete.eq_def]
                  simp only [hedge, hpre', hdrop, heqrec]
                  rw [if_pos hempty, if_neg hguard]
                  simp
                · intro fuel2 hf2
                  match fuel2, hf2 with
                  | f2 + 1, hf2 =>
                    rw [nodeGet_succ_cons]
                    simp only [get_edge_some_findChild hedge]
                    rw [if_pos hpre']
                    exact hA' f2 (by
                      simp only [List.length_drop]
                      simp only [List.length_cons] at hf2 ⊢
                      omega)
                · intro newNode hN
                  simp only [Option.some.injEq] at hN
                  subst hN
                  left
                  refine ⟨by simp, ?_, ?_, ?_, ?_⟩
                  · apply NodeInv.mk
                    · intro lf2 hl
                      exact hinv.leafKey lf2 (by simpa using hl)
                    · simp only [EL.toList_ofList]
                      exact sorted_deleteEdgeL hsorted s0
                    · intro l3 c3 hm
                      simp only [EL.toList_ofList] at hm
                      have hm' := ((mem_deleteEdgeL hsorted).mp hm).1
                      exact ⟨(hinv.child l3 c3 (by simpa using hm')).1,
                        (hinv.child l3 c3 (by simpa using hm')).2.1,
                        (hinv.child l3 c3 (by simpa using hm')).2.2.1⟩
                    · intro l3 c3 hm
                      simp only [EL.toList_ofList] at hm
                      have hm' := ((mem_deleteEdgeL hsorted).mp hm).1
                      exact (hinv.child l3 c3 (by simpa using hm')).2.2.2
                  · intro fuel2 hf2
                    match fuel2, hf2 with
                    | f2 + 1, _ =>
                      rw [nodeGet_succ_cons]
                      simp only [RNode.edges_delete_edge, RNode.edges_mk]
                      simp [findChild_deleteEdgeL hsorted s0 s0]
                  · intro hset l3 c3 hm
                    simp only [RNode.edges_delete_edge, RNode.edges_mk] at hm
                    exact hset l3 c3 (by simpa using ((mem_deleteEdgeL hsorted).mp hm).1)
                  · intro hne hsettled
                    cases hnlx : nleaf with
                    | some y =>
                      left
                      apply Settled.mk
                      · left
                        simp [hnlx]
                      · intro l3 c3 hm
                        simp only [EL.toList_ofList] at hm
                        exact hsettled.childSettled l3 c3
                          (by simpa using ((mem_deleteEdgeL hsorted).mp hm).1)
                    | none =>
                      subst hnlx
                      have hlen' : (deleteEdgeL nedges.toList s0).length + 1 =
                          nedges.toList.length :=
                        length_deleteEdgeL_found hsorted (by simpa using hmem)
                      have hne1 : (deleteEdgeL nedges.toList s0).length ≠ 1 := fun h1 =>
                        hguard ⟨fun h => hne h.symm, by simp [RNode.is_leaf],
                          by simpa [RNode.edge_len] using h1⟩
                      have hge2 : 2 ≤ nedges.toList.length := by
                        rcases hsettled.own with hso | hso
                        · simp at hso
                        · simpa using hso
                      left
                      apply Settled.mk
                      · right
                        simp only [RNode.edges_mk, EL.toList_ofList]
                        omega
                      · intro l3 c3 hm
                        simp only [EL.toList_ofList] at hm
                        exact hsettled.childSettled l3 c3
                          (by simpa using ((mem_deleteEdgeL hsorted).mp hm).1)
            · -- child updated in place: re-link it
              have hrep : (RNode.mk npfx nleaf nedges).replace_edge_at edgeIdx
                  (s0, newChild) = some (RNode.mk npfx nleaf
                    (EL.ofList (nedges.toList.set edgeIdx (s0, newChild)))) := by
                unfold RNode.replace_edge_at
                simp only [RNode.edges_mk, RNode.pfx_mk, RNode.leaf_mk]
                rw [replaceEdgeAtL_spec hget? newChild]
                rfl
              refine ⟨(some (RNode.mk npfx nleaf
                  (EL.ofList (nedges.toList.set edgeIdx (s0, newChild)))), some lf),
                ?_, ?_, rfl, ?_⟩
              · rw [internal_delete.eq_def]
                simp only [hedge, hpre', hdrop, heqrec]
                rw [if_neg hempty]
                rw [hrep]
                simp
              · intro fuel2 hf2
                match fuel2, hf2 with
                | f2 + 1, hf2 =>
                  rw [nodeGet_succ_cons]
                  simp only [get_edge_some_findChild hedge]
                  rw [if_pos hpre']
                  exact hA' f2 (by
                    simp only [List.length_drop]
                    simp only [List.length_cons] at hf2 ⊢
                    omega)
              · intro newNode hN
                simp only [Option.some.injEq] at hN
                subst hN
                left
                refine ⟨by simp, ?_, ?_, ?_, ?_⟩
                · apply NodeInv.mk
                  · intro lf2 hl
                    exact hinv.leafKey lf2 (by simpa using hl)
                  · simp only [EL.toList_ofList]
                    rw [labelsOf_set hget?]
                    exact by simpa using hinv.sorted
                  · intro l3 c3 hm
                    simp only [EL.toList_ofList] at hm
                    rcases (mem_set_iff hsorted hget?).mp hm with hm1 | ⟨hm1, _⟩
                    · obtain ⟨hl3, hc3⟩ := Prod.mk.injEq .. ▸ hm1
                      rw [hc3, hl3]
                      rcases hE1 with ⟨hpfxeq, _, _, _, _⟩ |
                        ⟨_, ext, hextne, hextvs, hpfxeq, _, _, _⟩
                      · exact ⟨by rw [hpfxeq]; exact hcne,
                          by rw [hpfxeq]; exact hchead,
                          by rw [hpfxeq]; exact hcvs⟩
                      · refine ⟨by
                            rw [hpfxeq]
                            intro hcon
                            exact hcne (List.append_eq_nil.mp hcon).1, ?_, ?_⟩
                        · rw [hpfxeq, headD_append_left 0 hcne]
                          exact hchead
                        · rw [hpfxeq]
                          exact vstr_append hcvs hextvs
                    · exact ⟨(hinv.child l3 c3 (by simpa using hm1)).1,
                        (hinv.child l3 c3 (by simpa using hm1)).2.1,
                        (hinv.child l3 c3 (by simpa using hm1)).2.2.1⟩
                  · intro l3 c3 hm
                    simp only [EL.toList_ofList] at hm
                    rcases (mem_set_iff hsorted hget?).mp hm with hm1 | ⟨hm1, _⟩
                    · obtain ⟨hl3, hc3⟩ := Prod.mk.injEq .. ▸ hm1
                      rw [hc3]
                      rcases hE1 with ⟨hpfxeq, hNI, _, _, _⟩ |
                        ⟨_, ext, hextne, hextvs, hpfxeq, _, hNI, _⟩
                      · rw [hpfxeq]
                        exact hNI
                      · rw [hpfxeq, ← List.append_assoc]
                        exact hNI
                    · exact (hinv.child l3 c3 (by simpa using hm1)).2.2.2
                · intro fuel2 hf2
                  match fuel2, hf2 with
                  | f2 + 1, hf2 =>
                    rw [nodeGet_succ_cons]
                    have hfc : findChild ((RNode.mk npfx nleaf (EL.ofList
                        (nedges.toList.set edgeIdx (s0, newChild)))).edges.toList) s0 =
                        some newChild := by
                      simp only [RNode.edges_mk, EL.toList_ofList]
                      rw [findChild_set hsorted hget?]
                      exact if_pos rfl
                    simp only [hfc]
                    rcases hE1 with ⟨hpfxeq, _, hgetnone, _, _⟩ |
                      ⟨_, ext, hextne, _, hpfxeq, hnpre, _, _⟩
                    · rw [if_pos (by rw [hpfxeq]; exact hpre')]
                      rw [hpfxeq]
                      exact hgetnone f2 (by
                        simp only [List.length_drop]
                        simp only [List.length_cons] at hf2 ⊢
                        omega)
                    · rw [if_neg (by
                        rw [hpfxeq]
                        rw [List.isPrefixOf_iff_prefix]
                        rw [← happ]
                        rw [prefix_append_cancel]
                        exact hnpre)]
                · intro hset l3 c3 hm
                  simp only [RNode.edges_mk, EL.toList_ofList] at hm
                  rcases (mem_set_iff hsorted hget?).mp hm with hm1 | ⟨hm1, _⟩
                  · obtain ⟨hl3, hc3⟩ := Prod.mk.injEq .. ▸ hm1
                    rw [hc3]
                    have hsc : Settled child := hset s0 child (by simpa using hmem)
                    rcases hE1 with ⟨_, _, _, _, hsettle1⟩ |
                      ⟨_, ext, _, _, _, _, _, hsettle2⟩
                    · have hcneroot : child ≠ root := by
                        intro hcr
                        apply hcne
                        rw [show child.pfx = root.pfx from by rw [hcr]]
                        exact hrpfx
                      rcases hsettle1 hcneroot hsc with hok | hbad
                      · exact hok
                      · exact absurd ⟨hbad.1, hbad.2⟩ hempty
                    · exact hsettle2 (fun l4 c4 hm4 => hsc.childSettled l4 c4 hm4)
                  · exact hset l3 c3 (by simpa using hm1)
                · intro hne hsettled
                  left
                  apply Settled.mk
                  · rcases hsettled.own with hso | hso
                    · left
                      simpa using hso
                    · right
                      simp only [EL.toList_ofList, List.length_set]
                      simpa using hso
                  · intro l3 c3 hm
                    simp only [EL.toList_ofList] at hm
                    rcases (mem_set_iff hsorted hget?).mp hm with hm1 | ⟨hm1, _⟩
                    · obtain ⟨hl3, hc3⟩ := Prod.mk.injEq .. ▸ hm1
                      rw [hc3]
                      have hsc : Settled child := hsettled.childSettled s0 child (by simpa using hmem)
                      rcases hE1 with ⟨_, _, _, _, hsettle1⟩ |
                        ⟨_, ext, _, _, _, _, _, hsettle2⟩
                      · have hcneroot : child ≠ root := by
                          intro hcr
                          apply hcne
                          rw [show child.pfx = root.pfx from by rw [hcr]]
                          exact hrpfx
                        rcases hsettle1 hcneroot hsc with hok | hbad
                        · exact hok
                        · exact absurd ⟨hbad.1, hbad.2⟩ hempty
                      · exact hsettle2 (fun l4 c4 hm4 => hsc.childSettled l4 c4 hm4)
                    · exact hsettled.childSettled l3 c3 (by simpa using hm1)

/-- C5: delete semantics — for a transaction whose root is well formed, a
delete of a valid key `k` never panics and returns exactly the stored value:
when `k` is absent the state is exactly unchanged; when `k` is present the
size counter drops by exactly one (given `0 < size < 2^32`), `k` is gone from
the working root, and a second delete of `k` returns absent with the size
unchanged. -/
theorem claim_C5_delete_semantics {T : Type} [DecidableEq T]
    (fuel fuel2 : Nat) (s : TxnP T) (k : List Nat)
    (hinv : NodeInv [] s.root) (hrpfx : s.root.pfx = []) (hvs : VStr k)
    (hfl : k.length < fuel) (hf2 : k.length < fuel2)
    (hsz : 0 < s.size) (hszlt : s.size < U32MOD) :
    ∃ s' old, txnDelete fuel s k = some (s', old) ∧
      old = nodeGet fuel2 s.root k ∧
      (old = none → s' = s) ∧
      (old.isSome = true →
        s'.size + 1 = s.size ∧
        nodeGet fuel2 s'.root k = none ∧
        ∃ s'', txnDelete fuel s' k = some (s'', none) ∧ s''.size = s'.size) := by
  obtain ⟨⟨r1, r2⟩, heq, hA, hD, hE⟩ :=
    internal_delete_spec fuel s.root s.root [] k hinv hvs hrpfx hfl
  have hAk := hA fuel2 hf2
  cases r1 with
  | none =>
    have hr2 : r2 = none := by
      cases r2 with
      | none => rfl
      | some x => simp at hD
    subst hr2
    have htd : txnDelete fuel s k = some (⟨s.root, s.size⟩, none) := by
      unfold txnDelete
      rw [heq]
    refine ⟨⟨s.root, s.size⟩, none, htd, by simpa using hAk, fun _ => rfl, ?_⟩
    intro h
    simp at h
  | some newNode =>
    have hr2 : ∃ lf, r2 = some lf := by
      cases r2 with
      | some lf => exact ⟨lf, rfl⟩
      | none => simp at hD
    obtain ⟨lf, hlf⟩ := hr2
    subst hlf
    rcases hE newNode rfl with ⟨hpfxeq, hNI, hgetnone, _, _⟩ | ⟨hnr, _⟩
    · have htd : txnDelete fuel s k =
          some (⟨newNode, (s.size + (U32MOD - 1)) % U32MOD⟩, some lf.value) := by
        unfold txnDelete
        rw [heq]
      refine ⟨⟨newNode, (s.size + (U32MOD - 1)) % U32MOD⟩, some lf.value, htd,
        by simpa using hAk, by intro h; simp at h, ?_⟩
      intro _
      refine ⟨?_, hgetnone fuel2 hf2, ?_⟩
      · simp only [U32MOD] at hszlt ⊢
        omega
      · obtain ⟨⟨q1, q2⟩, heq2, hA2, hD2, _⟩ :=
          internal_delete_spec fuel newNode newNode [] k hNI hvs
            (by rw [hpfxeq]; exact hrpfx) hfl
        have hq2 : q2 = none := by
          have h2 := hA2 fuel2 hf2
          rw [hgetnone fuel2 hf2] at h2
          cases q2 with
          | none => rfl
          | some x => simp at h2
        subst hq2
        have hq1 : q1 = none := by
          cases q1 with
          | none => rfl
          | some x => simp at hD2
        subst hq1
        refine ⟨⟨newNode, (s.size + (U32MOD - 1)) % U32MOD⟩, ?_, rfl⟩
        unfold txnDelete
        rw [heq2]
    · exact absurd rfl hnr

/-- Embeds the `Tree` value of tree.rs: the published root node and the size
counter. -/
structure TreeM (T : Type) where
  root : RNode T
  size : Nat

/-- Modelled from the spec: committing a transaction yields the tree whose
root is the transaction's working root and whose size is the pending size. -/
def commit {T : Type} (tx : TxnP T) : TreeM T := ⟨tx.root, tx.size⟩

/-- C6: structural invariant — starting from a root all of whose descendants
are settled (leaf-bearing or with at least two edges), every completed insert
and every completed delete of a valid key, and every commit, yields a root
all of whose descendants are again settled: no non-root internal node is left
with exactly one edge and no leaf. -/
theorem claim_C6_structural_invariant {T : Type} [DecidableEq T]
    (fuel : Nat) (s : TxnP T) (k : List Nat) (v : T)
    (hinv : NodeInv [] s.root) (hrpfx : s.root.pfx = []) (hvs : VStr k)
    (hset : SettledRoot s.root) :
    (∀ s' old, txnInsert fuel s k v = some (s', old) → SettledRoot s'.root) ∧
    (k.length < fuel →
      ∀ s' old, txnDelete fuel s k = some (s', old) → SettledRoot s'.root) ∧
    SettledRoot (commit s).root := by
  refine ⟨?_, ?_, hset⟩
  · intro s' old h
    unfold txnInsert at h
    split at h
    next => exact absurd h (by simp)
    next newNode old0 heq =>
      obtain ⟨nn, hres1, _, _, _, _, _, _, hsetpres⟩ :=
        internal_insert_spec fuel s.root [] k k v hinv hvs (by simp) heq
      have hnn : newNode = some nn := by simpa using hres1
      subst hnn
      simp only [Option.some.injEq, Prod.mk.injEq] at h
      obtain ⟨h1, _⟩ := h
      rw [← h1]
      exact hsetpres hset
  · intro hfl s' old h
    obtain ⟨⟨r1, r2⟩, heq, _, hD, hE⟩ :=
      internal_delete_spec fuel s.root s.root [] k hinv hvs hrpfx hfl
    unfold txnDelete at h
    rw [heq] at h
    cases r1 with
    | none =>
      simp only [Option.some.injEq, Prod.mk.injEq] at h
      obtain ⟨h1, _⟩ := h
      rw [← h1]
      exact hset
    | some nn =>
      rcases hE nn rfl with ⟨_, _, _, hsetpres, _⟩ | ⟨hnr, _⟩
      · simp only [Option.some.injEq, Prod.mk.injEq] at h
        obtain ⟨h1, _⟩ := h
        rw [← h1]
        exact hsetpres hset
      · exact absurd rfl hnr

def c5Root : RNode Nat :=
  RNode.mk [] none (EL.ofList [(48, RNode.mk [48] (some ⟨[48], 7⟩) (EL.ofList []))])

theorem c5Root_inv : NodeInv [] c5Root := by
  apply NodeInv.mk
  · intro lf h
    exact Option.noConfusion h
  · simp [labelsOf]
  · intro l c hm
    simp only [EL.toList_ofList, List.mem_singleton] at hm
    obtain ⟨hl, hc⟩ := Prod.mk.injEq .. ▸ hm
    rw [hc]
    refine ⟨by simp, by rw [hl]; simp, vstr_of_ascii (by decide)⟩
  · intro l c hm
    simp only [EL.toList_ofList, List.mem_singleton] at hm
    obtain ⟨hl, hc⟩ := Prod.mk.injEq .. ▸ hm
    rw [hc]
    apply NodeInv.mk
    · intro lf h
      injection h with h2
      rw [← h2]
      rfl
    · simp [labelsOf]
    · intro l2 c2 hm2
      simp only [EL.toList_ofList] at hm2
      exact absurd hm2 (List.not_mem_nil _)
    · intro l2 c2 hm2
      simp only [EL.toList_ofList] at hm2
      exact absurd hm2 (List.not_mem_nil _)

theorem c5Root_settled : SettledRoot c5Root := by
  intro l c hm
  simp only [c5Root, RNode.edges_mk, EL.toList_ofList, List.mem_singleton] at hm
  obtain ⟨hl, hc⟩ := Prod.mk.injEq .. ▸ hm
  rw [hc]
  apply Settled.mk
  · left
    rfl
  · intro l2 c2 hm2
    simp only [EL.toList_ofList] at hm2
    exact absurd hm2 (List.not_mem_nil _)

theorem claim_C5_delete_semantics_witness :
    ∃ s' old, txnDelete 4 (⟨c5Root, 1⟩ : TxnP Nat) [48] = some (s', old) ∧
      old = nodeGet 4 c5Root [48] ∧
      (old = none → s' = ⟨c5Root, 1⟩) ∧
      (old.isSome = true →
        s'.size + 1 = 1 ∧
        nodeGet 4 s'.root [48] = none ∧
        ∃ s'', txnDelete 4 s' [48] = some (s'', none) ∧ s''.size = s'.size) :=
  claim_C5_delete_semantics 4 4 ⟨c5Root, 1⟩ [48] c5Root_inv rfl
    (vstr_of_ascii (by decide)) (by decide) (by decide) (by decide) (by decide)

theorem claim_C6_structural_invariant_witness :
    ((∀ s' old, txnInsert 4 (⟨c5Root, 1⟩ : TxnP Nat) [49] 2 = some (s', old) →
        SettledRoot s'.root) ∧
      ([49].length < 4 →
        ∀ s' old, txnDelete 4 (⟨c5Root, 1⟩ : TxnP Nat) [49] = some (s', old) →
          SettledRoot s'.root) ∧
      SettledRoot (commit (⟨c5Root, 1⟩ : TxnP Nat)).root) :=
  claim_C6_structural_invariant 4 ⟨c5Root, 1⟩ [49] 2 c5Root_inv rfl
    (vstr_of_ascii (by decide)) c5Root_settled

mutual

/-- Number of stored keys (leaves) in a subtree. -/
def leafCountN {T : Type} : RNode T → Nat
  | .mk _ leaf edges => (match leaf with | some _ => 1 | none => 0) + leafCountEL edges

/-- Number of stored keys under an edge list. -/
def leafCountEL {T : Type} : EL T → Nat
  | .nil => 0
  | .cons _ c rest => leafCountN c + leafCountEL rest

end

/-- Leaf count of a plain edge list. -/
def leafCountL {T : Type} (L : List (Nat × RNode T)) : Nat :=
  (L.map (fun e => leafCountN e.2)).sum

theorem leafCountEL_eq {T : Type} : ∀ (e : EL T), leafCountEL e = leafCountL e.toList
  | .nil => rfl
  | .cons l c r => by
    rw [leafCountEL, EL.toList]
    rw [leafCountEL_eq r]
    simp [leafCountL]

theorem leafCountN_mk {T : Type} (p : List Nat) (lf : Option (LeafN T)) (e : EL T) :
    leafCountN (RNode.mk p lf e) =
      (match lf with | some _ => 1 | none => 0) + leafCountL e.toList := by
  rw [leafCountN.eq_def]
  simp only []
  rw [leafCountEL_eq]

theorem leafCountL_cons {T : Type} (e : Nat × RNode T) (L : List (Nat × RNode T)) :
    leafCountL (e :: L) = leafCountN e.2 + leafCountL L := by
  simp [leafCountL]

theorem leafCountL_set {T : Type} :
    ∀ {L : List (Nat × RNode T)} {idx t : Nat} {c : RNode T},
      L.get? idx = some (t, c) → ∀ (t' : Nat) (c' : RNode T),
      leafCountL (L.set idx (t', c')) + leafCountN c =
        leafCountL L + leafCountN c'
  | [], idx, t, c, hget, _, _ => by simp at hget
  | e :: L, 0, t, c, hget, t', c' => by
    simp only [List.get?_cons_zero, Option.some.injEq] at hget
    subst hget
    simp only [List.set_cons_zero, leafCountL_cons]
    omega
  | e :: L, idx + 1, t, c, hget, t', c' => by
    simp only [List.get?_cons_succ] at hget
    have := leafCountL_set hget t' c'
    simp only [List.set_cons_succ, leafCountL_cons]
    omega

theorem leafCountL_eraseIdx {T : Type} :
    ∀ {L : List (Nat × RNode T)} {idx t : Nat} {c : RNode T},
      L.get? idx = some (t, c) →
      leafCountL (L.eraseIdx idx) + leafCountN c = leafCountL L
  | [], idx, t, c, hget => by simp at hget
  | e :: L, 0, t, c, hget => by
    simp only [List.get?_cons_zero, Option.some.injEq] at hget
    subst hget
    simp only [List.eraseIdx_cons_zero, leafCountL_cons]
    omega
  | e :: L, idx + 1, t, c, hget => by
    simp only [List.get?_cons_succ] at hget
    have := leafCountL_eraseIdx hget
    simp only [List.eraseIdx_cons_succ, leafCountL_cons]
    omega

theorem leafCountL_deleteEdgeL {T : Type} {L : List (Nat × RNode T)}
    (hs : (labelsOf L).Pairwise (· < ·)) {t : Nat} {c : RNode T}
    (hmem : (t, c) ∈ L) :
    leafCountL (deleteEdgeL L t) + leafCountN c = leafCountL L := by
  obtain ⟨hget, hdel⟩ := deleteEdgeL_found hs hmem
  rw [hdel]
  exact leafCountL_eraseIdx hget

theorem leafCountL_zero_mem {T : Type} {L : List (Nat × RNode T)}
    (h : leafCountL L = 0) {t : Nat} {c : RNode T} (hmem : (t, c) ∈ L) :
    leafCountN c = 0 := by
  induction L with
  | nil => exact absurd hmem (List.not_mem_nil _)
  | cons e L ihL =>
    obtain ⟨e1, e2⟩ := e
    rw [leafCountL_cons] at h
    rcases List.mem_cons.mp hmem with hm | hm
    · obtain ⟨h1, h2⟩ := Prod.mk.injEq .. ▸ hm
      rw [h2]
      have h' : leafCountN e2 + leafCountL L = 0 := h
      omega
    · exact ihL (by omega) hm

/-- A subtree holding no stored key answers every lookup with `none`. -/
theorem nodeGet_of_leafCount_zero {T : Type} :
    ∀ (fuel : Nat) {n : RNode T}, leafCountN n = 0 → ∀ (s : List Nat),
      nodeGet fuel n s = none := by
  intro fuel
  induction fuel with
  | zero => intro n _ s; rfl
  | succ f ihf =>
    intro n hn s
    obtain ⟨p, lf, e⟩ := n
    rw [leafCountN_mk] at hn
    have hlf : lf = none := by
      cases lf with
      | none => rfl
      | some x => simp at hn
    subst hlf
    cases s with
    | nil => simp
    | cons s0 rest =>
      rw [nodeGet_succ_cons]
      cases hfc : findChild (RNode.mk p none e).edges.toList s0 with
      | none => rfl
      | some c =>
        have hmem : (s0, c) ∈ e.toList := by
          unfold findChild at hfc
          cases hg : getEdgeL (RNode.mk p none e).edges.toList s0 with
          | none => rw [hg] at hfc; simp at hfc
          | some q =>
            obtain ⟨i, c'⟩ := q
            rw [hg] at hfc
            have hfc' : c' = c := by simpa using hfc
            have hq := getEdgeL_sound hg
            simp only [RNode.edges_mk] at hq
            obtain ⟨hi, hget⟩ := List.get?_eq_some.mp hq
            rw [← hfc', ← hget]
            exact List.get_mem _ _ _
        have hc0 : leafCountN c = 0 := leafCountL_zero_mem (by omega) hmem
        simp only [hfc]
        by_cases hp : c.pfx.isPrefixOf (s0 :: rest) = true
        · rw [if_pos hp, ihf hc0]
        · rw [if_neg hp]

theorem findChild_mem_of_some {α : Type} {L : List (Nat × α)} {x : Nat} {c : α}
    (h : findChild L x = some c) : (x, c) ∈ L := by
  unfold findChild at h
  cases hg : getEdgeL L x with
  | none => rw [hg] at h; simp at h
  | some q =>
    obtain ⟨i, c'⟩ := q
    rw [hg] at h
    have hc' : c' = c := by simpa using h
    have hq := getEdgeL_sound hg
    obtain ⟨hi, hget⟩ := List.get?_eq_some.mp hq
    rw [← hc', ← hget]
    exact List.get_mem _ _ _

/-- The per-edge step of `Node::get` as seen from the parent: match the
child's prefix against the remaining search, then continue inside. -/
def childGet {T : Type} (fuel : Nat) (c : RNode T) (s : List Nat) : Option T :=
  if c.pfx.isPrefixOf s then nodeGet fuel c (s.drop c.pfx.length) else none

theorem nodeGet_succ_cons_cg {T : Type} (fuel : Nat) (n : RNode T) (s0 : Nat)
    (rest : List Nat) :
    nodeGet (fuel + 1) n (s0 :: rest) =
      match findChild n.edges.toList s0 with
      | some c => childGet fuel c (s0 :: rest)
      | none => none := by
  rw [nodeGet_succ_cons]
  rfl

theorem childGet_nil_pfx {T : Type} {c : RNode T} (h : c.pfx = []) (fuel : Nat)
    (s : List Nat) : childGet fuel c s = nodeGet fuel c s := by
  unfold childGet
  rw [h]
  simp

theorem nodeGet_congr_contents {T : Type} {a b : RNode T}
    (h1 : a.leaf = b.leaf) (h2 : a.edges = b.edges) :
    ∀ (fuel : Nat) (s : List Nat), nodeGet fuel a s = nodeGet fuel b s := by
  obtain ⟨pa, la, ea⟩ := a
  obtain ⟨pb, lb, eb⟩ := b
  simp only [RNode.leaf_mk] at h1
  simp only [RNode.edges_mk] at h2
  subst h1
  subst h2
  intro fuel s
  cases fuel with
  | zero => rfl
  | succ f =>
    cases s with
    | nil =>
      rw [nodeGet_succ_nil, nodeGet_succ_nil]
      simp
    | cons s0 rest =>
      rw [nodeGet_succ_cons, nodeGet_succ_cons]
      simp only [RNode.edges_mk]

/-- Under the radix invariant, `nodeGet` is fuel-insensitive once the fuel
exceeds the search length. -/
theorem nodeGet_fuel_agree {T : Type} :
    ∀ (f1 : Nat) {f2 : Nat} {n : RNode T} (acc : List Nat) {s : List Nat},
      NodeInv acc n → s.length < f1 → s.length < f2 →
      nodeGet f1 n s = nodeGet f2 n s := by
  intro f1
  induction f1 with
  | zero =>
    intro f2 n acc s _ h1 _
    omega
  | succ f ih =>
    intro f2 n acc s hinv h1 h2
    match f2, h2 with
    | g + 1, h2 =>
      obtain ⟨p, lf, e⟩ := n
      cases s with
      | nil => rw [nodeGet_succ_nil, nodeGet_succ_nil]
      | cons s0 rest =>
        rw [nodeGet_succ_cons, nodeGet_succ_cons]
        cases hfc : findChild (RNode.mk p lf e).edges.toList s0 with
        | none => rfl
        | some c =>
          simp only [hfc]
          by_cases hp : c.pfx.isPrefixOf (s0 :: rest) = true
          · rw [if_pos hp, if_pos hp]
            have hmem : (s0, c) ∈ e.toList := by
              have := findChild_mem_of_some hfc
              simpa using this
            obtain ⟨hcne, _, _, hcinv⟩ := hinv.child s0 c (by simpa using hmem)
            have hc1 : 1 ≤ c.pfx.length := List.length_pos.mpr hcne
            have hple : c.pfx.length ≤ (s0 :: rest).length :=
              (List.isPrefixOf_iff_prefix.mp hp).length_le
            apply ih (acc ++ c.pfx) hcinv
            · simp only [List.length_drop]
              simp only [List.length_cons] at h1 ⊢
              omega
            · simp only [List.length_drop]
              simp only [List.length_cons] at h2 ⊢
              omega
          · rw [if_neg hp, if_neg hp]

theorem prefix_getD_eq {a b : List Nat} (h : a <+: b) {i : Nat} (hi : i < a.length) :
    b.getD i 0 = a.getD i 0 := by
  obtain ⟨t, ht⟩ := h
  subst ht
  exact List.getD_append a t 0 i hi

theorem headD_of_prefix {a b : List Nat} (h : a <+: b) (ha : a ≠ []) :
    b.headD 0 = a.headD 0 := by
  cases a with
  | nil => exact absurd rfl ha
  | cons x xs =>
    obtain ⟨t, ht⟩ := h
    rw [← ht]
    rfl

/-- Modelled from the spec: `Txn::delete_prefix` (section 4.4), recursive
descent that removes an entire matching subtree.  Empty search clears the
node (leaf and edges) and reports the subtree's leaf count; otherwise follow
the edge for the next byte, failing on a missing edge or diverging prefixes;
a child prefix longer than the search leaves an empty remaining search (here:
`List.drop` past the end), and the unwind drops emptied children and
path-compresses exactly as `internal_delete` does. -/
def internalDeletePfx {T : Type} [DecidableEq T] :
    Nat → RNode T → RNode T → List Nat → Option (Option (RNode T) × Nat)
  | 0, _, _, _ => none
  | fuel + 1, root, node, search =>
    match search with
    | [] => some (some (RNode.mk node.pfx none (EL.ofList [])), leafCountN node)
    | s0 :: _ =>
      match node.get_edge s0 with
      | none => some (none, 0)
      | some (edgeIdx, child) =>
        if child.pfx.isPrefixOf search = false ∧ search.isPrefixOf child.pfx = false then
          some (none, 0)
        else
          match internalDeletePfx fuel root child (search.drop child.pfx.length) with
          | none => none
          | some (none, _) => some (none, 0)
          | some (some newChild, cnt) =>
            if newChild.is_leaf = false ∧ newChild.edge_len = 0 then
              if root ≠ node ∧ (node.delete_edge s0).is_leaf = false ∧
                  (node.delete_edge s0).edge_len = 1 then
                match merge_child (node.delete_edge s0) with
                | none => none
                | some merged => some (some merged, cnt)
              else some (some (node.delete_edge s0), cnt)
            else
              match node.replace_edge_at edgeIdx (s0, newChild) with
              | none => none
              | some newNode => some (some newNode, cnt)

/-- Modelled from the spec: `Txn::delete_prefix` at the transaction level —
run the descent from the working root, install the new root if one came back,
subtract the removed leaf count from the pending size, and report whether
anything was removed. -/
def txnDeletePfx {T : Type} [DecidableEq T] (fuel : Nat) (s : TxnP T)
    (p : List Nat) : Option (TxnP T × Bool) :=
  match internalDeletePfx fuel s.root s.root p with
  | none => none
  | some (newRoot, cnt) =>
    some ({ root := match newRoot with | some n => n | none => s.root,
            size := s.size - cnt }, decide (cnt ≠ 0))

/-- Embeds `Tree::delete_prefix` (tree.rs): start a transaction holding the
tree's root and size, run the transaction-level prefix deletion, commit, and
return the new tree paired with the has-deleted flag.  The two calls it
makes, `Txn::delete_prefix` and `Txn::commit`, are absent from `src/` and
spec-modelled (`txnDeletePfx`, `commit`). -/
def treeDeletePfx {T : Type} [DecidableEq T] (fuel : Nat) (t : TreeM T)
    (p : List Nat) : Option (TreeM T × Bool) :=
  match txnDeletePfx fuel ⟨t.root, t.size⟩ p with
  | none => none
  | some (tx, flag) => some (commit tx, flag)

theorem childGet_pos {T : Type} {c : RNode T} {s : List Nat}
    (h : c.pfx.isPrefixOf s = true) (fuel : Nat) :
    childGet fuel c s = nodeGet fuel c (s.drop c.pfx.length) := by
  unfold childGet
  rw [if_pos h]

theorem childGet_neg {T : Type} {c : RNode T} {s : List Nat}
    (h : ¬ c.pfx.isPrefixOf s = true) (fuel : Nat) :
    childGet fuel c s = none := by
  unfold childGet
  rw [if_neg h]

theorem leafCountN_zero_of_empty {T : Type} {n : RNode T} (h1 : n.is_leaf = false)
    (h2 : n.edge_len = 0) : leafCountN n = 0 := by
  obtain ⟨p, lf, e⟩ := n
  have hlf : lf = none := by
    cases lf with
    | none => rfl
    | some x => simp [RNode.is_leaf] at h1
  subst hlf
  have he : e.toList = [] := List.length_eq_zero.mp (by simpa [RNode.edge_len] using h2)
  rw [leafCountN_mk, he]
  rfl

theorem leafCountN_repfx {T : Type} (p : List Nat) (n : RNode T) :
    leafCountN (RNode.mk p n.leaf n.edges) = leafCountN n := by
  obtain ⟨q, lf, e⟩ := n
  rfl

theorem prefix_cons_head {s0 : Nat} {rest h : List Nat} {h0 : Nat}
    (hp : (s0 :: rest) <+: (h0 :: h)) : s0 = h0 := by
  obtain ⟨t, ht⟩ := hp
  injection ht

theorem childGet_zero_count {T : Type} {n : RNode T} (h : leafCountN n = 0)
    (fuel : Nat) (s : List Nat) : childGet fuel n s = none := by
  unfold childGet
  by_cases hx : n.pfx.isPrefixOf s = true
  · rw [if_pos hx]
    exact nodeGet_of_leafCount_zero _ h _
  · rw [if_neg hx]


/-- Central specification of the spec-modelled `delete_prefix` descent: it is
total, reports a removed-leaf count that exactly accounts for the drop in the
subtree's leaf count, removes exactly the lookups extending
`node.pfx ++ search` (all other lookups unchanged), and when it reports
nothing removed (or fails) no stored key extends that prefix. -/
theorem internalDeletePfx_spec {T : Type} [DecidableEq T] :
    ∀ (fuel : Nat) (root node : RNode T) (acc search : List Nat),
      NodeInv acc node →
      search.length < fuel →
      ∃ res : Option (RNode T) × Nat,
        internalDeletePfx fuel root node search = some res ∧
        (res.1 = none → res.2 = 0 ∧
          ∀ fuel2 k', k'.length < fuel2 + node.pfx.length →
            (node.pfx ++ search).isPrefixOf k' = true →
            childGet fuel2 node k' = none) ∧
        ∀ newNode, res.1 = some newNode →
          res.2 + leafCountN newNode = leafCountN node ∧
          (res.2 = 0 →
            ∀ fuel2 k', k'.length < fuel2 + node.pfx.length →
              (node.pfx ++ search).isPrefixOf k' = true →
              childGet fuel2 node k' = none) ∧
          (∀ fuel2 k', k'.length < fuel2 + node.pfx.length →
            childGet fuel2 newNode k' =
              if (node.pfx ++ search).isPrefixOf k' then none
              else childGet fuel2 node k') := by
  intro fuel
  induction fuel with
  | zero =>
    intro root node acc search hinv hfl
    omega
  | succ f ih =>
    intro root node acc search hinv hfl
    obtain ⟨npfx, nleaf, nedges⟩ := node
    have hsorted := hinv.sorted
    simp only [RNode.edges_mk] at hsorted
    have hsplit : ∀ k' : List Nat, npfx.isPrefixOf k' = true →
        npfx ++ k'.drop npfx.length = k' := fun k' h =>
      List.prefix_iff_eq_append.mp (List.isPrefixOf_iff_prefix.mp h)
    cases search with
    | nil =>
      refine ⟨(some (RNode.mk npfx none (EL.ofList [])),
        leafCountN (RNode.mk npfx nleaf nedges)), ?_, ?_, ?_⟩
      · rw [internalDeletePfx.eq_def]
        simp
      · intro hcon
        exact absurd hcon (by simp)
      · intro newNode hN
        simp only [Option.some.injEq] at hN
        subst hN
        have hz : leafCountN (RNode.mk npfx none (EL.ofList []) : RNode T) = 0 := by
          rw [leafCountN_mk]
          simp [leafCountL]
        refine ⟨by omega, ?_, ?_⟩
        · intro h0 fuel2 k' _ _
          exact childGet_zero_count (by simpa using h0) fuel2 k'
        · intro fuel2 k' hk
          rw [childGet_zero_count hz fuel2 k']
          simp only [RNode.pfx_mk, List.append_nil]
          by_cases hp : npfx.isPrefixOf k' = true
          · rw [if_pos hp]
          · rw [if_neg hp]
            rw [childGet_neg (by simpa using hp)]
    | cons s0 rest =>
      have hiffP : ∀ k' : List Nat, npfx.isPrefixOf k' = true →
          (((npfx ++ s0 :: rest).isPrefixOf k' = true) ↔
            ((s0 :: rest) <+: k'.drop npfx.length)) := by
        intro k' h
        rw [List.isPrefixOf_iff_prefix]
        constructor
        · intro hx
          apply (@prefix_append_cancel npfx _ _).mp
          rw [hsplit k' h]
          exact hx
        · intro hx
          rw [← hsplit k' h]
          exact (@prefix_append_cancel npfx _ _).mpr hx
      have hnpP : ∀ k' : List Nat, ¬ npfx.isPrefixOf k' = true →
          ¬ (npfx ++ s0 :: rest).isPrefixOf k' = true := by
        intro k' h hx
        apply h
        rw [List.isPrefixOf_iff_prefix] at hx ⊢
        exact (List.prefix_append _ _).trans hx
      cases hedge : (RNode.mk npfx nleaf nedges).get_edge s0 with
      | none =>
        have hfcn : findChild nedges.toList s0 = none := by
          simpa using get_edge_none_findChild hedge
        refine ⟨(none, 0), ?_, ?_, ?_⟩
        · rw [internalDeletePfx.eq_def]
          simp only [hedge]
        · intro _
          refine ⟨rfl, ?_⟩
          intro F k' hk hpre
          simp only [RNode.pfx_mk] at hk hpre
          have hnp : npfx.isPrefixOf k' = true := by
            rw [List.isPrefixOf_iff_prefix]
            exact (List.prefix_append npfx (s0 :: rest)).trans
              (List.isPrefixOf_iff_prefix.mp hpre)
          rw [childGet_pos (by simp only [RNode.pfx_mk]; exact hnp)]
          simp only [RNode.pfx_mk]
          have hsk : (s0 :: rest) <+: k'.drop npfx.length :=
            (hiffP k' hnp).mp hpre
          obtain ⟨t, ht⟩ := hsk
          have hk2 : k'.drop npfx.length = s0 :: (rest ++ t) := by
            rw [← ht]
            rfl
          rw [hk2]
          have hlk : k'.length = npfx.length + (rest.length + 1 + t.length) := by
            rw [← hsplit k' hnp, hk2]
            simp
            omega
          have hFpos : 0 < F := by omega
          match F, hFpos with
          | F2 + 1, _ =>
            rw [nodeGet_succ_cons_cg]
            simp only [RNode.edges_mk, hfcn]
        · intro newNode hN
          exact absurd hN (by simp)
      | some p =>
        obtain ⟨edgeIdx, child⟩ := p
        obtain ⟨hget?, hmem⟩ := get_edge_mem hedge
        simp only [RNode.edges_mk] at hget? hmem
        obtain ⟨hcne, hchead, hcvs, hcinv⟩ := hinv.child s0 child (by simpa using hmem)
        have hfc0 : findChild nedges.toList s0 = some child := by
          simpa using get_edge_some_findChild hedge
        have hc1 : 1 ≤ child.pfx.length := List.length_pos.mpr hcne
        by_cases hdiv : child.pfx.isPrefixOf (s0 :: rest) = false ∧
            (s0 :: rest).isPrefixOf child.pfx = false
        · -- prefixes diverge: nothing to delete
          refine ⟨(none, 0), ?_, ?_, ?_⟩
          · rw [internalDeletePfx.eq_def]
            simp only [hedge]
            rw [if_pos hdiv]
          · intro _
            refine ⟨rfl, ?_⟩
            intro F k' hk hpre
            simp only [RNode.pfx_mk] at hk hpre
            have hnp : npfx.isPrefixOf k' = true := by
              rw [List.isPrefixOf_iff_prefix]
              exact (List.prefix_append npfx (s0 :: rest)).trans
                (List.isPrefixOf_iff_prefix.mp hpre)
            rw [childGet_pos (by simp only [RNode.pfx_mk]; exact hnp)]
            simp only [RNode.pfx_mk]
            have hsk : (s0 :: rest) <+: k'.drop npfx.length :=
              (hiffP k' hnp).mp hpre
            obtain ⟨t, ht⟩ := hsk
            have hk2 : k'.drop npfx.length = s0 :: (rest ++ t) := by
              rw [← ht]
              rfl
            rw [hk2]
            have hlk : k'.length = npfx.length + (rest.length + 1 + t.length) := by
              rw [← hsplit k' hnp, hk2]
              simp
              omega
            have hFpos : 0 < F := by omega
            match F, hFpos with
            | F2 + 1, _ =>
              rw [nodeGet_succ_cons_cg]
              simp only [RNode.edges_mk, hfc0]
              apply childGet_neg
              intro hcpk
              have hcpk' : child.pfx <+: (s0 :: rest) ++ t := by
                have := List.isPrefixOf_iff_prefix.mp hcpk
                simpa using this
              rcases List.prefix_or_prefix_of_prefix hcpk' (List.prefix_append _ _)
                with hx | hx
              · have h1 := hdiv.1
                rw [← Bool.not_eq_true, List.isPrefixOf_iff_prefix] at h1
                exact h1 hx
              · have h2 := hdiv.2
                rw [← Bool.not_eq_true, List.isPrefixOf_iff_prefix] at h2
                exact h2 hx
          · intro newNode hN
            exact absurd hN (by simp)
        · -- valid descent
          have hvalid : child.pfx <+: (s0 :: rest) ∨ (s0 :: rest) <+: child.pfx := by
            by_cases hA : child.pfx.isPrefixOf (s0 :: rest) = true
            · exact Or.inl (List.isPrefixOf_iff_prefix.mp hA)
            · have hA' : child.pfx.isPrefixOf (s0 :: rest) = false := by
                cases hx : child.pfx.isPrefixOf (s0 :: rest) with
                | true => exact absurd hx hA
                | false => rfl
              cases hx : (s0 :: rest).isPrefixOf child.pfx with
              | true => exact Or.inr (List.isPrefixOf_iff_prefix.mp hx)
              | false => exact absurd ⟨hA', hx⟩ hdiv
          have hF2fact : ∀ k2 : List Nat,
              (child.pfx ++ (s0 :: rest).drop child.pfx.length) <+: k2 →
              child.pfx <+: k2 :=
            fun k2 h => (List.prefix_append _ _).trans h
          have hF1fact : ∀ k2 : List Nat, child.pfx <+: k2 →
              ((s0 :: rest) <+: k2 ↔
                (child.pfx ++ (s0 :: rest).drop child.pfx.length) <+: k2) := by
            rcases hvalid with hv | hv
            · have happ : child.pfx ++ (s0 :: rest).drop child.pfx.length = s0 :: rest :=
                List.prefix_iff_eq_append.mp hv
              intro k2 _
              rw [happ]
            · have hdz : (s0 :: rest).drop child.pfx.length = [] :=
                List.drop_eq_nil_of_le hv.length_le
              intro k2 hcpk
              rw [hdz, List.append_nil]
              constructor
              · intro _
                exact hcpk
              · intro _
                exact hv.trans hcpk
          have hsrlen : ((s0 :: rest).drop child.pfx.length).length < f := by
            simp only [List.length_drop]
            simp only [List.length_cons] at hfl ⊢
            omega
          obtain ⟨⟨r1, cnt⟩, heqrec, hFail', hFound'⟩ :=
            ih root child (acc ++ child.pfx) ((s0 :: rest).drop child.pfx.length)
              hcinv hsrlen
          have hwalk : (∀ F3 k3, k3.length < F3 + child.pfx.length →
              (child.pfx ++ (s0 :: rest).drop child.pfx.length).isPrefixOf k3 = true →
              childGet F3 child k3 = none) →
              ∀ F k', k'.length < F + npfx.length →
              (npfx ++ s0 :: rest).isPrefixOf k' = true →
              childGet F (RNode.mk npfx nleaf nedges) k' = none := by
            intro hrec F k' hk hpre
            have hnp : npfx.isPrefixOf k' = true := by
              rw [List.isPrefixOf_iff_prefix]
              exact (List.prefix_append npfx (s0 :: rest)).trans
                (List.isPrefixOf_iff_prefix.mp hpre)
            rw [childGet_pos (by simp only [RNode.pfx_mk]; exact hnp)]
            simp only [RNode.pfx_mk]
            have hsk : (s0 :: rest) <+: k'.drop npfx.length :=
              (hiffP k' hnp).mp hpre
            obtain ⟨t, ht⟩ := hsk
            have hk2 : k'.drop npfx.length = s0 :: (rest ++ t) := by
              rw [← ht]
              rfl
            rw [hk2]
            have hlk : k'.length = npfx.length + (rest.length + 1 + t.length) := by
              rw [← hsplit k' hnp, hk2]
              simp
              omega
            have hFpos : 0 < F := by omega
            match F, hFpos with
            | F2 + 1, _ =>
              rw [nodeGet_succ_cons_cg]
              simp only [RNode.edges_mk, hfc0]
              by_cases hcpk : child.pfx.isPrefixOf (s0 :: (rest ++ t)) = true
              · apply hrec F2
                · simp only [List.length_cons, List.length_append]
                  omega
                · rw [List.isPrefixOf_iff_prefix]
                  apply (hF1fact _ (List.isPrefixOf_iff_prefix.mp hcpk)).mp
                  exact ⟨t, by rw [← hk2]; exact ht⟩
              · rw [childGet_neg hcpk]
          cases r1 with
          | none =>
            obtain ⟨hcnt0, hOldNone⟩ := hFail' rfl
            subst hcnt0
            refine ⟨(none, 0), ?_, ?_, ?_⟩
            · rw [internalDeletePfx.eq_def]
              simp only [hedge, heqrec]
              rw [if_neg hdiv]
            · intro _
              refine ⟨rfl, ?_⟩
              simp only [RNode.pfx_mk]
              exact hwalk hOldNone
            · intro newNode hN
              exact absurd hN (by simp)
          | some newChild =>
            obtain ⟨hcount', hz', hexact'⟩ := hFound' newChild rfl
            have hS0 : ∀ F2 (k2 : List Nat), k2.length < F2 + 1 →
                childGet F2 newChild k2 =
                  if (s0 :: rest) <+: k2 then none else childGet F2 child k2 := by
              intro F2 k2 hk2
              rw [hexact' F2 k2 (by omega)]
              by_cases hcpk : child.pfx <+: k2
              · by_cases hs : (s0 :: rest) <+: k2
                · rw [if_pos (List.isPrefixOf_iff_prefix.mpr
                    ((hF1fact k2 hcpk).mp hs)), if_pos hs]
                · rw [if_neg (fun hx => hs ((hF1fact k2 hcpk).mpr
                    (List.isPrefixOf_iff_prefix.mp hx))), if_neg hs]
              · have h1 : ¬ (child.pfx ++ (s0 :: rest).drop child.pfx.length).isPrefixOf
                    k2 = true := by
                  rw [List.isPrefixOf_iff_prefix]
                  intro hx
                  exact hcpk (hF2fact k2 hx)
                rw [if_neg h1]
                rw [childGet_neg (by rw [List.isPrefixOf_iff_prefix]; exact hcpk)]
                by_cases hs : (s0 :: rest) <+: k2
                · rw [if_pos hs]
                · rw [if_neg hs]
            by_cases hempty : newChild.is_leaf = false ∧ newChild.edge_len = 0
            · have hncz : leafCountN newChild = 0 :=
                leafCountN_zero_of_empty hempty.1 hempty.2
              have hcnt_child : cnt = leafCountN child := by omega
              have hS0none : ∀ F2 (k2 : List Nat), k2.length < F2 + 1 →
                  ¬ (s0 :: rest) <+: k2 → childGet F2 child k2 = none := by
                intro F2 k2 hk2 hs
                have h := hS0 F2 k2 hk2
                rw [childGet_zero_count hncz] at h
                rw [if_neg hs] at h
                exact h.symm
              by_cases hguard : root ≠ RNode.mk npfx nleaf nedges ∧
                  ((RNode.mk npfx nleaf nedges).delete_edge s0).is_leaf = false ∧
                  ((RNode.mk npfx nleaf nedges).delete_edge s0).edge_len = 1
              · -- drop the edge, then merge with the remaining sibling
                have hnl : nleaf = none := by
                  cases hx : nleaf with
                  | none => rfl
                  | some y =>
                    have h := hguard.2.1
                    rw [hx] at h
                    simp [RNode.is_leaf] at h
                subst hnl
                obtain ⟨⟨l2, c2⟩, hdel1⟩ := length_one_mem
                  (show (deleteEdgeL nedges.toList s0).length = 1 by
                    simpa [RNode.edge_len] using hguard.2.2)
                have hmem2 : (l2, c2) ∈ nedges.toList ∧ l2 ≠ s0 :=
                  (mem_deleteEdgeL hsorted).mp (by simp [hdel1])
                obtain ⟨hc2ne, hc2head, hc2vs, hc2inv⟩ :=
                  hinv.child l2 c2 (by simpa using hmem2.1)
                have hfcl2 : findChild nedges.toList l2 = some c2 :=
                  (findChild_some_iff hsorted).mpr hmem2.1
                have hc2len : 1 ≤ c2.pfx.length := List.length_pos.mpr hc2ne
                refine ⟨(some (RNode.mk (npfx ++ c2.pfx) c2.leaf c2.edges), cnt),
                  ?_, ?_, ?_⟩
                · rw [internalDeletePfx.eq_def]
                  simp only [hedge, heqrec]
                  rw [if_neg hdiv]
                  rw [if_pos hempty, if_pos hguard]
                  rw [show (RNode.mk npfx none nedges).delete_edge s0 =
                    RNode.mk npfx none (EL.ofList (deleteEdgeL nedges.toList s0)) from rfl]
                  rw [merge_child_one npfx (EL.ofList (deleteEdgeL nedges.toList s0)) (by
                    rw [EL.toList_ofList]
                    exact hdel1)]
                · intro hN
                  exact absurd hN (by simp)
                · intro newNode hN
                  simp only [Option.some.injEq] at hN
                  subst hN
                  have hdelcount : leafCountL (deleteEdgeL nedges.toList s0) +
                      leafCountN child = leafCountL nedges.toList :=
                    leafCountL_deleteEdgeL hsorted (by simpa using hmem)
                  have hdelc2 : leafCountL (deleteEdgeL nedges.toList s0) =
                      leafCountN c2 := by
                    rw [hdel1, leafCountL_cons]
                    simp [leafCountL]
                  refine ⟨?_, ?_, ?_⟩
                  · rw [leafCountN_repfx, leafCountN_mk]
                    simp only []
                    omega
                  · intro h0
                    simp only [RNode.pfx_mk]
                    apply hwalk
                    intro F3 k3 _ _
                    exact childGet_zero_count (by omega) _ _
                  · intro F k' hk
                    simp only [RNode.pfx_mk] at hk ⊢
                    by_cases hnp : npfx.isPrefixOf k' = true
                    · have hklen : k'.length = npfx.length +
                          (k'.drop npfx.length).length := by
                        rw [← hsplit k' hnp]
                        simp
                      have hdroplen : (k'.drop npfx.length).length < F := by omega
                      have hiffk := hiffP k' hnp
                      have hcnil : k'.drop npfx.length = [] →
                          ¬ (npfx ++ s0 :: rest).isPrefixOf k' = true := by
                        intro hd hx
                        have hxx := hiffk.mp hx
                        rw [hd] at hxx
                        exact absurd (List.prefix_nil.mp hxx) (by simp)
                      cases hk2c : k'.drop npfx.length with
                      | nil =>
                        have hFpos : 0 < F := by omega
                        match F, hFpos with
                        | F2 + 1, _ =>
                          rw [if_neg (hcnil hk2c)]
                          rw [childGet_pos (show (RNode.mk npfx none nedges :
                            RNode T).pfx.isPrefixOf k' = true by
                              simp only [RNode.pfx_mk]; exact hnp)]
                          simp only [RNode.pfx_mk]
                          rw [hk2c, nodeGet_succ_nil]
                          rw [childGet_neg (show ¬ (RNode.mk (npfx ++ c2.pfx) c2.leaf
                              c2.edges : RNode T).pfx.isPrefixOf k' = true by
                            simp only [RNode.pfx_mk]
                            rw [List.isPrefixOf_iff_prefix]
                            intro hx
                            have hlen := hx.length_le
                            simp only [List.length_append] at hlen
                            have hdl : (k'.drop npfx.length).length = 0 := by
                              rw [hk2c]
                              rfl
                            simp only [List.length_drop] at hdl
                            omega)]
                          simp
                      | cons h0 u =>
                        have hFpos : 0 < F := by omega
                        match F, hFpos with
                        | F2 + 1, _ =>
                          by_cases hm : (npfx ++ c2.pfx).isPrefixOf k' = true
                          · -- the lookup lands in the moved sibling subtree
                            have hc2k : c2.pfx <+: k'.drop npfx.length := by
                              apply (@prefix_append_cancel npfx _ _).mp
                              rw [hsplit k' hnp]
                              exact List.isPrefixOf_iff_prefix.mp hm
                            have hh0 : h0 = l2 := by
                              have hhd := headD_of_prefix (hk2c ▸ hc2k) hc2ne
                              simp only [List.headD_cons] at hhd
                              rw [hc2head] at hhd
                              exact hhd
                            rw [if_neg (show ¬ (npfx ++ s0 :: rest).isPrefixOf k' =
                                true by
                              intro hx
                              have hxx := hiffk.mp hx
                              rw [hk2c] at hxx
                              have hs0 := prefix_cons_head hxx
                              omega)]
                            rw [childGet_pos (show (RNode.mk (npfx ++ c2.pfx) c2.leaf
                                c2.edges : RNode T).pfx.isPrefixOf k' = true by
                              simp only [RNode.pfx_mk]; exact hm)]
                            simp only [RNode.pfx_mk]
                            rw [childGet_pos (show (RNode.mk npfx none nedges :
                                RNode T).pfx.isPrefixOf k' = true by
                              simp only [RNode.pfx_mk]; exact hnp)]
                            simp only [RNode.pfx_mk]
                            rw [hk2c, nodeGet_succ_cons_cg]
                            simp only [RNode.edges_mk]
                            rw [hh0]
                            simp only [hfcl2]
                            rw [childGet_pos (show c2.pfx.isPrefixOf (l2 :: u) = true by
                              rw [List.isPrefixOf_iff_prefix]
                              rw [← hh0, ← hk2c]
                              exact hc2k)]
                            have hdd : k'.drop (npfx ++ c2.pfx).length =
                                (l2 :: u).drop c2.pfx.length := by
                              rw [← hh0, ← hk2c, List.drop_drop,
                                List.length_append,
                                Nat.add_comm npfx.length c2.pfx.length]
                            rw [hdd]
                            rw [nodeGet_congr_contents
                              (show (RNode.mk (npfx ++ c2.pfx) c2.leaf c2.edges :
                                RNode T).leaf = c2.leaf from rfl)
                              (show (RNode.mk (npfx ++ c2.pfx) c2.leaf c2.edges :
                                RNode T).edges = c2.edges from rfl)]
                            apply nodeGet_fuel_agree (F2 + 1) (acc ++ c2.pfx) hc2inv
                            · simp only [List.length_drop, List.length_cons]
                              have : (k'.drop npfx.length).length = u.length + 1 := by
                                rw [hk2c]
                                simp
                              omega
                            · simp only [List.length_drop, List.length_cons]
                              have : (k'.drop npfx.length).length = u.length + 1 := by
                                rw [hk2c]
                                simp
                              omega
                          · rw [childGet_neg (show ¬ (RNode.mk (npfx ++ c2.pfx) c2.leaf
                                c2.edges : RNode T).pfx.isPrefixOf k' = true by
                              simp only [RNode.pfx_mk]; exact hm)]
                            by_cases hs : (s0 :: rest) <+: k'.drop npfx.length
                            · rw [if_pos (hiffk.mpr hs)]
                            · rw [if_neg (fun hx => hs (hiffk.mp hx))]
                              rw [childGet_pos (show (RNode.mk npfx none nedges :
                                  RNode T).pfx.isPrefixOf k' = true by
                                simp only [RNode.pfx_mk]; exact hnp)]
                              simp only [RNode.pfx_mk]
                              rw [hk2c, nodeGet_succ_cons_cg]
                              simp only [RNode.edges_mk]
                              by_cases hhs : h0 = s0
                              · subst hhs
                                simp only [hfc0]
                                symm
                                apply hS0none F2
                                · have : (k'.drop npfx.length).length = u.length + 1 := by
                                    rw [hk2c]
                                    simp
                                  simp only [List.length_cons]
                                  omega
                                · rw [← hk2c]
                                  exact hs
                              · cases hfh : findChild nedges.toList h0 with
                                | none => simp only [hfh]
                                | some c =>
                                  have hmemh := findChild_mem_of_some hfh
                                  have hmemd : (h0, c) ∈ deleteEdgeL nedges.toList s0 :=
                                    (mem_deleteEdgeL hsorted).mpr ⟨hmemh, hhs⟩
                                  rw [hdel1] at hmemd
                                  obtain ⟨hh0, hcc⟩ :=
                                    Prod.mk.injEq .. ▸ List.mem_singleton.mp hmemd
                                  simp only [hfh]
                                  rw [hcc]
                                  symm
                                  apply childGet_neg
                                  intro hx
                                  apply hm
                                  rw [List.isPrefixOf_iff_prefix] at hx ⊢
                                  rw [← hsplit k' hnp, hk2c]
                                  apply (@prefix_append_cancel npfx _ _).mpr
                                  exact hx
                    · rw [if_neg (hnpP k' hnp)]
                      rw [childGet_neg (show ¬ (RNode.mk npfx none nedges :
                          RNode T).pfx.isPrefixOf k' = true by
                        simp only [RNode.pfx_mk]; exact hnp)]
                      rw [childGet_neg (show ¬ (RNode.mk (npfx ++ c2.pfx) c2.leaf
                          c2.edges : RNode T).pfx.isPrefixOf k' = true by
                        simp only [RNode.pfx_mk]
                        intro hx
                        apply hnp
                        rw [List.isPrefixOf_iff_prefix] at hx ⊢
                        exact (List.prefix_append _ _).trans hx)]
              · -- drop the edge, no merge
                refine ⟨(some ((RNode.mk npfx nleaf nedges).delete_edge s0), cnt),
                  ?_, ?_, ?_⟩
                · rw [internalDeletePfx.eq_def]
                  simp only [hedge, heqrec]
                  rw [if_neg hdiv]
                  rw [if_pos hempty, if_neg hguard]
                · intro hN
                  exact absurd hN (by simp)
                · intro newNode hN
                  simp only [Option.some.injEq] at hN
                  subst hN
                  have hdelcount : leafCountL (deleteEdgeL nedges.toList s0) +
                      leafCountN child = leafCountL nedges.toList :=
                    leafCountL_deleteEdgeL hsorted (by simpa using hmem)
                  refine ⟨?_, ?_, ?_⟩
                  · rw [show (RNode.mk npfx nleaf nedges).delete_edge s0 =
                      RNode.mk npfx nleaf (EL.ofList (deleteEdgeL nedges.toList s0))
                      from rfl]
                    rw [leafCountN_mk, leafCountN_mk, EL.toList_ofList]
                    cases nleaf <;> simp only [] <;> omega
                  · intro h0
                    simp only [RNode.pfx_mk]
                    apply hwalk
                    intro F3 k3 _ _
                    exact childGet_zero_count (by omega) _ _
                  · intro F k' hk
                    simp only [RNode.pfx_mk] at hk ⊢
                    by_cases hnp : npfx.isPrefixOf k' = true
                    · have hklen : k'.length = npfx.length +
                          (k'.drop npfx.length).length := by
                        rw [← hsplit k' hnp]
                        simp
                      have hdroplen : (k'.drop npfx.length).length < F := by omega
                      have hiffk := hiffP k' hnp
                      rw [childGet_pos (show ((RNode.mk npfx nleaf nedges).delete_edge
                          s0).pfx.isPrefixOf k' = true by
                        simp only [RNode.pfx_delete_edge, RNode.pfx_mk]; exact hnp)]
                      rw [childGet_pos (show (RNode.mk npfx nleaf nedges :
                          RNode T).pfx.isPrefixOf k' = true by
                        simp only [RNode.pfx_mk]; exact hnp)]
                      simp only [RNode.pfx_delete_edge, RNode.pfx_mk]
                      cases hk2c : k'.drop npfx.length with
                      | nil =>
                        have hFpos : 0 < F := by omega
                        match F, hFpos with
                        | F2 + 1, _ =>
                          rw [if_neg (show ¬ (npfx ++ s0 :: rest).isPrefixOf k' =
                              true by
                            intro hx
                            have hxx := hiffk.mp hx
                            rw [hk2c] at hxx
                            exact absurd (List.prefix_nil.mp hxx) (by simp))]
                          rw [nodeGet_succ_nil, nodeGet_succ_nil]
                          simp [RNode.delete_edge]
                      | cons h0 u =>
                        have hFpos : 0 < F := by omega
                        have hulen : (k'.drop npfx.length).length = u.length + 1 := by
                          rw [hk2c]
                          simp
                        match F, hFpos with
                        | F2 + 1, _ =>
                          rw [nodeGet_succ_cons_cg, nodeGet_succ_cons_cg]
                          simp only [RNode.edges_delete_edge, RNode.edges_mk]
                          rw [findChild_deleteEdgeL hsorted s0 h0]
                          by_cases hhs : h0 = s0
                          · subst hhs
                            rw [if_pos rfl]
                            simp only [hfc0]
                            by_cases hs : (h0 :: rest) <+: k'.drop npfx.length
                            · rw [if_pos (hiffk.mpr hs)]
                            · rw [if_neg (fun hx => hs (hiffk.mp hx))]
                              rw [hS0none F2 (h0 :: u)
                                (by simp only [List.length_cons]; omega)
                                (by rw [← hk2c]; exact hs)]
                          · rw [if_neg hhs]
                            rw [if_neg (show ¬ (npfx ++ s0 :: rest).isPrefixOf k' =
                                true by
                              intro hx
                              have hxx := hiffk.mp hx
                              rw [hk2c] at hxx
                              exact hhs (prefix_cons_head hxx).symm)]
                    · rw [if_neg (hnpP k' hnp)]
                      rw [childGet_neg (show ¬ (RNode.mk npfx nleaf nedges :
                          RNode T).pfx.isPrefixOf k' = true by
                        simp only [RNode.pfx_mk]; exact hnp)]
                      rw [childGet_neg (show ¬ ((RNode.mk npfx nleaf nedges).delete_edge
                          s0).pfx.isPrefixOf k' = true by
                        simp only [RNode.pfx_delete_edge, RNode.pfx_mk]; exact hnp)]
            · -- keep the edge: re-link the updated child
              have hrep : (RNode.mk npfx nleaf nedges).replace_edge_at edgeIdx
                  (s0, newChild) = some (RNode.mk npfx nleaf
                    (EL.ofList (nedges.toList.set edgeIdx (s0, newChild)))) := by
                unfold RNode.replace_edge_at
                simp only [RNode.edges_mk, RNode.pfx_mk, RNode.leaf_mk]
                rw [replaceEdgeAtL_spec hget? newChild]
                rfl
              refine ⟨(some (RNode.mk npfx nleaf
                  (EL.ofList (nedges.toList.set edgeIdx (s0, newChild)))), cnt),
                ?_, ?_, ?_⟩
              · rw [internalDeletePfx.eq_def]
                simp only [hedge, heqrec]
                rw [if_neg hdiv]
                rw [if_neg hempty]
                rw [hrep]
              · intro hN
                exact absurd hN (by simp)
              · intro newNode hN
                simp only [Option.some.injEq] at hN
                subst hN
                have hsetcount := leafCountL_set hget? s0 newChild
                refine ⟨?_, ?_, ?_⟩
                · rw [leafCountN_mk, leafCountN_mk, EL.toList_ofList]
                  cases nleaf <;> simp only [] <;> omega
                · intro h0
                  simp only [RNode.pfx_mk]
                  apply hwalk
                  intro F3 k3 h1 h2
                  exact hz' h0 F3 k3 h1 h2
                · intro F k' hk
                  simp only [RNode.pfx_mk] at hk ⊢
                  by_cases hnp : npfx.isPrefixOf k' = true
                  · have hklen : k'.length = npfx.length +
                        (k'.drop npfx.length).length := by
                      rw [← hsplit k' hnp]
                      simp
                    have hdroplen : (k'.drop npfx.length).length < F := by omega
                    have hiffk := hiffP k' hnp
                    rw [childGet_pos (show (RNode.mk npfx nleaf
                        (EL.ofList (nedges.toList.set edgeIdx (s0, newChild))) :
                        RNode T).pfx.isPrefixOf k' = true by
                      simp only [RNode.pfx_mk]; exact hnp)]
                    rw [childGet_pos (show (RNode.mk npfx nleaf nedges :
                        RNode T).pfx.isPrefixOf k' = true by
                      simp only [RNode.pfx_mk]; exact hnp)]
                    simp only [RNode.pfx_mk]
                    cases hk2c : k'.drop npfx.length with
                    | nil =>
                      have hFpos : 0 < F := by omega
                      match F, hFpos with
                      | F2 + 1, _ =>
                        rw [if_neg (show ¬ (npfx ++ s0 :: rest).isPrefixOf k' =
                            true by
                          intro hx
                          have hxx := hiffk.mp hx
                          rw [hk2c] at hxx
                          exact absurd (List.prefix_nil.mp hxx) (by simp))]
                        rw [nodeGet_succ_nil, nodeGet_succ_nil]
                        simp only [RNode.leaf_mk]
                    | cons h0 u =>
                      have hFpos : 0 < F := by omega
                      have hulen : (k'.drop npfx.length).length = u.length + 1 := by
                        rw [hk2c]
                        simp
                      match F, hFpos with
                      | F2 + 1, _ =>
                        rw [nodeGet_succ_cons_cg, nodeGet_succ_cons_cg]
                        simp only [RNode.edges_mk, EL.toList_ofList]
                        rw [findChild_set hsorted hget? h0]
                        by_cases hhs : h0 = s0
                        · subst hhs
                          rw [if_pos rfl]
                          simp only [hfc0]
                          rw [hS0 F2 (h0 :: u)
                            (by simp only [List.length_cons]; omega)]
                          by_cases hs : (h0 :: rest) <+: k'.drop npfx.length
                          · rw [if_pos (show (h0 :: rest) <+: h0 :: u from
                              hk2c ▸ hs), if_pos (hiffk.mpr hs)]
                          · rw [if_neg (show ¬ (h0 :: rest) <+: h0 :: u from
                              fun hx => hs (by rw [← hk2c] at hx; exact hx)),
                              if_neg (fun hx => hs (hiffk.mp hx))]
                        · rw [if_neg hhs]
                          rw [if_neg (show ¬ (npfx ++ s0 :: rest).isPrefixOf k' =
                              true by
                            intro hx
                            have hxx := hiffk.mp hx
                            rw [hk2c] at hxx
                            exact hhs (prefix_cons_head hxx).symm)]
                  · rw [if_neg (hnpP k' hnp)]
                    rw [childGet_neg (show ¬ (RNode.mk npfx nleaf nedges :
                        RNode T).pfx.isPrefixOf k' = true by
                      simp only [RNode.pfx_mk]; exact hnp)]
                    rw [childGet_neg (show ¬ (RNode.mk npfx nleaf
                        (EL.ofList (nedges.toList.set edgeIdx (s0, newChild))) :
                        RNode T).pfx.isPrefixOf k' = true by
                      simp only [RNode.pfx_mk]; exact hnp)]

theorem internalDeletePfx_pfx {T : Type} [DecidableEq T]
    (fuel : Nat) (node : RNode T) (search : List Nat)
    (res : Option (RNode T) × Nat)
    (h : internalDeletePfx fuel node node search = some res) :
    ∀ newNode, res.1 = some newNode → newNode.pfx = node.pfx := by
  intro newNode hN
  match fuel with
  | 0 =>
    rw [internalDeletePfx.eq_def] at h
    exact absurd h (by simp)
  | f + 1 =>
    rw [internalDeletePfx.eq_def] at h
    cases search with
    | nil =>
      simp only [Option.some.injEq] at h
      subst h
      simp only [Option.some.injEq] at hN
      subst hN
      simp
    | cons s0 rest =>
      simp only [] at h
      cases hedge : node.get_edge s0 with
      | none =>
        rw [hedge] at h
        simp only [Option.some.injEq] at h
        subst h
        exact absurd hN (by simp)
      | some pr =>
        obtain ⟨edgeIdx, child⟩ := pr
        rw [hedge] at h
        simp only [] at h
        split at h
        · simp only [Option.some.injEq] at h
          subst h
          exact absurd hN (by simp)
        · split at h
          · exact absurd h (by simp)
          · simp only [Option.some.injEq] at h
            subst h
            exact absurd hN (by simp)
          · split at h
            · split at h
              · rename_i hguard
                exact absurd rfl hguard.1
              · simp only [Option.some.injEq] at h
                subst h
                simp only [Option.some.injEq] at hN
                subst hN
                simp
            · split at h
              · exact absurd h (by simp)
              · rename_i newNode2 hrep
                simp only [Option.some.injEq] at h
                subst h
                simp only [Option.some.injEq] at hN
                subst hN
                obtain ⟨L2, _, hnn⟩ := RNode.replace_edge_at_some hrep
                rw [hnn]
                simp

/-- C7: prefix deletion — `Tree::delete_prefix(p)` (spec-modelled, the method is
absent from `src/`) completes on a well-formed tree and removes exactly the
stored keys extending `p`: every lookup of a key with prefix `p` becomes
absent, every other key keeps its value, the reported flag is true iff at
least one leaf was removed, the size counter drops by exactly the number of
removed leaves, and when nothing matched the size is unchanged and every
lookup is unchanged (no key with prefix `p` was stored). -/
theorem claim_C7_prefix_deletion {T : Type} [DecidableEq T]
    (fuel : Nat) (t : TreeM T) (p : List Nat)
    (hinv : NodeInv [] t.root) (hrpfx : t.root.pfx = [])
    (hsz : t.size = leafCountN t.root) (hfl : p.length < fuel) :
    ∃ (t' : TreeM T) (flag : Bool) (removed : Nat),
      treeDeletePfx fuel t p = some (t', flag) ∧
      (flag = true ↔ 0 < removed) ∧
      removed + leafCountN t'.root = leafCountN t.root ∧
      t'.size + removed = t.size ∧
      (∀ (fuel2 : Nat) (k' : List Nat), k'.length < fuel2 →
        nodeGet fuel2 t'.root k' =
          if p.isPrefixOf k' = true then none else nodeGet fuel2 t.root k') ∧
      (removed = 0 → t'.size = t.size ∧
        ∀ (fuel2 : Nat) (k' : List Nat), k'.length < fuel2 →
          nodeGet fuel2 t'.root k' = nodeGet fuel2 t.root k') := by
  obtain ⟨⟨r1, cnt⟩, heq, hFail, hFound⟩ :=
    internalDeletePfx_spec fuel t.root t.root [] p hinv hfl
  have hpfx0 : t.root.pfx.length = 0 := by
    rw [hrpfx]
    rfl
  cases r1 with
  | none =>
    obtain ⟨hcnt0, hwalk⟩ := hFail rfl
    have hcnt0' : cnt = 0 := hcnt0
    subst hcnt0'
    have hOldNone : ∀ (fuel2 : Nat) (k' : List Nat), k'.length < fuel2 →
        p.isPrefixOf k' = true → nodeGet fuel2 t.root k' = none := by
      intro fuel2 k' hk hp
      rw [← childGet_nil_pfx hrpfx fuel2 k']
      apply hwalk fuel2 k' (by omega)
      rw [hrpfx]
      simpa using hp
    refine ⟨⟨t.root, t.size⟩, false, 0, ?_, by simp, by simp, by simp, ?_, ?_⟩
    · unfold treeDeletePfx txnDeletePfx
      simp only [heq]
      simp [commit]
    · intro fuel2 k' hk
      by_cases hp : p.isPrefixOf k' = true
      · rw [if_pos hp]
        exact hOldNone fuel2 k' hk hp
      · rw [if_neg hp]
    · intro _
      exact ⟨rfl, fun _ _ _ => rfl⟩
  | some newNode =>
    obtain ⟨hcount, hz, hexact⟩ := hFound newNode rfl
    have hpfxN : newNode.pfx = t.root.pfx :=
      internalDeletePfx_pfx fuel t.root p (some newNode, cnt) heq newNode rfl
    have hpfxN0 : newNode.pfx = [] := by rw [hpfxN, hrpfx]
    have hcount' : cnt + leafCountN newNode = leafCountN t.root := hcount
    have hlec : cnt ≤ t.size := by omega
    have hEx : ∀ (fuel2 : Nat) (k' : List Nat), k'.length < fuel2 →
        nodeGet fuel2 newNode k' =
          if p.isPrefixOf k' = true then none else nodeGet fuel2 t.root k' := by
      intro fuel2 k' hk
      rw [← childGet_nil_pfx hpfxN0 fuel2 k']
      rw [hexact fuel2 k' (by omega)]
      rw [childGet_nil_pfx hrpfx fuel2 k']
      rw [hrpfx]
      simp only [List.nil_append]
    have hZ : cnt = 0 → ∀ (fuel2 : Nat) (k' : List Nat), k'.length < fuel2 →
        p.isPrefixOf k' = true → nodeGet fuel2 t.root k' = none := by
      intro hc0 fuel2 k' hk hp
      rw [← childGet_nil_pfx hrpfx fuel2 k']
      apply hz hc0 fuel2 k' (by omega)
      rw [hrpfx]
      simpa using hp
    refine ⟨⟨newNode, t.size - cnt⟩, decide (cnt ≠ 0), cnt, ?_, ?_, hcount', ?_,
      hEx, ?_⟩
    · unfold treeDeletePfx txnDeletePfx
      simp only [heq]
      simp [commit]
    · simp only [decide_eq_true_eq]
      omega
    · simp only []
      omega
    · intro hc0
      refine ⟨by simp only []; omega, ?_⟩
      intro fuel2 k' hk
      rw [hEx fuel2 k' hk]
      by_cases hp : p.isPrefixOf k' = true
      · rw [if_pos hp]
        exact (hZ hc0 fuel2 k' hk hp).symm
      · rw [if_neg hp]

theorem claim_C7_prefix_deletion_witness :
    ∃ (t' : TreeM Nat) (flag : Bool) (removed : Nat),
      treeDeletePfx 4 ⟨c5Root, 1⟩ [48] = some (t', flag) ∧
      (flag = true ↔ 0 < removed) ∧
      removed + leafCountN t'.root = leafCountN (⟨c5Root, 1⟩ : TreeM Nat).root ∧
      t'.size + removed = (⟨c5Root, 1⟩ : TreeM Nat).size ∧
      (∀ (fuel2 : Nat) (k' : List Nat), k'.length < fuel2 →
        nodeGet fuel2 t'.root k' =
          if ([48] : List Nat).isPrefixOf k' = true then none
          else nodeGet fuel2 c5Root k') ∧
      (removed = 0 → t'.size = 1 ∧
        ∀ (fuel2 : Nat) (k' : List Nat), k'.length < fuel2 →
          nodeGet fuel2 t'.root k' = nodeGet fuel2 c5Root k') :=
  claim_C7_prefix_deletion 4 ⟨c5Root, 1⟩ [48] c5Root_inv rfl (by decide) (by decide)

mutual

/-- Height of a subtree: nodes on the longest root-to-leaf chain (used only
as a fuel bound for the extrema walks of `Node::minimum`/`Node::maximum`). -/
def heightN {T : Type} : RNode T → Nat
  | .mk _ _ edges => heightEL edges + 1

/-- Height of an edge list: the tallest child. -/
def heightEL {T : Type} : EL T → Nat
  | .nil => 0
  | .cons _ c rest => max (heightN c) (heightEL rest)

end

/-- Height of a plain edge list. -/
def heightL {T : Type} : List (Nat × RNode T) → Nat
  | [] => 0
  | (_, c) :: rest => max (heightN c) (heightL rest)

theorem heightEL_eq {T : Type} : ∀ (e : EL T), heightEL e = heightL e.toList
  | .nil => rfl
  | .cons l c r => by
    rw [heightEL, EL.toList]
    rw [heightEL_eq r]
    rfl

theorem heightN_mk {T : Type} (p : List Nat) (lf : Option (LeafN T)) (e : EL T) :
    heightN (RNode.mk p lf e) = heightL e.toList + 1 := by
  rw [heightN.eq_def]
  simp only []
  rw [heightEL_eq]

theorem heightL_mem {T : Type} : ∀ {L : List (Nat × RNode T)} {l : Nat}
    {c : RNode T}, (l, c) ∈ L → heightN c ≤ heightL L
  | [], l, c, hmem => absurd hmem (List.not_mem_nil _)
  | (e1, e2) :: L, l, c, hmem => by
    rcases List.mem_cons.mp hmem with hm | hm
    · obtain ⟨h1, h2⟩ := Prod.mk.injEq .. ▸ hm
      rw [h2]
      exact le_max_left _ _
    · exact le_trans (heightL_mem hm) (le_max_right _ _)

/-- A list is never lexicographically smaller than its own prefix. -/
theorem not_lex_refl_prefix : ∀ (l s : List Nat), ¬ List.Lex (· < ·) (l ++ s) l := by
  intro l
  induction l with
  | nil =>
    intro s h
    cases h
  | cons a l ih =>
    intro s h
    cases h with
    | cons h2 => exact ih s h2
    | rel hr => exact absurd hr (lt_irrefl a)

/-- After a common prefix, the list with the larger head byte is never the
lexicographically smaller one. -/
theorem not_lex_lt : ∀ (acc : List Nat) {a b : Nat} (A B : List Nat), b < a →
    ¬ List.Lex (· < ·) (acc ++ a :: A) (acc ++ b :: B) := by
  intro acc
  induction acc with
  | nil =>
    intro a b A B hba h
    cases h with
    | cons h2 => exact absurd hba (lt_irrefl _)
    | rel hr => omega
  | cons x acc ih =>
    intro a b A B hba h
    cases h with
    | cons h2 => exact ih A B hba h2
    | rel hr => exact absurd hr (lt_irrefl x)

/-- In a label-sorted edge list the first label is strictly smallest. -/
theorem pairwise_head_lt {α : Type} {l1 : Nat} {c1 : α} {L : List (Nat × α)}
    (hs : (labelsOf ((l1, c1) :: L)).Pairwise (· < ·)) :
    ∀ l c, (l, c) ∈ L → l1 < l := by
  intro l c hmem
  simp only [labelsOf, List.map_cons, List.pairwise_cons] at hs
  exact hs.1 l (List.mem_map.mpr ⟨(l, c), hmem, rfl⟩)

/-- In a label-sorted edge list the last label is the largest. -/
theorem last_label_max {α : Type} : ∀ {L : List (Nat × α)} {lt0 : Nat} {ct : α},
    (labelsOf L).Pairwise (· < ·) → L.getLast? = some (lt0, ct) →
    ∀ l c, (l, c) ∈ L → l = lt0 ∨ l < lt0 := by
  intro L
  induction L with
  | nil =>
    intro lt0 ct _ hlast
    exact absurd hlast (by simp)
  | cons e L ih =>
    intro lt0 ct hs hlast l c hmem
    cases L with
    | nil =>
      have he : e = (lt0, ct) := by simpa using hlast
      have hm := List.mem_singleton.mp hmem
      rw [he] at hm
      obtain ⟨h1, h2⟩ := Prod.mk.injEq .. ▸ hm
      exact Or.inl h1
    | cons e2 L2 =>
      have hlast2 : (e2 :: L2).getLast? = some (lt0, ct) := hlast
      rcases List.mem_cons.mp hmem with hm | hm
      · right
        obtain ⟨e1', c1'⟩ := e
        obtain ⟨h1, h2⟩ := Prod.mk.injEq .. ▸ hm
        rw [h1]
        have hmemlast : (lt0, ct) ∈ e2 :: L2 := List.mem_of_mem_getLast? hlast2
        exact pairwise_head_lt hs lt0 ct hmemlast
      · have hs2 : (labelsOf (e2 :: L2)).Pairwise (· < ·) := by
          simp only [labelsOf, List.map_cons] at hs ⊢
          exact (List.pairwise_cons.mp hs).2
        exact ih hs2 hlast2 l c hm

/-- Shape of a successful lookup on a non-empty search: it always enters a
child whose prefix matches. -/
theorem nodeGet_some_shape {T : Type} : ∀ {F : Nat} {n : RNode T} {s0 : Nat}
    {rest : List Nat} {v : T}, nodeGet F n (s0 :: rest) = some v →
    ∃ F2 c, F = F2 + 1 ∧ findChild n.edges.toList s0 = some c ∧
      c.pfx.isPrefixOf (s0 :: rest) = true ∧
      nodeGet F2 c ((s0 :: rest).drop c.pfx.length) = some v := by
  intro F n s0 rest v h
  match F with
  | 0 => exact absurd h (by rw [nodeGet]; simp)
  | F2 + 1 =>
    rw [nodeGet_succ_cons] at h
    cases hfc : findChild n.edges.toList s0 with
    | none =>
      rw [hfc] at h
      exact absurd h (by simp)
    | some c =>
      simp only [hfc] at h
      by_cases hp : c.pfx.isPrefixOf (s0 :: rest) = true
      · rw [if_pos hp] at h
        exact ⟨F2, c, rfl, rfl, hp, h⟩
      · rw [if_neg hp] at h
        exact absurd h (by simp)

/-- Specification of `Node::minimum`: on a well-formed node with settled
children (fuel at least the height), it returns `none` exactly on the empty
node, and otherwise a stored entry whose key no other stored key undercuts
lexicographically. -/
theorem nodeMin_spec {T : Type} : ∀ (fuel : Nat) (n : RNode T) (acc : List Nat),
    NodeInv acc n → SettledRoot n → heightN n ≤ fuel →
    (nodeMin fuel n = none ∧ n.leaf = none ∧ n.edges.toList = []) ∨
    (∃ k v, nodeMin fuel n = some (k, v) ∧ acc <+: k ∧
      (∀ fuel2 : Nat, k.length < fuel2 + acc.length →
        nodeGet fuel2 n (k.drop acc.length) = some v) ∧
      (∀ (s : List Nat) (v' : T) (fuel2 : Nat), nodeGet fuel2 n s = some v' →
        ¬ List.Lex (· < ·) (acc ++ s) k)) := by
  intro fuel
  induction fuel with
  | zero =>
    intro n acc _ _ hh
    obtain ⟨p, lf, e⟩ := n
    rw [heightN_mk] at hh
    omega
  | succ f ih =>
    intro n acc hinv hset hh
    obtain ⟨p, lf, e⟩ := n
    rw [heightN_mk] at hh
    have hsorted := hinv.sorted
    simp only [RNode.edges_mk] at hsorted
    cases hlf : lf with
    | some lfv =>
      right
      have hkey : lfv.key = acc :=
        hinv.leafKey lfv (by rw [hlf]; exact RNode.leaf_mk ..)
      refine ⟨lfv.key, lfv.value, ?_, ?_, ?_, ?_⟩
      · rw [nodeMin]
        simp only [RNode.leaf_mk]
      · rw [hkey]
      · intro fuel2 hfl2
        rw [hkey] at hfl2 ⊢
        rw [List.drop_length]
        obtain ⟨F2, rfl⟩ : ∃ F2, fuel2 = F2 + 1 := ⟨fuel2 - 1, by omega⟩
        rw [nodeGet_succ_nil]
        simp only [RNode.leaf_mk]
      · intro s v' fuel2 _
        rw [hkey]
        exact not_lex_refl_prefix acc s
    | none =>
      cases hL : e.toList with
      | nil =>
        left
        refine ⟨?_, RNode.leaf_mk .., by rw [RNode.edges_mk, hL]⟩
        rw [nodeMin]
        simp only [RNode.leaf_mk, RNode.first_edge, RNode.edges_mk, hL]
        rfl
      | cons e1 restE =>
        obtain ⟨l1, c1⟩ := e1
        right
        have hmem1 : (l1, c1) ∈ e.toList := by
          rw [hL]
          exact List.mem_cons_self _ _
        have hsettled1 : Settled c1 := hset l1 c1 (by simpa using hmem1)
        obtain ⟨hc1ne, hc1head, hc1vs, hc1inv⟩ := hinv.child l1 c1 (by simpa using hmem1)
        have hh1 : heightN c1 ≤ f := by
          have h1 := heightL_mem hmem1
          omega
        have hfc1 : findChild e.toList l1 = some c1 :=
          (findChild_some_iff hsorted).mpr hmem1
        obtain ⟨p0, pfxT, hc1pfx⟩ : ∃ p0 pfxT, c1.pfx = p0 :: pfxT := by
          cases hpp : c1.pfx with
          | nil => exact absurd hpp hc1ne
          | cons a b => exact ⟨a, b, rfl⟩
        have hp0 : p0 = l1 := by
          rw [hc1pfx] at hc1head
          simpa using hc1head
        rw [hp0] at hc1pfx
        rcases ih c1 (acc ++ c1.pfx) hc1inv
            (fun l c hm => hsettled1.childSettled l c hm) hh1 with
          ⟨_, hcl, hce⟩ | ⟨k, v, hmin, hpre, hstored, hminimal⟩
        · exfalso
          rcases hsettled1.own with ho | ho
          · rw [hcl] at ho
            exact absurd ho (by simp)
          · rw [hce] at ho
            simp at ho
        · obtain ⟨kC, hkC⟩ := hpre
          have hkdrop : k.drop acc.length = c1.pfx ++ kC := by
            rw [← hkC, List.append_assoc]
            exact List.drop_left _ _
          have hkdropc : k.drop (acc ++ c1.pfx).length = kC := by
            rw [← hkC]
            exact List.drop_left _ _
          have hklen : k.length = acc.length + c1.pfx.length + kC.length := by
            rw [← hkC]
            simp
            omega
          refine ⟨k, v, ?_, ?_, ?_, ?_⟩
          · rw [nodeMin]
            simp only [RNode.leaf_mk, RNode.first_edge, RNode.edges_mk, hL]
            simp only [List.head?_cons, Option.map_some']
            exact hmin
          · exact (List.prefix_append acc c1.pfx).trans ⟨kC, hkC⟩
          · intro fuel2 hfl2
            rw [hkdrop, hc1pfx]
            obtain ⟨F2, rfl⟩ : ∃ F2, fuel2 = F2 + 1 := ⟨fuel2 - 1, by omega⟩
            rw [show ((l1 :: pfxT) ++ kC) = l1 :: (pfxT ++ kC) from rfl]
            rw [nodeGet_succ_cons]
            simp only [RNode.edges_mk, hfc1]
            rw [if_pos (show c1.pfx.isPrefixOf (l1 :: (pfxT ++ kC)) = true by
              rw [List.isPrefixOf_iff_prefix, hc1pfx]
              exact ⟨kC, rfl⟩)]
            rw [show (l1 :: (pfxT ++ kC)).drop c1.pfx.length = kC from by
              rw [hc1pfx]
              exact List.drop_left (l1 :: pfxT) kC]
            have hs2 := hstored F2 (by
              simp only [List.length_append]
              rw [hc1pfx] at hklen ⊢
              simp only [List.length_cons] at hklen ⊢
              omega)
            rw [hkdropc] at hs2
            exact hs2
          · intro s v' fuel2 hget
            cases s with
            | nil =>
              exfalso
              cases fuel2 with
              | zero => exact absurd hget (by rw [nodeGet]; simp)
              | succ F2 =>
                rw [nodeGet_succ_nil] at hget
                simp only [RNode.leaf_mk] at hget
                exact absurd hget (by simp)
            | cons s0 rest =>
              obtain ⟨F2, c, hF, hfc, hcp, hrec⟩ := nodeGet_some_shape hget
              simp only [RNode.edges_mk] at hfc
              have hmemc := findChild_mem_of_some hfc
              by_cases hs0 : s0 = l1
              · have hc : c = c1 := by
                  rw [hs0, hfc1] at hfc
                  exact (Option.some.injEq .. ▸ hfc).symm
                rw [hc] at hcp hrec
                intro hlex
                apply hminimal ((s0 :: rest).drop c1.pfx.length) v' F2 hrec
                rw [show (acc ++ c1.pfx) ++ ((s0 :: rest).drop c1.pfx.length) =
                    acc ++ (s0 :: rest) from by
                  rw [List.append_assoc]
                  congr 1
                  exact (List.prefix_iff_eq_append.mp
                    (List.isPrefixOf_iff_prefix.mp hcp))]
                exact hlex
              · have hmemr : (s0, c) ∈ restE := by
                  rw [hL] at hmemc
                  rcases List.mem_cons.mp hmemc with hm | hm
                  · obtain ⟨h1, _⟩ := Prod.mk.injEq .. ▸ hm
                    exact absurd h1 hs0
                  · exact hm
                have hlt : l1 < s0 :=
                  pairwise_head_lt (hL ▸ hsorted) s0 c hmemr
                rw [show k = acc ++ l1 :: (pfxT ++ kC) from by
                  rw [← hkC, hc1pfx]
                  simp]
                exact not_lex_lt acc rest (pfxT ++ kC) hlt

/-- Specification of `Node::maximum`: on a well-formed node with settled
children (fuel at least the height), it returns `none` exactly on the empty
node, and otherwise a stored entry whose key no other stored key exceeds
lexicographically. -/
theorem nodeMax_spec {T : Type} : ∀ (fuel : Nat) (n : RNode T) (acc : List Nat),
    NodeInv acc n → SettledRoot n → heightN n ≤ fuel →
    (nodeMax fuel n = none ∧ n.leaf = none ∧ n.edges.toList = []) ∨
    (∃ k v, nodeMax fuel n = some (k, v) ∧ acc <+: k ∧
      (∀ fuel2 : Nat, k.length < fuel2 + acc.length →
        nodeGet fuel2 n (k.drop acc.length) = some v) ∧
      (∀ (s : List Nat) (v' : T) (fuel2 : Nat), nodeGet fuel2 n s = some v' →
        ¬ List.Lex (· < ·) k (acc ++ s))) := by
  intro fuel
  induction fuel with
  | zero =>
    intro n acc _ _ hh
    obtain ⟨p, lf, e⟩ := n
    rw [heightN_mk] at hh
    omega
  | succ f ih =>
    intro n acc hinv hset hh
    obtain ⟨p, lf, e⟩ := n
    rw [heightN_mk] at hh
    have hsorted := hinv.sorted
    simp only [RNode.edges_mk] at hsorted
    cases hL : e.toList with
    | nil =>
      cases hlf : lf with
      | some lfv =>
        right
        have hkey : lfv.key = acc :=
          hinv.leafKey lfv (by rw [hlf]; exact RNode.leaf_mk ..)
        refine ⟨lfv.key, lfv.value, ?_, ?_, ?_, ?_⟩
        · rw [nodeMax]
          simp only [RNode.last_edge, RNode.edges_mk, hL, List.getLast?_nil,
            Option.map_none', RNode.leaf_mk]
        · rw [hkey]
        · intro fuel2 hfl2
          rw [hkey] at hfl2 ⊢
          rw [List.drop_length]
          obtain ⟨F2, rfl⟩ : ∃ F2, fuel2 = F2 + 1 := ⟨fuel2 - 1, by omega⟩
          rw [nodeGet_succ_nil]
          simp only [RNode.leaf_mk]
        · intro s v' fuel2 hget
          rw [hkey]
          cases s with
          | nil =>
            rw [List.append_nil]
            have h0 := not_lex_refl_prefix acc []
            rw [List.append_nil] at h0
            exact h0
          | cons s0 rest =>
            exfalso
            obtain ⟨F2, c, hF, hfc, hcp, hrec⟩ := nodeGet_some_shape hget
            simp only [RNode.edges_mk] at hfc
            have hmemc := findChild_mem_of_some hfc
            rw [hL] at hmemc
            exact absurd hmemc (List.not_mem_nil _)
      | none =>
        left
        refine ⟨?_, RNode.leaf_mk .., by rw [RNode.edges_mk, hL]⟩
        rw [nodeMax]
        simp only [RNode.last_edge, RNode.edges_mk, hL, List.getLast?_nil,
          Option.map_none', RNode.leaf_mk]
    | cons e1 restE =>
      right
      cases hlast : (e1 :: restE).getLast? with
      | none =>
        exact absurd (List.getLast?_eq_none_iff.mp hlast) (by simp)
      | some elast =>
        obtain ⟨lt0, ct⟩ := elast
        have hmemt : (lt0, ct) ∈ e.toList := by
          rw [hL]
          exact List.mem_of_mem_getLast? hlast
        have hsettledt : Settled ct := hset lt0 ct (by simpa using hmemt)
        obtain ⟨hctne, hcthead, hctvs, hctinv⟩ := hinv.child lt0 ct (by simpa using hmemt)
        have hht : heightN ct ≤ f := by
          have h1 := heightL_mem hmemt
          omega
        have hfct : findChild e.toList lt0 = some ct :=
          (findChild_some_iff hsorted).mpr hmemt
        obtain ⟨p0, pfxT, hctpfx⟩ : ∃ p0 pfxT, ct.pfx = p0 :: pfxT := by
          cases hpp : ct.pfx with
          | nil => exact absurd hpp hctne
          | cons a b => exact ⟨a, b, rfl⟩
        have hp0 : p0 = lt0 := by
          rw [hctpfx] at hcthead
          simpa using hcthead
        rw [hp0] at hctpfx
        rcases ih ct (acc ++ ct.pfx) hctinv
            (fun l c hm => hsettledt.childSettled l c hm) hht with
          ⟨_, hcl, hce⟩ | ⟨k, v, hmax, hpre, hstored, hmaximal⟩
        · exfalso
          rcases hsettledt.own with ho | ho
          · rw [hcl] at ho
            exact absurd ho (by simp)
          · rw [hce] at ho
            simp at ho
        · obtain ⟨kC, hkC⟩ := hpre
          have hkdrop : k.drop acc.length = ct.pfx ++ kC := by
            rw [← hkC, List.append_assoc]
            exact List.drop_left _ _
          have hkdropc : k.drop (acc ++ ct.pfx).length = kC := by
            rw [← hkC]
            exact List.drop_left _ _
          have hklen : k.length = acc.length + ct.pfx.length + kC.length := by
            rw [← hkC]
            simp
            omega
          refine ⟨k, v, ?_, ?_, ?_, ?_⟩
          · rw [nodeMax]
            simp only [RNode.last_edge, RNode.edges_mk, hL, hlast, Option.map_some']
            exact hmax
          · exact (List.prefix_append acc ct.pfx).trans ⟨kC, hkC⟩
          · intro fuel2 hfl2
            rw [hkdrop, hctpfx]
            obtain ⟨F2, rfl⟩ : ∃ F2, fuel2 = F2 + 1 := ⟨fuel2 - 1, by omega⟩
            rw [show ((lt0 :: pfxT) ++ kC) = lt0 :: (pfxT ++ kC) from rfl]
            rw [nodeGet_succ_cons]
            simp only [RNode.edges_mk, hfct]
            rw [if_pos (show ct.pfx.isPrefixOf (lt0 :: (pfxT ++ kC)) = true by
              rw [List.isPrefixOf_iff_prefix, hctpfx]
              exact ⟨kC, rfl⟩)]
            rw [show (lt0 :: (pfxT ++ kC)).drop ct.pfx.length = kC from by
              rw [hctpfx]
              exact List.drop_left (lt0 :: pfxT) kC]
            have hs2 := hstored F2 (by
              simp only [List.length_append]
              rw [hctpfx] at hklen ⊢
              simp only [List.length_cons] at hklen ⊢
              omega)
            rw [hkdropc] at hs2
            exact hs2
          · intro s v' fuel2 hget
            cases s with
            | nil =>
              rw [List.append_nil]
              rw [show k = acc ++ (ct.pfx ++ kC) from by
                rw [← hkC, List.append_assoc]]
              exact not_lex_refl_prefix acc (ct.pfx ++ kC)
            | cons s0 rest =>
              obtain ⟨F2, c, hF, hfc, hcp, hrec⟩ := nodeGet_some_shape hget
              simp only [RNode.edges_mk] at hfc
              have hmemc := findChild_mem_of_some hfc
              by_cases hs0 : s0 = lt0
              · have hc : c = ct := by
                  rw [hs0, hfct] at hfc
                  exact (Option.some.injEq .. ▸ hfc).symm
                rw [hc] at hcp hrec
                intro hlex
                apply hmaximal ((s0 :: rest).drop ct.pfx.length) v' F2 hrec
                rw [show (acc ++ ct.pfx) ++ ((s0 :: rest).drop ct.pfx.length) =
                    acc ++ (s0 :: rest) from by
                  rw [List.append_assoc]
                  congr 1
                  exact (List.prefix_iff_eq_append.mp
                    (List.isPrefixOf_iff_prefix.mp hcp))]
                exact hlex
              · have hlt : s0 < lt0 := by
                  rcases last_label_max hsorted (hL ▸ hlast) s0 c
                      (hL ▸ hmemc) with h1 | h1
                  · exact absurd h1 hs0
                  · exact h1
                rw [show k = acc ++ lt0 :: (pfxT ++ kC) from by
                  rw [← hkC, hctpfx]
                  simp]
                exact not_lex_lt acc (pfxT ++ kC) rest hlt

/-- C9: ordered extrema — `Node::minimum` walks first edges preferring a
node's own leaf, `Node::maximum` walks last edges to a childless node (the
walks embedded as `nodeMin`/`nodeMax`); on a well-formed root each returns
absent exactly when no key is stored, and otherwise a stored entry that is
the lexicographically smallest (resp. largest) stored key with its value. -/
theorem claim_C9_ordered_extrema {T : Type} (fuel : Nat) (root : RNode T)
    (hinv : NodeInv [] root) (hset : SettledRoot root)
    (hfl : heightN root ≤ fuel) :
    (nodeMin fuel root = none → ∀ (fuel2 : Nat) (s : List Nat),
      nodeGet fuel2 root s = none) ∧
    (∀ k v, nodeMin fuel root = some (k, v) →
      (∀ fuel2 : Nat, k.length < fuel2 → nodeGet fuel2 root k = some v) ∧
      (∀ (s : List Nat) (v' : T) (fuel2 : Nat), nodeGet fuel2 root s = some v' →
        ¬ List.Lex (· < ·) s k)) ∧
    (nodeMax fuel root = none → ∀ (fuel2 : Nat) (s : List Nat),
      nodeGet fuel2 root s = none) ∧
    (∀ k v, nodeMax fuel root = some (k, v) →
      (∀ fuel2 : Nat, k.length < fuel2 → nodeGet fuel2 root k = some v) ∧
      (∀ (s : List Nat) (v' : T) (fuel2 : Nat), nodeGet fuel2 root s = some v' →
        ¬ List.Lex (· < ·) k s)) := by
  have hzero : root.leaf = none → root.edges.toList = [] → leafCountN root = 0 := by
    intro h1 h2
    obtain ⟨p, lf, e⟩ := root
    rw [leafCountN_mk]
    simp only [RNode.leaf_mk] at h1
    simp only [RNode.edges_mk] at h2
    subst h1
    rw [h2]
    simp [leafCountL]
  refine ⟨?_, ?_, ?_, ?_⟩
  · intro hnone fuel2 s
    rcases nodeMin_spec fuel root [] hinv hset hfl with
      ⟨_, hleaf, hedges⟩ | ⟨k, v, hmin, _, _, _⟩
    · exact nodeGet_of_leafCount_zero fuel2 (hzero hleaf hedges) s
    · rw [hmin] at hnone
      exact absurd hnone (by simp)
  · intro k' v' hk'
    rcases nodeMin_spec fuel root [] hinv hset hfl with
      ⟨hnone, _, _⟩ | ⟨k, v, hmin, _, hstored, hminimal⟩
    · rw [hnone] at hk'
      exact absurd hk' (by simp)
    · rw [hmin] at hk'
      obtain ⟨h1, h2⟩ := Prod.mk.injEq .. ▸ Option.some.injEq .. ▸ hk'
      subst h1
      subst h2
      constructor
      · intro fuel2 hfl2
        have hs := hstored fuel2 (by simpa using hfl2)
        simpa using hs
      · intro s v2 fuel2 hget
        have hm := hminimal s v2 fuel2 hget
        rw [List.nil_append] at hm
        exact hm
  · intro hnone fuel2 s
    rcases nodeMax_spec fuel root [] hinv hset hfl with
      ⟨_, hleaf, hedges⟩ | ⟨k, v, hmax, _, _, _⟩
    · exact nodeGet_of_leafCount_zero fuel2 (hzero hleaf hedges) s
    · rw [hmax] at hnone
      exact absurd hnone (by simp)
  · intro k' v' hk'
    rcases nodeMax_spec fuel root [] hinv hset hfl with
      ⟨hnone, _, _⟩ | ⟨k, v, hmax, _, hstored, hmaximal⟩
    · rw [hnone] at hk'
      exact absurd hk' (by simp)
    · rw [hmax] at hk'
      obtain ⟨h1, h2⟩ := Prod.mk.injEq .. ▸ Option.some.injEq .. ▸ hk'
      subst h1
      subst h2
      constructor
      · intro fuel2 hfl2
        have hs := hstored fuel2 (by simpa using hfl2)
        simpa using hs
      · intro s v2 fuel2 hget
        have hm := hmaximal s v2 fuel2 hget
        rw [List.nil_append] at hm
        exact hm

theorem claim_C9_ordered_extrema_witness :
    (nodeMin 2 c5Root = none → ∀ (fuel2 : Nat) (s : List Nat),
      nodeGet fuel2 c5Root s = none) ∧
    (∀ k v, nodeMin 2 c5Root = some (k, v) →
      (∀ fuel2 : Nat, k.length < fuel2 → nodeGet fuel2 c5Root k = some v) ∧
      (∀ (s : List Nat) (v' : Nat) (fuel2 : Nat), nodeGet fuel2 c5Root s = some v' →
        ¬ List.Lex (· < ·) s k)) ∧
    (nodeMax 2 c5Root = none → ∀ (fuel2 : Nat) (s : List Nat),
      nodeGet fuel2 c5Root s = none) ∧
    (∀ k v, nodeMax 2 c5Root = some (k, v) →
      (∀ fuel2 : Nat, k.length < fuel2 → nodeGet fuel2 c5Root k = some v) ∧
      (∀ (s : List Nat) (v' : Nat) (fuel2 : Nat), nodeGet fuel2 c5Root s = some v' →
        ¬ List.Lex (· < ·) k s)) :=
  claim_C9_ordered_extrema 2 c5Root c5Root_inv c5Root_settled (by decide)
